import Mathlib

/-!
Centroidal dynamics of an articulated rigid-body tree

A shallow embedding of `src/algorithm/centroidal.hxx` (namespace `se3`):
`computeCentroidalDynamics` (velocity and acceleration variants), `ccrba` and
`dccrba`, over an exact scalar field `K` standing for the template parameter
`Scalar`.  Per-joint arrays (`std::vector`, indexed by joint id) are total
functions `Nat → _` updated with `Function.update`; the `6 × nv` matrices are
column families `Nat → _`.
-/

namespace se3

/-! ## Spatial algebra -/

/-- Modelled from the spec: the 3-d vector type (`Vector3`) of the underlying
linear-algebra library, with its three coordinates. -/
@[ext]
structure Vector3 (K : Type) where
  x : K
  y : K
  z : K
deriving DecidableEq, Repr

namespace Vector3

variable {K : Type} [Field K]

instance : Zero (Vector3 K) := ⟨⟨0, 0, 0⟩⟩
instance : Add (Vector3 K) := ⟨fun a b => ⟨a.x + b.x, a.y + b.y, a.z + b.z⟩⟩
instance : Neg (Vector3 K) := ⟨fun a => ⟨-a.x, -a.y, -a.z⟩⟩
instance : Sub (Vector3 K) := ⟨fun a b => ⟨a.x - b.x, a.y - b.y, a.z - b.z⟩⟩
instance : SMul K (Vector3 K) := ⟨fun s a => ⟨s * a.x, s * a.y, s * a.z⟩⟩

instance : AddCommGroup (Vector3 K) where
  add_assoc a b c := by ext <;> exact add_assoc _ _ _
  zero_add a := by ext <;> exact zero_add _
  add_zero a := by ext <;> exact add_zero _
  nsmul := nsmulRec
  zsmul := zsmulRec
  neg_add_cancel a := by ext <;> exact neg_add_cancel _
  add_comm a b := by ext <;> exact add_comm _ _
  sub_eq_add_neg a b := by ext <;> exact sub_eq_add_neg _ _

instance : Module K (Vector3 K) where
  one_smul a := by ext <;> exact one_mul _
  mul_smul s t a := by ext <;> exact mul_assoc _ _ _
  smul_zero s := by ext <;> exact mul_zero _
  smul_add s a b := by ext <;> exact mul_add _ _ _
  add_smul s t a := by ext <;> exact add_mul _ _ _
  zero_smul a := by ext <;> exact zero_mul _

/-- Cross product `a × b` (`a.cross(b)`). -/
def cross (a b : Vector3 K) : Vector3 K :=
  ⟨a.y * b.z - a.z * b.y, a.z * b.x - a.x * b.z, a.x * b.y - a.y * b.x⟩

/-- Division of a vector by a scalar, coordinate by coordinate (`v / s`). -/
instance : HDiv (Vector3 K) K (Vector3 K) := ⟨fun a s => ⟨a.x / s, a.y / s, a.z / s⟩⟩

end Vector3

/-- Modelled from the spec: the 3×3 matrix type (`Matrix3`) of the underlying
linear-algebra library; the field `xy` is the entry of row `x`, column `y`. -/
@[ext]
structure Matrix3 (K : Type) where
  xx : K
  xy : K
  xz : K
  yx : K
  yy : K
  yz : K
  zx : K
  zy : K
  zz : K
deriving DecidableEq

namespace Matrix3

variable {K : Type} [Field K]

/-- The identity matrix. -/
def identity : Matrix3 K := ⟨1, 0, 0, 0, 1, 0, 0, 0, 1⟩

/-- Matrix product `A * B`. -/
def mul (A B : Matrix3 K) : Matrix3 K :=
  ⟨A.xx * B.xx + A.xy * B.yx + A.xz * B.zx,
   A.xx * B.xy + A.xy * B.yy + A.xz * B.zy,
   A.xx * B.xz + A.xy * B.yz + A.xz * B.zz,
   A.yx * B.xx + A.yy * B.yx + A.yz * B.zx,
   A.yx * B.xy + A.yy * B.yy + A.yz * B.zy,
   A.yx * B.xz + A.yy * B.yz + A.yz * B.zz,
   A.zx * B.xx + A.zy * B.yx + A.zz * B.zx,
   A.zx * B.xy + A.zy * B.yy + A.zz * B.zy,
   A.zx * B.xz + A.zy * B.yz + A.zz * B.zz⟩

/-- Transposed matrix. -/
def transpose (A : Matrix3 K) : Matrix3 K :=
  ⟨A.xx, A.yx, A.zx, A.xy, A.yy, A.zy, A.xz, A.yz, A.zz⟩

/-- Matrix-vector product `A * v`. -/
def mulVec (A : Matrix3 K) (v : Vector3 K) : Vector3 K :=
  ⟨A.xx * v.x + A.xy * v.y + A.xz * v.z,
   A.yx * v.x + A.yy * v.y + A.yz * v.z,
   A.zx * v.x + A.zy * v.y + A.zz * v.z⟩

/-- Determinant. -/
def det (A : Matrix3 K) : K :=
  A.xx * (A.yy * A.zz - A.yz * A.zy) - A.xy * (A.yx * A.zz - A.yz * A.zx)
    + A.xz * (A.yx * A.zy - A.yy * A.zx)

end Matrix3

/-- Modelled from the spec: the symmetric 3×3 matrix (`Symmetric3`) holding a
rotational inertia, stored by its six independent entries. -/
@[ext]
structure Symmetric3 (K : Type) where
  xx : K
  xy : K
  yy : K
  xz : K
  yz : K
  zz : K
deriving DecidableEq

namespace Symmetric3

variable {K : Type} [Field K]

instance : Zero (Symmetric3 K) := ⟨⟨0, 0, 0, 0, 0, 0⟩⟩
instance : Add (Symmetric3 K) :=
  ⟨fun a b => ⟨a.xx + b.xx, a.xy + b.xy, a.yy + b.yy, a.xz + b.xz, a.yz + b.yz, a.zz + b.zz⟩⟩
instance : Sub (Symmetric3 K) :=
  ⟨fun a b => ⟨a.xx - b.xx, a.xy - b.xy, a.yy - b.yy, a.xz - b.xz, a.yz - b.yz, a.zz - b.zz⟩⟩
instance : SMul K (Symmetric3 K) :=
  ⟨fun s a => ⟨s * a.xx, s * a.xy, s * a.yy, s * a.xz, s * a.yz, s * a.zz⟩⟩

/-- The full matrix of a symmetric matrix (`matrix()`). -/
def matrix (S : Symmetric3 K) : Matrix3 K :=
  ⟨S.xx, S.xy, S.xz, S.xy, S.yy, S.yz, S.xz, S.yz, S.zz⟩

/-- Product with a vector (`rhsMult`): `S * v`. -/
def rhsMult (S : Symmetric3 K) (v : Vector3 K) : Vector3 K := S.matrix.mulVec v

/-- The square of the skew matrix of `v` (`SkewSquare`): `[v]× [v]×`. -/
def SkewSquare (v : Vector3 K) : Symmetric3 K :=
  ⟨-(v.y * v.y) - v.z * v.z, v.x * v.y, -(v.x * v.x) - v.z * v.z,
   v.x * v.z, v.y * v.z, -(v.x * v.x) - v.y * v.y⟩

/-- Change of basis `R S Rᵀ` (`rotate`), of which the upper triangle is kept. -/
def rotate (S : Symmetric3 K) (R : Matrix3 K) : Symmetric3 K :=
  let M := (R.mul S.matrix).mul R.transpose
  ⟨M.xx, M.xy, M.yy, M.xz, M.yz, M.zz⟩

end Symmetric3

/-- Modelled from the spec: the SE(3) rigid transform (`SE3`), a rotation
matrix (orthonormal, determinant one) and a translation. -/
@[ext]
structure SE3 (K : Type) [Field K] where
  rotation : Matrix3 K
  translation : Vector3 K
  rotation_mul_transpose : rotation.mul rotation.transpose = Matrix3.identity
  transpose_mul_rotation : rotation.transpose.mul rotation = Matrix3.identity
  rotation_det : rotation.det = 1

namespace SE3

variable {K : Type} [Field K]

/-- The identity transform (`SE3::Identity()`). -/
def Identity : SE3 K where
  rotation := Matrix3.identity
  translation := 0
  rotation_mul_transpose := by
    ext <;> simp only [Matrix3.mul, Matrix3.transpose, Matrix3.identity] <;> ring
  transpose_mul_rotation := by
    ext <;> simp only [Matrix3.mul, Matrix3.transpose, Matrix3.identity] <;> ring
  rotation_det := by simp only [Matrix3.det, Matrix3.identity]; ring

/-- Composition `a * b` of rigid transforms: rotation `Ra Rb`, translation
`pa + Ra pb`. -/
def mul (a b : SE3 K) : SE3 K where
  rotation := a.rotation.mul b.rotation
  translation := a.translation + a.rotation.mulVec b.translation
  rotation_mul_transpose := by
    have h1 : (a.rotation.mul b.rotation).mul (a.rotation.mul b.rotation).transpose
        = (a.rotation.mul (b.rotation.mul b.rotation.transpose)).mul a.rotation.transpose := by
      ext <;> simp only [Matrix3.mul, Matrix3.transpose] <;> ring
    have h2 : (a.rotation.mul Matrix3.identity).mul a.rotation.transpose
        = a.rotation.mul a.rotation.transpose := by
      ext <;> simp only [Matrix3.mul, Matrix3.transpose, Matrix3.identity] <;> ring
    rw [h1, b.rotation_mul_transpose, h2, a.rotation_mul_transpose]
  transpose_mul_rotation := by
    have h1 : (a.rotation.mul b.rotation).transpose.mul (a.rotation.mul b.rotation)
        = (b.rotation.transpose.mul (a.rotation.transpose.mul a.rotation)).mul b.rotation := by
      ext <;> simp only [Matrix3.mul, Matrix3.transpose] <;> ring
    have h2 : (b.rotation.transpose.mul Matrix3.identity).mul b.rotation
        = b.rotation.transpose.mul b.rotation := by
      ext <;> simp only [Matrix3.mul, Matrix3.transpose, Matrix3.identity] <;> ring
    rw [h1, a.transpose_mul_rotation, h2, b.transpose_mul_rotation]
  rotation_det := by
    have h : (a.rotation.mul b.rotation).det = a.rotation.det * b.rotation.det := by
      simp only [Matrix3.det, Matrix3.mul]; ring
    rw [h, a.rotation_det, b.rotation_det, mul_one]

instance : Mul (SE3 K) := ⟨mul⟩
instance : One (SE3 K) := ⟨Identity⟩

end SE3

/-- Modelled from the spec: a spatial motion vector (`Motion`): velocity or
acceleration, a linear and an angular part. -/
@[ext]
structure Motion (K : Type) where
  linear : Vector3 K
  angular : Vector3 K
deriving DecidableEq

/-- Modelled from the spec: a spatial force vector (`Force`): force/torque or
linear/angular momentum. -/
@[ext]
structure Force (K : Type) where
  linear : Vector3 K
  angular : Vector3 K
deriving DecidableEq

namespace Motion

variable {K : Type} [Field K]

instance : Zero (Motion K) := ⟨⟨0, 0⟩⟩
instance : Add (Motion K) := ⟨fun a b => ⟨a.linear + b.linear, a.angular + b.angular⟩⟩
instance : Neg (Motion K) := ⟨fun a => ⟨-a.linear, -a.angular⟩⟩
instance : Sub (Motion K) := ⟨fun a b => ⟨a.linear - b.linear, a.angular - b.angular⟩⟩
instance : SMul K (Motion K) := ⟨fun s a => ⟨s • a.linear, s • a.angular⟩⟩

instance : AddCommGroup (Motion K) where
  add_assoc a b c := by ext1 <;> exact add_assoc _ _ _
  zero_add a := by ext1 <;> exact zero_add _
  add_zero a := by ext1 <;> exact add_zero _
  nsmul := nsmulRec
  zsmul := zsmulRec
  neg_add_cancel a := by ext1 <;> exact neg_add_cancel _
  add_comm a b := by ext1 <;> exact add_comm _ _
  sub_eq_add_neg a b := by ext1 <;> exact sub_eq_add_neg _ _

instance : Module K (Motion K) where
  one_smul a := by ext1 <;> exact one_smul _ _
  mul_smul s t a := by ext1 <;> exact mul_smul _ _ _
  smul_zero s := by ext1 <;> exact smul_zero _
  smul_add s a b := by ext1 <;> exact smul_add _ _ _
  add_smul s t a := by ext1 <;> exact add_smul _ _ _
  zero_smul a := by ext1 <;> exact zero_smul _ _

/-- Modelled from the spec: the Lie bracket `a ^ b` of the motion algebra
(`Motion::cross(Motion)`). -/
def cross (a b : Motion K) : Motion K :=
  ⟨a.linear.cross b.angular + a.angular.cross b.linear, a.angular.cross b.angular⟩

/-- Modelled from the spec: the dual cross pairing `v × f` of a motion on a
force (`Motion::cross(Force)`), the bilinear term of the Newton-Euler
residual. -/
def crossForce (v : Motion K) (f : Force K) : Force K :=
  ⟨v.angular.cross f.linear, v.angular.cross f.angular + v.linear.cross f.linear⟩

/-- Modelled from the spec: the forward action `M.act(m)` of a rigid
transform on a motion. -/
def se3Action (M : SE3 K) (m : Motion K) : Motion K :=
  ⟨M.rotation.mulVec m.linear + M.translation.cross (M.rotation.mulVec m.angular),
   M.rotation.mulVec m.angular⟩

/-- Modelled from the spec: the inverse action `M.actInv(m)` of a rigid
transform on a motion. -/
def se3ActionInverse (M : SE3 K) (m : Motion K) : Motion K :=
  ⟨M.rotation.transpose.mulVec (m.linear - M.translation.cross m.angular),
   M.rotation.transpose.mulVec m.angular⟩

end Motion

namespace Force

variable {K : Type} [Field K]

instance : Zero (Force K) := ⟨⟨0, 0⟩⟩
instance : Add (Force K) := ⟨fun a b => ⟨a.linear + b.linear, a.angular + b.angular⟩⟩
instance : Neg (Force K) := ⟨fun a => ⟨-a.linear, -a.angular⟩⟩
instance : Sub (Force K) := ⟨fun a b => ⟨a.linear - b.linear, a.angular - b.angular⟩⟩
instance : SMul K (Force K) := ⟨fun s a => ⟨s • a.linear, s • a.angular⟩⟩

instance : AddCommGroup (Force K) where
  add_assoc a b c := by ext1 <;> exact add_assoc _ _ _
  zero_add a := by ext1 <;> exact zero_add _
  add_zero a := by ext1 <;> exact add_zero _
  nsmul := nsmulRec
  zsmul := zsmulRec
  neg_add_cancel a := by ext1 <;> exact neg_add_cancel _
  add_comm a b := by ext1 <;> exact add_comm _ _
  sub_eq_add_neg a b := by ext1 <;> exact sub_eq_add_neg _ _

instance : Module K (Force K) where
  one_smul a := by ext1 <;> exact one_smul _ _
  mul_smul s t a := by ext1 <;> exact mul_smul _ _ _
  smul_zero s := by ext1 <;> exact smul_zero _
  smul_add s a b := by ext1 <;> exact smul_add _ _ _
  add_smul s t a := by ext1 <;> exact add_smul _ _ _
  zero_smul a := by ext1 <;> exact zero_smul _ _

/-- Modelled from the spec: the dual action `M.act(f)` of a rigid transform on
a force, which keeps the power pairing invariant. -/
def se3Action (M : SE3 K) (f : Force K) : Force K :=
  ⟨M.rotation.mulVec f.linear,
   M.rotation.mulVec f.angular + M.translation.cross (M.rotation.mulVec f.linear)⟩

/-- The frame shift to the center of mass used by every entry point:
`f.angular() += f.linear().cross(com)`. -/
def shift (f : Force K) (com : Vector3 K) : Force K :=
  ⟨f.linear, f.angular + f.linear.cross com⟩

end Force

/-- Modelled from the spec: the spatial inertia (`Inertia`): mass, lever of
the center of mass and rotational inertia. -/
@[ext]
structure Inertia (K : Type) where
  mass : K
  lever : Vector3 K
  inertia : Symmetric3 K
deriving DecidableEq

/-- Modelled from the spec: a dense 6×6 matrix (`Matrix6`) acting on motions,
stored by its six columns (three for the linear, then three for the angular
coordinates of the argument). -/
@[ext]
structure Matrix6 (K : Type) where
  c0 : Force K
  c1 : Force K
  c2 : Force K
  c3 : Force K
  c4 : Force K
  c5 : Force K
deriving DecidableEq

namespace Matrix6

variable {K : Type} [Field K]

instance : Zero (Matrix6 K) := ⟨⟨0, 0, 0, 0, 0, 0⟩⟩
instance : Add (Matrix6 K) :=
  ⟨fun a b => ⟨a.c0 + b.c0, a.c1 + b.c1, a.c2 + b.c2, a.c3 + b.c3, a.c4 + b.c4, a.c5 + b.c5⟩⟩

/-- The matrix whose columns are the images of the six unit motions. -/
def ofColumns (f : Motion K → Force K) : Matrix6 K :=
  ⟨f ⟨⟨1, 0, 0⟩, 0⟩, f ⟨⟨0, 1, 0⟩, 0⟩, f ⟨⟨0, 0, 1⟩, 0⟩,
   f ⟨0, ⟨1, 0, 0⟩⟩, f ⟨0, ⟨0, 1, 0⟩⟩, f ⟨0, ⟨0, 0, 1⟩⟩⟩

/-- Matrix-vector product of a 6×6 matrix with (the vector of) a motion. -/
def mulMotion (A : Matrix6 K) (m : Motion K) : Force K :=
  m.linear.x • A.c0 + m.linear.y • A.c1 + m.linear.z • A.c2
    + m.angular.x • A.c3 + m.angular.y • A.c4 + m.angular.z • A.c5

end Matrix6

namespace Inertia

variable {K : Type} [Field K]

/-- The zero inertia (`setZero()`). -/
def Zero : Inertia K := ⟨0, 0, 0⟩

/-- Modelled from the spec: `Y * v`, the momentum of a body of inertia `Y`
moving with velocity `v`. -/
def mult (Y : Inertia K) (v : Motion K) : Force K :=
  let lin := Y.mass • (v.linear - Y.lever.cross v.angular)
  ⟨lin, Y.inertia.rhsMult v.angular + Y.lever.cross lin⟩

/-- Modelled from the spec: addition of inertias (mass superposition): the
masses add, the lever is the mass-weighted mean of the levers, the rotational
inertias add up to the parallel-axis term. -/
def add (Ya Yb : Inertia K) : Inertia K :=
  let mab := Ya.mass + Yb.mass
  let mab_inv := 1 / mab
  let AB := Ya.lever - Yb.lever
  ⟨mab, mab_inv • (Ya.mass • Ya.lever + Yb.mass • Yb.lever),
   Ya.inertia + Yb.inertia - (Ya.mass * Yb.mass * mab_inv) • Symmetric3.SkewSquare AB⟩

instance : Add (Inertia K) := ⟨add⟩

/-- Modelled from the spec: the action `M.act(Y)` of a rigid transform on an
inertia. -/
def se3Action (M : SE3 K) (Y : Inertia K) : Inertia K :=
  ⟨Y.mass, M.translation + M.rotation.mulVec Y.lever, Y.inertia.rotate M.rotation⟩

/-- Modelled from the spec: `Y.variation(v)`, the rate of change of the
inertia `Y` induced by the velocity `v`, as the 6×6 matrix of
`m ↦ v × (Y m) - Y (v ^ m)`. -/
def variation (Y : Inertia K) (v : Motion K) : Matrix6 K :=
  Matrix6.ofColumns fun m => v.crossForce (Y.mult m) - Y.mult (v.cross m)

end Inertia

/-! ## Joints, Model and Data -/

section model

variable {K : Type} [Field K]

/-- Modelled from the spec: the per-joint working values (`JointData`) left by
the joint's kinematics routine: local transform `M`, motion subspace `S`
(by columns), own spatial velocity `v`, bias acceleration `c`, and the
scratch columns `U`. -/
structure JointData (K : Type) [Field K] where
  M : SE3 K
  S : Nat → Motion K
  v : Motion K
  c : Motion K
  U : Nat → Force K

/-- Modelled from the spec: one joint's kinematic descriptor (`JointModel`):
the offset `idx_v` and width `nv` of its block in the generalized velocity,
and its kinematics as functions of the configuration and velocity vectors. -/
structure JointModel (K : Type) [Field K] where
  idx_v : Nat
  nv : Nat
  jointTransform : List K → SE3 K
  jointSubspace : List K → Nat → Motion K
  jointVelocity : List K → List K → Motion K
  jointBias : List K → List K → Motion K

/-- Modelled from the spec: `jmodel.calc(jdata, q)`, the kinematics routine
for a configuration only: it sets the local transform and the motion
subspace. -/
def JointModel.calcQ (jmodel : JointModel K) (jdata : JointData K) (q : List K) :
    JointData K :=
  { jdata with M := jmodel.jointTransform q, S := jmodel.jointSubspace q }

/-- Modelled from the spec: `jmodel.calc(jdata, q, v)`, the kinematics routine
for a configuration and a velocity: local transform, motion subspace, own
spatial velocity and bias term. -/
def JointModel.calcQV (jmodel : JointModel K) (jdata : JointData K) (q v : List K) :
    JointData K :=
  { jdata with M := jmodel.jointTransform q, S := jmodel.jointSubspace q,
               v := jmodel.jointVelocity q v, c := jmodel.jointBias q v }

/-- The slice `jmodel.jointVelocitySelector(a)` of a generalized vector that
belongs to the joint: `a.segment(idx_v, nv)`. -/
def JointModel.jointVelocitySelector (jmodel : JointModel K) (a : List K) : Nat → K :=
  fun k => a.getD (jmodel.idx_v + k) 0

/-- Writing the block `jmodel.jointCols(A) = A.middleCols(idx_v, nv)` of a
matrix given by columns: the columns of the block become `B`, the others are
kept. -/
def JointModel.setJointCols {α : Type} (jmodel : JointModel K) (A B : Nat → α) : Nat → α :=
  fun k => if jmodel.idx_v ≤ k ∧ k < jmodel.idx_v + jmodel.nv then B (k - jmodel.idx_v) else A k

/-- Reading the block `jmodel.jointCols(A)`. -/
def JointModel.jointCols {α : Type} (jmodel : JointModel K) (A : Nat → α) : Nat → α :=
  fun k => A (jmodel.idx_v + k)

/-- Product of a matrix with `n` columns `A` with a vector `x`. -/
def mulCols {α : Type} [AddCommMonoid α] [SMul K α] (A : Nat → α) (n : Nat) (x : Nat → K) : α :=
  ∑ k in Finset.range n, x k • A k

/-- The static tree description (`Model`). -/
structure Model (K : Type) [Field K] where
  njoints : Nat
  nq : Nat
  nv : Nat
  parents : Nat → Nat
  jointPlacements : Nat → SE3 K
  inertias : Nat → Inertia K
  joints : Nat → JointModel K

/-- The mutable working buffers (`Data`). The last two fields record the sizes
the buffers were allocated with. -/
structure Data (K : Type) [Field K] where
  joints : Nat → JointData K
  a : Nat → Motion K
  v : Nat → Motion K
  ov : Nat → Motion K
  f : Nat → Force K
  h : Nat → Force K
  oMi : Nat → SE3 K
  liMi : Nat → SE3 K
  Ycrb : Nat → Inertia K
  oYcrb : Nat → Inertia K
  doYcrb : Nat → Matrix6 K
  mass : Nat → K
  com : Nat → Vector3 K
  vcom : Nat → Vector3 K
  J : Nat → Motion K
  dJ : Nat → Motion K
  Ag : Nat → Force K
  dAg : Nat → Force K
  hg : Force K
  dhg : Force K
  Ig : Inertia K
  njoints : Nat
  nv : Nat

/-- Modelled from the spec: `model.check(data)`, "Data was allocated against
the same Model": the buffers have the sizes of the model. -/
def Model.check (model : Model K) (data : Data K) : Bool :=
  data.njoints == model.njoints && data.nv == model.nv

/-- The loop `for(i = start; i < start + count; ++i) body(i)`. -/
def forUp {σ : Type} (body : Nat → σ → σ) : Nat → Nat → σ → σ
  | _, 0, s => s
  | start, count + 1, s => forUp body (start + 1) count (body start s)

/-- The loop `for(i = last; i > 0; --i) body(i)`. -/
def forDown {σ : Type} (body : Nat → σ → σ) : Nat → σ → σ
  | 0, s => s
  | i + 1, s => forDown body i (body (i + 1) s)

/-! ## Forward kinematics -/

/-- Modelled from the spec: one step of `forwardKinematics(model, data, q)`
(placements only, spec 4.3 steps 1 and 2): the joint's local transform, the
placement relative to the parent and the placement relative to the world. -/
def ForwardKinematicZeroStep.algo (model : Model K) (q : List K) (i : Nat) (data : Data K) :
    Data K :=
  let parent := model.parents i
  let data := { data with joints := Function.update data.joints i <|
                  ((model.joints i).calcQ (data.joints i) q) }
  let data := { data with liMi := Function.update data.liMi i <|
                  (model.jointPlacements i * (data.joints i).M) }
  if parent > 0 then
    { data with oMi := Function.update data.oMi i (data.oMi parent * data.liMi i) }
  else
    { data with oMi := Function.update data.oMi i (data.liMi i) }

/-- Modelled from the spec: `forwardKinematics(model, data, q)`. -/
def forwardKinematics (model : Model K) (data : Data K) (q : List K) : Data K :=
  forUp (ForwardKinematicZeroStep.algo model q) 1 (model.njoints - 1) data

/-- Modelled from the spec: one step of `forwardKinematics(model, data, q, v)`
(spec 4.3 steps 1 to 3): placements, and the velocity propagated from the
parent when the parent is not the root. -/
def ForwardKinematicFirstStep.algo (model : Model K) (q v : List K) (i : Nat) (data : Data K) :
    Data K :=
  let parent := model.parents i
  let data := { data with joints := Function.update data.joints i <|
                  ((model.joints i).calcQV (data.joints i) q v) }
  let data := { data with v := Function.update data.v i (data.joints i).v }
  let data := { data with liMi := Function.update data.liMi i <|
                  (model.jointPlacements i * (data.joints i).M) }
  if parent > 0 then
    let data := { data with oMi := Function.update data.oMi i (data.oMi parent * data.liMi i) }
    { data with v := Function.update data.v i <|
        (data.v i + Motion.se3ActionInverse (data.liMi i) (data.v parent)) }
  else
    { data with oMi := Function.update data.oMi i (data.liMi i) }

/-- Modelled from the spec: `forwardKinematics(model, data, q, v)`. -/
def forwardKinematicsV (model : Model K) (data : Data K) (q v : List K) : Data K :=
  forUp (ForwardKinematicFirstStep.algo model q v) 1 (model.njoints - 1) data

/-! ## Centroidal dynamics -/

/-- `CentroidalDynamicsForwardStep::algo` (velocity variant), lines 49-79. -/
def CentroidalDynamicsForwardStep.algo (model : Model K) (q v : List K) (i : Nat)
    (data : Data K) : Data K :=
  let parent := model.parents i
  let Y := model.inertias i
  let data := { data with joints := Function.update data.joints i <|
                  ((model.joints i).calcQV (data.joints i) q v) }
  let data := { data with liMi := Function.update data.liMi i <|
                  (model.jointPlacements i * (data.joints i).M) }
  let data := { data with mass := Function.update data.mass i Y.mass }
  let data := { data with com := Function.update data.com i (Y.mass • Y.lever) }
  let data :=
    if parent > 0 then
      let data := { data with v := Function.update data.v i <|
                      (Motion.se3ActionInverse (data.liMi i) (data.v parent)) }
      { data with v := Function.update data.v i (data.v i + (data.joints i).v) }
    else
      { data with v := Function.update data.v i (data.joints i).v }
  { data with h := Function.update data.h i (Y.mult (data.v i)) }

/-- `CentroidalDynamicsForwardStep::algo` (acceleration variant), lines 98-125. -/
def CentroidalDynamicsForwardStepA.algo (model : Model K) (q v a : List K) (i : Nat)
    (data : Data K) : Data K :=
  let parent := model.parents i
  let Y := model.inertias i
  let data := CentroidalDynamicsForwardStep.algo model q v i data
  let data := { data with a := Function.update data.a i <|
                  (mulCols (data.joints i).S (model.joints i).nv
                      ((model.joints i).jointVelocitySelector a)
                    + (data.joints i).c + (data.v i).cross (data.joints i).v) }
  let data :=
    if parent > 0 then
      { data with a := Function.update data.a i <|
          (data.a i + Motion.se3ActionInverse (data.liMi i) (data.a parent)) }
    else data
  { data with f := Function.update data.f i <|
      (Y.mult (data.a i) + (data.v i).crossForce (data.h i)) }

/-- The body of the backward loop of `computeCentroidalDynamics`, lines 157-162. -/
def centroidalBackwardStep (model : Model K) (i : Nat) (data : Data K) : Data K :=
  let parent := model.parents i
  let liMi := data.liMi i
  let data := { data with mass := Function.update data.mass parent <|
                  (data.mass parent + data.mass i) }
  let data := { data with com := Function.update data.com parent <|
                  (data.com parent
                    + (liMi.rotation.mulVec (data.com i) + data.mass i • liMi.translation)) }
  { data with h := Function.update data.h parent <|
      (data.h parent + Force.se3Action (data.liMi i) (data.h i)) }

/-- The body of the backward loop of `computeCentroidalDynamics` with
acceleration, lines 206-212. -/
def centroidalBackwardStepA (model : Model K) (i : Nat) (data : Data K) : Data K :=
  let parent := model.parents i
  let data := centroidalBackwardStep model i data
  { data with f := Function.update data.f parent <|
      (data.f parent + Force.se3Action (data.liMi i) (data.f i)) }

/-- `computeCentroidalDynamics(model, data, q, v)`, lines 129-171. The three
assertions reject the call (`none`); otherwise the mutated `data` is the
result, of which `hg` is the value returned. -/
def computeCentroidalDynamics (model : Model K) (data : Data K) (q v : List K) :
    Option (Data K) :=
  if model.check data = true ∧ q.length = model.nq ∧ v.length = model.nv then
    let data := forUp (CentroidalDynamicsForwardStep.algo model q v) 1 (model.njoints - 1) data
    let data := { data with mass := Function.update data.mass 0 0,
                            com := Function.update data.com 0 0,
                            h := Function.update data.h 0 0 }
    let data := forDown (centroidalBackwardStep model) (model.njoints - 1) data
    let data := { data with com := Function.update data.com 0 (data.com 0 / data.mass 0) }
    let data := { data with hg := data.h 0 }
    let data := { data with hg := data.hg.shift (data.com 0) }
    some data
  else none

/-- `computeCentroidalDynamics(model, data, q, v, a)`, lines 173-224. The four
assertions reject the call (`none`); otherwise the mutated `data` is the
result, of which `dhg` is the value returned. -/
def computeCentroidalDynamicsA (model : Model K) (data : Data K) (q v a : List K) :
    Option (Data K) :=
  if model.check data = true ∧ q.length = model.nq ∧ v.length = model.nv
      ∧ a.length = model.nv then
    let data := forUp (CentroidalDynamicsForwardStepA.algo model q v a) 1
                  (model.njoints - 1) data
    let data := { data with mass := Function.update data.mass 0 0,
                            com := Function.update data.com 0 0 }
    let data := { data with h := Function.update data.h 0 0 }
    let data := { data with f := Function.update data.f 0 0 }
    let data := forDown (centroidalBackwardStepA model) (model.njoints - 1) data
    let data := { data with com := Function.update data.com 0 (data.com 0 / data.mass 0) }
    let data := { data with hg := data.h 0 }
    let data := { data with hg := data.hg.shift (data.com 0) }
    let data := { data with dhg := data.f 0 }
    let data := { data with dhg := data.dhg.shift (data.com 0) }
    some data
  else none

/-! ## CCRBA and DCCRBA -/

/-- `CcrbaBackwardStep::algo`, lines 237-257. -/
def CcrbaBackwardStep.algo (model : Model K) (i : Nat) (data : Data K) : Data K :=
  let parent := model.parents i
  let data := { data with Ycrb := Function.update data.Ycrb parent <|
                  (data.Ycrb parent + Inertia.se3Action (data.liMi i) (data.Ycrb i)) }
  let data := { data with joints := Function.update data.joints i <|
                  { data.joints i with U := fun k => (data.Ycrb i).mult ((data.joints i).S k) } }
  { data with Ag := (model.joints i).setJointCols data.Ag <|
      (fun k => Force.se3Action (data.oMi i) ((data.joints i).U k)) }

/-- The loop `for(i = 0; i < nv; ++i) Ag_ang.col(i) += Ag_lin.col(i).cross(com[0])`
of `ccrba` and `dccrba` on the matrix `Ag`. -/
def shiftAg (nv : Nat) (data : Data K) : Data K :=
  forUp (fun k d => { d with Ag := Function.update d.Ag k ((d.Ag k).shift (d.com 0)) }) 0 nv data

/-- The same loop of `dccrba` on the matrix `dAg`. -/
def shiftdAg (nv : Nat) (data : Data K) : Data K :=
  forUp (fun k d => { d with dAg := Function.update d.dAg k ((d.dAg k).shift (d.com 0)) })
    0 nv data

/-- `ccrba(model, data, q, v)`, lines 261-304. The three assertions reject the
call (`none`); otherwise the mutated `data` is the result, of which `Ag` is
the value returned. -/
def ccrba (model : Model K) (data : Data K) (q v : List K) : Option (Data K) :=
  if model.check data = true ∧ q.length = model.nq ∧ v.length = model.nv then
    let data := forwardKinematics model data q
    let data := { data with Ycrb := Function.update data.Ycrb 0 Inertia.Zero }
    let data := forUp (fun i d => { d with Ycrb := Function.update d.Ycrb i (model.inertias i) })
                  1 (model.njoints - 1) data
    let data := forDown (CcrbaBackwardStep.algo model) (model.njoints - 1) data
    let data := { data with com := Function.update data.com 0 (data.Ycrb 0).lever }
    let data := shiftAg model.nv data
    let data := { data with hg := mulCols data.Ag model.nv (fun k => v.getD k 0) }
    let data := { data with Ig := { data.Ig with mass := (data.Ycrb 0).mass } }
    let data := { data with Ig := { data.Ig with lever := 0 } }
    let data := { data with Ig := { data.Ig with inertia := (data.Ycrb 0).inertia } }
    some data
  else none

/-- `DCcrbaBackwardStep::algo`, lines 317-350. `Y` and `doYcrb` are references
to `data.oYcrb[i]` and `data.doYcrb[i]`, read where they are used. -/
def DCcrbaBackwardStep.algo (model : Model K) (i : Nat) (data : Data K) : Data K :=
  let parent := model.parents i
  let jmodel := model.joints i
  let data := { data with J := jmodel.setJointCols data.J <|
                  (fun k => Motion.se3Action (data.oMi i) ((data.joints i).S k)) }
  let data := { data with dJ := jmodel.setJointCols data.dJ <|
                  (fun k => (data.ov i).cross (jmodel.jointCols data.J k)) }
  let data := { data with oYcrb := Function.update data.oYcrb parent <|
                  (data.oYcrb parent + data.oYcrb i) }
  let data :=
    if parent > 0 then
      { data with doYcrb := Function.update data.doYcrb parent <|
          (data.doYcrb parent + data.doYcrb i) }
    else data
  let data := { data with Ag := jmodel.setJointCols data.Ag <|
                  (fun k => (data.oYcrb i).mult (jmodel.jointCols data.J k)) }
  let data := { data with dAg := jmodel.setJointCols data.dAg <|
                  (fun k => (data.doYcrb i).mulMotion (jmodel.jointCols data.J k)) }
  { data with dAg := jmodel.setJointCols data.dAg <|
      (fun k => jmodel.jointCols data.dAg k + (data.oYcrb i).mult (jmodel.jointCols data.dJ k)) }

/-- The loop of `dccrba`, lines 371-376, that sets the world-frame inertia,
velocity and inertia variation of each joint. -/
def dccrbaInitStep (model : Model K) (i : Nat) (data : Data K) : Data K :=
  let data := { data with oYcrb := Function.update data.oYcrb i <|
                  (Inertia.se3Action (data.oMi i) (model.inertias i)) }
  let data := { data with ov := Function.update data.ov i <|
                  (Motion.se3Action (data.oMi i) (data.v i)) }
  { data with doYcrb := Function.update data.doYcrb i ((data.oYcrb i).variation (data.ov i)) }

/-- `dccrba(model, data, q, v)`, lines 354-408. The three assertions reject the
call (`none`); otherwise the mutated `data` is the result, of which `dAg` is
the value returned. -/
def dccrba (model : Model K) (data : Data K) (q v : List K) : Option (Data K) :=
  if model.check data = true ∧ q.length = model.nq ∧ v.length = model.nv then
    let data := forwardKinematicsV model data q v
    let data := { data with oYcrb := Function.update data.oYcrb 0 Inertia.Zero }
    let data := forUp (dccrbaInitStep model) 1 (model.njoints - 1) data
    let data := forDown (DCcrbaBackwardStep.algo model) (model.njoints - 1) data
    let data := { data with com := Function.update data.com 0 (data.oYcrb 0).lever }
    let data := shiftAg model.nv data
    let data := { data with hg := mulCols data.Ag model.nv (fun k => v.getD k 0) }
    let data := { data with vcom := Function.update data.vcom 0 <|
                    (data.hg.linear / (data.oYcrb 0).mass) }
    let data := shiftdAg model.nv data
    let data := { data with Ig := { data.Ig with mass := (data.oYcrb 0).mass } }
    let data := { data with Ig := { data.Ig with lever := 0 } }
    let data := { data with Ig := { data.Ig with inertia := (data.oYcrb 0).inertia } }
    some data
  else none

end model

section defs1
variable {K : Type} [Field K]

/-- The total mass of the model: the sum of the per-joint inertia masses. -/
def Model.totalMass (model : Model K) : K :=
  ∑ i in Finset.Ico 1 model.njoints, (model.inertias i).mass

/-- The composition of the relative placements `liMi` along the path from the
root to joint `i`, by recursion on the parents with `fuel` steps at most. -/
def worldPlacement (parents : Nat → Nat) (liMi : Nat → SE3 K) : Nat → Nat → SE3 K
  | 0, _ => 1
  | fuel + 1, i =>
    if i = 0 then 1 else worldPlacement parents liMi fuel (parents i) * liMi i

/-- The placement of joint `i` in the world: the path from the root to `i`
has at most `i` steps when `parent(j) < j`. -/
def pathPlacement (parents : Nat → Nat) (liMi : Nat → SE3 K) (i : Nat) : SE3 K :=
  worldPlacement parents liMi i i

/-- The placement `liMi[i]` relative to the parent that the forward passes
compute: `jointPlacements[i] * M_i(q)`. -/
def Model.liMi (model : Model K) (q : List K) (i : Nat) : SE3 K :=
  model.jointPlacements i * (model.joints i).jointTransform q

/-- The placement of joint `i` in the world frame: the composition of the
relative placements `liMi` along the path from the root to `i`. -/
def Model.oMi (model : Model K) (q : List K) (i : Nat) : SE3 K :=
  pathPlacement model.parents (model.liMi q) i

/-- The state of `computeCentroidalDynamics(model, data, q, v)` before its
backward loop: the forward loop and the reset of the root entries
(lines 148-154). -/
def centroidalStart (model : Model K) (data : Data K) (q v : List K) : Data K :=
  let data := forUp (CentroidalDynamicsForwardStep.algo model q v) 1 (model.njoints - 1) data
  { data with mass := Function.update data.mass 0 0,
              com := Function.update data.com 0 0,
              h := Function.update data.h 0 0 }

/-- The state of `computeCentroidalDynamics(model, data, q, v)` after its
backward loop (lines 148-163). -/
def centroidalLoops (model : Model K) (data : Data K) (q v : List K) : Data K :=
  forDown (centroidalBackwardStep model) (model.njoints - 1) (centroidalStart model data q v)

/-- The end of `computeCentroidalDynamics(model, data, q, v)`: normalization of
the center of mass and shift of the momentum (lines 165-168). -/
def centroidalFinish (data : Data K) : Data K :=
  let data := { data with com := Function.update data.com 0 (data.com 0 / data.mass 0) }
  let data := { data with hg := data.h 0 }
  { data with hg := data.hg.shift (data.com 0) }

/-- The state of `computeCentroidalDynamics(model, data, q, v, a)` before its
backward loop (lines 194-202). -/
def centroidalStartA (model : Model K) (data : Data K) (q v a : List K) : Data K :=
  let data := forUp (CentroidalDynamicsForwardStepA.algo model q v a) 1
                (model.njoints - 1) data
  let data := { data with mass := Function.update data.mass 0 0,
                          com := Function.update data.com 0 0 }
  let data := { data with h := Function.update data.h 0 0 }
  { data with f := Function.update data.f 0 0 }

/-- The state of `computeCentroidalDynamics(model, data, q, v, a)` after its
backward loop (lines 194-213). -/
def centroidalLoopsA (model : Model K) (data : Data K) (q v a : List K) : Data K :=
  forDown (centroidalBackwardStepA model) (model.njoints - 1)
    (centroidalStartA model data q v a)

/-- The end of `computeCentroidalDynamics(model, data, q, v, a)`
(lines 215-221). -/
def centroidalFinishA (data : Data K) : Data K :=
  let data := centroidalFinish data
  let data := { data with dhg := data.f 0 }
  { data with dhg := data.dhg.shift (data.com 0) }

end defs1

section examples

/-- A prismatic joint along the x axis, owning the coordinate `idx` of the
configuration and velocity vectors: translation by `q[idx]`, constant motion
subspace, no bias. -/
def prismaticX (idx : Nat) : JointModel ℚ where
  idx_v := idx
  nv := 1
  jointTransform := fun q => { (1 : SE3 ℚ) with translation := ⟨q.getD idx 0, 0, 0⟩ }
  jointSubspace := fun _ _ => ⟨⟨1, 0, 0⟩, 0⟩
  jointVelocity := fun _ v => v.getD idx 0 • ⟨⟨1, 0, 0⟩, 0⟩
  jointBias := fun _ _ => 0

/-- Joint working values before any call: identity transform, zero vectors. -/
def JointData.initial : JointData ℚ where
  M := 1
  S := fun _ => 0
  v := 0
  c := 0
  U := fun _ => 0

/-- Working buffers allocated for `njoints` joints and `nv` columns, before any
call: identity placements, zero vectors and matrices. -/
def Data.initial (njoints nv : Nat) : Data ℚ where
  joints := fun _ => JointData.initial
  a := fun _ => 0
  v := fun _ => 0
  ov := fun _ => 0
  f := fun _ => 0
  h := fun _ => 0
  oMi := fun _ => 1
  liMi := fun _ => 1
  Ycrb := fun _ => Inertia.Zero
  oYcrb := fun _ => Inertia.Zero
  doYcrb := fun _ => 0
  mass := fun _ => 0
  com := fun _ => 0
  vcom := fun _ => 0
  J := fun _ => 0
  dJ := fun _ => 0
  Ag := fun _ => 0
  dAg := fun _ => 0
  hg := 0
  dhg := 0
  Ig := Inertia.Zero
  njoints := njoints
  nv := nv

/-- A chain of two bodies on prismatic joints: joint 1 on the root, joint 2
on joint 1; body masses 2 and 3. -/
def chainModel : Model ℚ where
  njoints := 3
  nq := 2
  nv := 2
  parents := fun i => i - 1
  jointPlacements := fun _ => 1
  inertias := fun i => if i = 1 then ⟨2, ⟨0, 1, 0⟩, 0⟩ else ⟨3, ⟨1, 0, 0⟩, 0⟩
  joints := fun i => prismaticX (i - 1)

/-- The model with the universe joint only: no body, total mass zero. -/
def universeModel : Model ℚ where
  njoints := 1
  nq := 0
  nv := 0
  parents := fun _ => 0
  jointPlacements := fun _ => 1
  inertias := fun _ => Inertia.Zero
  joints := fun _ => prismaticX 0

end examples

section defs3
variable {K : Type} [Field K]

/-- A single body of mass 2 on a prismatic joint attached to the root. -/
def singleBodyModel : Model ℚ where
  njoints := 2
  nq := 1
  nv := 1
  parents := fun _ => 0
  jointPlacements := fun _ => 1
  inertias := fun _ => ⟨2, ⟨0, 1, 0⟩, ⟨1, 0, 2, 0, 0, 3⟩⟩
  joints := fun _ => prismaticX 0

/-- The model obtained by applying the constant rigid transform `T` to the
placement of every joint attached to the root (`parent(i) = 0`). -/
def Model.transformRoot (model : Model K) (T : SE3 K) : Model K :=
  { model with jointPlacements := fun i =>
      if model.parents i = 0 then T * model.jointPlacements i else model.jointPlacements i }

/-- Dot product `a · b`. -/
def Vector3.dot (a b : Vector3 K) : K := a.x * b.x + a.y * b.y + a.z * b.z

/-- The rotation by a quarter turn about the z axis followed by the
translation by `(1, 2, 3)`. -/
def quarterTurn : SE3 ℚ where
  rotation := ⟨0, -1, 0, 1, 0, 0, 0, 0, 1⟩
  translation := ⟨1, 2, 3⟩
  rotation_mul_transpose := by
    ext <;> simp [Matrix3.mul, Matrix3.transpose, Matrix3.identity]
  transpose_mul_rotation := by
    ext <;> simp [Matrix3.mul, Matrix3.transpose, Matrix3.identity]
  rotation_det := by simp [Matrix3.det]

end defs3

section defs4
variable {K : Type} [Field K]

/-- The state of `ccrba` before its backward loop: forward kinematics and
initialisation of the composite inertias (lines 276-279). -/
def ccrbaStart (model : Model K) (data : Data K) (q : List K) : Data K :=
  let data := forwardKinematics model data q
  let data := { data with Ycrb := Function.update data.Ycrb 0 Inertia.Zero }
  forUp (fun i d => { d with Ycrb := Function.update d.Ycrb i (model.inertias i) })
    1 (model.njoints - 1) data

/-- The state of `ccrba` after its backward loop (lines 276-286). -/
def ccrbaLoops (model : Model K) (data : Data K) (q : List K) : Data K :=
  forDown (CcrbaBackwardStep.algo model) (model.njoints - 1) (ccrbaStart model data q)

/-- The end of `ccrba`: center of mass, shift of `Ag`, momentum and centroidal
inertia (lines 289-301). -/
def ccrbaFinish (model : Model K) (v : List K) (data : Data K) : Data K :=
  let data := { data with com := Function.update data.com 0 (data.Ycrb 0).lever }
  let data := shiftAg model.nv data
  let data := { data with hg := mulCols data.Ag model.nv (fun k => v.getD k 0) }
  let data := { data with Ig := { data.Ig with mass := (data.Ycrb 0).mass } }
  let data := { data with Ig := { data.Ig with lever := 0 } }
  { data with Ig := { data.Ig with inertia := (data.Ycrb 0).inertia } }

/-- Along the backward loop `for(i = n; i > 0; --i) m[parent(i)] += m[i]` on
the masses `m`, every sum of two masses that is formed is non-zero. -/
def compositeMassesOK (parents : Nat → Nat) : Nat → (Nat → K) → Prop
  | 0, _ => True
  | i + 1, m =>
    m (parents (i + 1)) + m (i + 1) ≠ 0
      ∧ compositeMassesOK parents i
          (Function.update m (parents (i + 1)) (m (parents (i + 1)) + m (i + 1)))

/-- No addition of composite inertias performed by the backward loop of
`ccrba` (or `dccrba`) has a zero total mass: the loop starts from a zero mass
at the root and the mass of each body at its joint. -/
def Model.CompositeMassesNonzero (model : Model K) : Prop :=
  compositeMassesOK model.parents (model.njoints - 1)
    (fun j => if j = 0 then 0 else (model.inertias j).mass)

/-- The numbering invariant of the tree: `parent(i) < i` for every joint
`i ≥ 1`. -/
def Model.TreeOrdered (model : Model K) : Prop :=
  ∀ i, 1 ≤ i → i < model.njoints → model.parents i < i

/-- The column blocks of the joints partition the columns `0..nv`: every
block lies within the matrix and every column belongs to exactly one joint. -/
def Model.ColumnsPartition (model : Model K) : Prop :=
  (∀ j, 1 ≤ j → j < model.njoints → (model.joints j).idx_v + (model.joints j).nv ≤ model.nv)
  ∧ ∀ k, k < model.nv → ∃! j, 1 ≤ j ∧ j < model.njoints
      ∧ (model.joints j).idx_v ≤ k ∧ k < (model.joints j).idx_v + (model.joints j).nv

/-- The velocity of every joint is its motion subspace applied to its slice of
the velocity vector: `jdata.v() = jdata.S() * jmodel.jointVelocitySelector(v)`. -/
def Model.VelocityInSubspace (model : Model K) (q v : List K) : Prop :=
  ∀ j, 1 ≤ j → j < model.njoints →
    (model.joints j).jointVelocity q v
      = mulCols ((model.joints j).jointSubspace q) (model.joints j).nv
          ((model.joints j).jointVelocitySelector v)

/-- The part of the loop invariant of the backward loop of `ccrba` that does
not depend on the velocity: placements and motion subspaces are those of the
start, and the remaining additions of masses are non-zero. -/
def ccrbaFrame (model : Model K) (d : Data K) (k : Nat) (s : Data K) : Prop :=
  s.liMi = d.liMi ∧ s.oMi = d.oMi ∧ (∀ j, (s.joints j).S = (d.joints j).S)
    ∧ compositeMassesOK model.parents k (fun j => (s.Ycrb j).mass)

/-- Three bodies attached to the root by prismatic joints, the second with a
negative mass that cancels the mass of the third. -/
def starModel : Model ℚ where
  njoints := 4
  nq := 3
  nv := 3
  parents := fun _ => 0
  jointPlacements := fun _ => 1
  inertias := fun i =>
    if i = 3 then ⟨1, ⟨0, 1, 0⟩, 0⟩ else if i = 2 then ⟨-1, 0, 0⟩ else ⟨1, 0, 0⟩
  joints := fun i => prismaticX (i - 1)

end defs4

section defs5
variable {K : Type} [Field K]

/-- The state of `dccrba` before its backward loop: forward kinematics with
velocities and initialisation of the world-frame inertias, velocities and
inertia variations (lines 369-376). -/
def dccrbaStart (model : Model K) (data : Data K) (q v : List K) : Data K :=
  let data := forwardKinematicsV model data q v
  let data := { data with oYcrb := Function.update data.oYcrb 0 Inertia.Zero }
  forUp (dccrbaInitStep model) 1 (model.njoints - 1) data

/-- The state of `dccrba` after its backward loop (lines 369-383). -/
def dccrbaLoops (model : Model K) (data : Data K) (q v : List K) : Data K :=
  forDown (DCcrbaBackwardStep.algo model) (model.njoints - 1) (dccrbaStart model data q v)

/-- The end of `dccrba`: center of mass, shift of `Ag`, momentum, velocity of
the center of mass, shift of `dAg` and centroidal inertia (lines 386-405). -/
def dccrbaFinish (model : Model K) (v : List K) (data : Data K) : Data K :=
  let data := { data with com := Function.update data.com 0 (data.oYcrb 0).lever }
  let data := shiftAg model.nv data
  let data := { data with hg := mulCols data.Ag model.nv (fun k => v.getD k 0) }
  let data := { data with vcom := Function.update data.vcom 0 <|
                  (data.hg.linear / (data.oYcrb 0).mass) }
  let data := shiftdAg model.nv data
  let data := { data with Ig := { data.Ig with mass := (data.oYcrb 0).mass } }
  let data := { data with Ig := { data.Ig with lever := 0 } }
  { data with Ig := { data.Ig with inertia := (data.oYcrb 0).inertia } }

/-- The part of the loop invariant of the backward loop of `dccrba` that does
not depend on the step: world placements, world velocities and motion
subspaces are those of the start, and the remaining additions of masses are
non-zero. -/
def dccrbaFrame (model : Model K) (d : Data K) (k : Nat) (s : Data K) : Prop :=
  s.oMi = d.oMi ∧ s.ov = d.ov ∧ (∀ j, (s.joints j).S = (d.joints j).S)
    ∧ compositeMassesOK model.parents k (fun j => (s.oYcrb j).mass)

/-- Every joint has a zero bias acceleration `c` (its motion subspace is
constant in its own frame). -/
def Model.ZeroBias (model : Model K) (q v : List K) : Prop :=
  ∀ j, 1 ≤ j → j < model.njoints → (model.joints j).jointBias q v = 0

/-- A joint that slides along the parabola `y = x^2`, owning the coordinate
`idx`: translation by `(q, q^2, 0)`, motion subspace `(1, 2 q, 0)`, velocity
`S(q) * v` and bias `(0, 2 v^2, 0)`, the derivative of the subspace times the
velocity. -/
def parabolaJoint (idx : Nat) : JointModel ℚ where
  idx_v := idx
  nv := 1
  jointTransform := fun q =>
    { (1 : SE3 ℚ) with translation := ⟨q.getD idx 0, q.getD idx 0 * q.getD idx 0, 0⟩ }
  jointSubspace := fun q _ => ⟨⟨1, 2 * q.getD idx 0, 0⟩, 0⟩
  jointVelocity := fun q v => v.getD idx 0 • ⟨⟨1, 2 * q.getD idx 0, 0⟩, 0⟩
  jointBias := fun _ v => ⟨⟨0, 2 * (v.getD idx 0 * v.getD idx 0), 0⟩, 0⟩

/-- A single body of mass 1 on a parabola joint attached to the root. -/
def parabolaModel : Model ℚ where
  njoints := 2
  nq := 1
  nv := 1
  parents := fun _ => 0
  jointPlacements := fun _ => 1
  inertias := fun _ => ⟨1, 0, 0⟩
  joints := fun _ => parabolaJoint 0

/-- A joint whose motion subspace is the x axis while its velocity is along
the y axis: its velocity is not its motion subspace applied to its velocity
sub-vector. -/
def sidewaysJoint (idx : Nat) : JointModel ℚ where
  idx_v := idx
  nv := 1
  jointTransform := fun q => { (1 : SE3 ℚ) with translation := ⟨q.getD idx 0, 0, 0⟩ }
  jointSubspace := fun _ _ => ⟨⟨1, 0, 0⟩, 0⟩
  jointVelocity := fun _ v => v.getD idx 0 • ⟨⟨0, 1, 0⟩, 0⟩
  jointBias := fun _ _ => 0

/-- A single body of mass 1 on a sideways joint attached to the root. -/
def sidewaysModel : Model ℚ where
  njoints := 2
  nq := 1
  nv := 1
  parents := fun _ => 0
  jointPlacements := fun _ => 1
  inertias := fun _ => ⟨1, 0, 0⟩
  joints := fun _ => sidewaysJoint 0

/-- Two bodies of mass 1 attached to the root by prismatic joints that both
own column 0. -/
def sharedColumnModel : Model ℚ where
  njoints := 3
  nq := 1
  nv := 1
  parents := fun _ => 0
  jointPlacements := fun _ => 1
  inertias := fun _ => ⟨1, 0, 0⟩
  joints := fun _ => prismaticX 0

end defs5

section defs6
variable {K : Type} [Field K]

/-- The outputs of `computeCentroidalDynamics(model, data, q, v)`: total mass,
center of mass and centroidal momentum. -/
def Data.centroidalOutputs (d : Data K) : K × Vector3 K × Force K :=
  (d.mass 0, d.com 0, d.hg)

/-- The outputs of `computeCentroidalDynamics(model, data, q, v, a)`: total
mass, center of mass, centroidal momentum and its rate of change. -/
def Data.centroidalOutputsA (d : Data K) : K × Vector3 K × Force K × Force K :=
  (d.mass 0, d.com 0, d.hg, d.dhg)

/-- The outputs of `ccrba`: the `nv` columns of `Ag`, the centroidal momentum,
the center of mass and the centroidal inertia. -/
def Data.ccrbaOutputs (nv : Nat) (d : Data K) :
    List (Force K) × Force K × Vector3 K × Inertia K :=
  ((List.range nv).map d.Ag, d.hg, d.com 0, d.Ig)

/-- The outputs of `dccrba`: the `nv` columns of `Ag` and of `dAg`, the
centroidal momentum, the center of mass, its velocity and the centroidal
inertia. -/
def Data.dccrbaOutputs (nv : Nat) (d : Data K) :
    List (Force K) × List (Force K) × Force K × Vector3 K × Vector3 K × Inertia K :=
  ((List.range nv).map d.Ag, (List.range nv).map d.dAg, d.hg, d.com 0, d.vcom 0, d.Ig)

/-- The column blocks of the joints cover the columns `0..nv`. -/
def Model.ColumnsCovered (model : Model K) : Prop :=
  ∀ k, k < model.nv → ∃ j, 1 ≤ j ∧ j < model.njoints
      ∧ (model.joints j).idx_v ≤ k ∧ k < (model.joints j).idx_v + (model.joints j).nv

/-- Working buffers allocated for `njoints` joints and `nv` columns that still
hold the results of some earlier call: non-trivial placements and non-zero
entries everywhere. -/
def Data.used (njoints nv : Nat) : Data ℚ where
  joints := fun _ =>
    { M := quarterTurn, S := fun _ => ⟨⟨1, 2, 3⟩, ⟨4, 5, 6⟩⟩, v := ⟨⟨1, 0, 2⟩, ⟨0, 3, 0⟩⟩,
      c := ⟨⟨2, 2, 2⟩, ⟨1, 1, 1⟩⟩, U := fun _ => ⟨⟨7, 8, 9⟩, ⟨1, 2, 3⟩⟩ }
  a := fun _ => ⟨⟨1, 2, 3⟩, ⟨4, 5, 6⟩⟩
  v := fun _ => ⟨⟨6, 5, 4⟩, ⟨3, 2, 1⟩⟩
  ov := fun _ => ⟨⟨1, 1, 2⟩, ⟨3, 5, 8⟩⟩
  f := fun _ => ⟨⟨2, 7, 1⟩, ⟨8, 2, 8⟩⟩
  h := fun _ => ⟨⟨3, 1, 4⟩, ⟨1, 5, 9⟩⟩
  oMi := fun _ => quarterTurn
  liMi := fun _ => quarterTurn
  Ycrb := fun _ => ⟨5, ⟨1, 2, 3⟩, ⟨1, 0, 1, 0, 0, 1⟩⟩
  oYcrb := fun _ => ⟨7, ⟨3, 2, 1⟩, ⟨2, 0, 2, 0, 0, 2⟩⟩
  doYcrb := fun _ => Matrix6.ofColumns (fun m => ⟨m.angular, m.linear⟩)
  mass := fun _ => 11
  com := fun _ => ⟨1, 2, 3⟩
  vcom := fun _ => ⟨4, 5, 6⟩
  J := fun _ => ⟨⟨1, 2, 3⟩, ⟨4, 5, 6⟩⟩
  dJ := fun _ => ⟨⟨6, 5, 4⟩, ⟨3, 2, 1⟩⟩
  Ag := fun _ => ⟨⟨1, 2, 3⟩, ⟨4, 5, 6⟩⟩
  dAg := fun _ => ⟨⟨6, 5, 4⟩, ⟨3, 2, 1⟩⟩
  hg := ⟨⟨1, 2, 3⟩, ⟨4, 5, 6⟩⟩
  dhg := ⟨⟨6, 5, 4⟩, ⟨3, 2, 1⟩⟩
  Ig := ⟨13, ⟨1, 2, 3⟩, ⟨1, 0, 1, 0, 0, 1⟩⟩
  njoints := njoints
  nv := nv

end defs6

section defs7
variable {K : Type} [Field K]

/-- Two inertias that act alike: equal masses and rotational inertias, and
equal levers unless the mass is zero (the lever of a massless inertia enters
no product and no sum). -/
def Inertia.Alike (Ya Yb : Inertia K) : Prop :=
  Ya.mass = Yb.mass ∧ Ya.inertia = Yb.inertia ∧ (Ya.mass ≠ 0 → Ya.lever = Yb.lever)

end defs7

section defs8
variable {K : Type} [Field K]

/-- The Data `t` with its accelerations `a`, force residuals `f` and momentum
rate `dhg` replaced: the only fields that the acceleration variant of
`computeCentroidalDynamics` writes and the velocity variant does not. -/
def Data.withAcceleration (t : Data K) (x : Nat → Motion K) (y : Nat → Force K) (z : Force K) :
    Data K :=
  { t with a := x, f := y, dhg := z }

/-- The value returned by `computeCentroidalDynamics(model, data, q, v)`:
`return data.hg` (line 170). -/
def centroidalMomentum (model : Model K) (data : Data K) (q v : List K) : Option (Force K) :=
  (computeCentroidalDynamics model data q v).map fun d => d.hg

/-- The value returned by `computeCentroidalDynamics(model, data, q, v, a)`:
`return data.dhg` (line 223). -/
def centroidalMomentumRate (model : Model K) (data : Data K) (q v a : List K) :
    Option (Force K) :=
  (computeCentroidalDynamicsA model data q v a).map fun d => d.dhg

end defs8

section defs9
variable {K : Type} [Field K]

/-- The children of joint `i` among the joints `top, top - 1, ..., top - m + 1`,
in that order: the order in which the backward loops
`for(i = njoints - 1; i > 0; --i)` visit them. -/
def childrenDown (parents : Nat → Nat) (i top : Nat) : Nat → List Nat
  | 0 => []
  | m + 1 =>
    childrenDown parents i top m ++ (if parents (top - m) = i then [top - m] else [])

/-- The children of joint `i` (the joints `j >= 1` with `parent(j) = i`), in
the order in which the backward loops visit them. -/
def Model.children (model : Model K) (i : Nat) : List Nat :=
  childrenDown model.parents i (model.njoints - 1) (model.njoints - 1)

/-- The column blocks of two different joints do not overlap. -/
def Model.BlocksDisjoint (model : Model K) : Prop :=
  ∀ i j, 1 ≤ i → i < model.njoints → 1 ≤ j → j < model.njoints → i ≠ j →
    ∀ c, c < (model.joints j).nv →
      ¬ ((model.joints i).idx_v ≤ (model.joints j).idx_v + c
          ∧ (model.joints j).idx_v + c < (model.joints i).idx_v + (model.joints i).nv)

end defs9

/-! # Theorems -/

section algebra

variable {K : Type} [Field K]

@[simp] theorem vec3_zero_x : (0 : Vector3 K).x = 0 := rfl
@[simp] theorem vec3_zero_y : (0 : Vector3 K).y = 0 := rfl
@[simp] theorem vec3_zero_z : (0 : Vector3 K).z = 0 := rfl
@[simp] theorem vec3_add_x (a b : Vector3 K) : (a + b).x = a.x + b.x := rfl
@[simp] theorem vec3_add_y (a b : Vector3 K) : (a + b).y = a.y + b.y := rfl
@[simp] theorem vec3_add_z (a b : Vector3 K) : (a + b).z = a.z + b.z := rfl
@[simp] theorem vec3_neg_x (a : Vector3 K) : (-a).x = -a.x := rfl
@[simp] theorem vec3_neg_y (a : Vector3 K) : (-a).y = -a.y := rfl
@[simp] theorem vec3_neg_z (a : Vector3 K) : (-a).z = -a.z := rfl
@[simp] theorem vec3_sub_x (a b : Vector3 K) : (a - b).x = a.x - b.x := rfl
@[simp] theorem vec3_sub_y (a b : Vector3 K) : (a - b).y = a.y - b.y := rfl
@[simp] theorem vec3_sub_z (a b : Vector3 K) : (a - b).z = a.z - b.z := rfl
@[simp] theorem vec3_smul_x (s : K) (a : Vector3 K) : (s • a).x = s * a.x := rfl
@[simp] theorem vec3_smul_y (s : K) (a : Vector3 K) : (s • a).y = s * a.y := rfl
@[simp] theorem vec3_smul_z (s : K) (a : Vector3 K) : (s • a).z = s * a.z := rfl
@[simp] theorem vec3_div_x (a : Vector3 K) (s : K) : (a / s).x = a.x / s := rfl
@[simp] theorem vec3_div_y (a : Vector3 K) (s : K) : (a / s).y = a.y / s := rfl
@[simp] theorem vec3_div_z (a : Vector3 K) (s : K) : (a / s).z = a.z / s := rfl

@[simp] theorem motion_zero_linear : (0 : Motion K).linear = 0 := rfl
@[simp] theorem motion_zero_angular : (0 : Motion K).angular = 0 := rfl
@[simp] theorem motion_add_linear (a b : Motion K) : (a + b).linear = a.linear + b.linear := rfl
@[simp] theorem motion_add_angular (a b : Motion K) :
    (a + b).angular = a.angular + b.angular := rfl
@[simp] theorem motion_neg_linear (a : Motion K) : (-a).linear = -a.linear := rfl
@[simp] theorem motion_neg_angular (a : Motion K) : (-a).angular = -a.angular := rfl
@[simp] theorem motion_sub_linear (a b : Motion K) : (a - b).linear = a.linear - b.linear := rfl
@[simp] theorem motion_sub_angular (a b : Motion K) :
    (a - b).angular = a.angular - b.angular := rfl
@[simp] theorem motion_smul_linear (s : K) (a : Motion K) : (s • a).linear = s • a.linear := rfl
@[simp] theorem motion_smul_angular (s : K) (a : Motion K) :
    (s • a).angular = s • a.angular := rfl

@[simp] theorem force_zero_linear : (0 : Force K).linear = 0 := rfl
@[simp] theorem force_zero_angular : (0 : Force K).angular = 0 := rfl
@[simp] theorem force_add_linear (a b : Force K) : (a + b).linear = a.linear + b.linear := rfl
@[simp] theorem force_add_angular (a b : Force K) :
    (a + b).angular = a.angular + b.angular := rfl
@[simp] theorem force_neg_linear (a : Force K) : (-a).linear = -a.linear := rfl
@[simp] theorem force_neg_angular (a : Force K) : (-a).angular = -a.angular := rfl
@[simp] theorem force_sub_linear (a b : Force K) : (a - b).linear = a.linear - b.linear := rfl
@[simp] theorem force_sub_angular (a b : Force K) :
    (a - b).angular = a.angular - b.angular := rfl
@[simp] theorem force_smul_linear (s : K) (a : Force K) : (s • a).linear = s • a.linear := rfl
@[simp] theorem force_smul_angular (s : K) (a : Force K) :
    (s • a).angular = s • a.angular := rfl

@[simp] theorem sym3_zero_xx : (0 : Symmetric3 K).xx = 0 := rfl
@[simp] theorem sym3_zero_xy : (0 : Symmetric3 K).xy = 0 := rfl
@[simp] theorem sym3_zero_yy : (0 : Symmetric3 K).yy = 0 := rfl
@[simp] theorem sym3_zero_xz : (0 : Symmetric3 K).xz = 0 := rfl
@[simp] theorem sym3_zero_yz : (0 : Symmetric3 K).yz = 0 := rfl
@[simp] theorem sym3_zero_zz : (0 : Symmetric3 K).zz = 0 := rfl
@[simp] theorem sym3_add_xx (a b : Symmetric3 K) : (a + b).xx = a.xx + b.xx := rfl
@[simp] theorem sym3_add_xy (a b : Symmetric3 K) : (a + b).xy = a.xy + b.xy := rfl
@[simp] theorem sym3_add_yy (a b : Symmetric3 K) : (a + b).yy = a.yy + b.yy := rfl
@[simp] theorem sym3_add_xz (a b : Symmetric3 K) : (a + b).xz = a.xz + b.xz := rfl
@[simp] theorem sym3_add_yz (a b : Symmetric3 K) : (a + b).yz = a.yz + b.yz := rfl
@[simp] theorem sym3_add_zz (a b : Symmetric3 K) : (a + b).zz = a.zz + b.zz := rfl
@[simp] theorem sym3_sub_xx (a b : Symmetric3 K) : (a - b).xx = a.xx - b.xx := rfl
@[simp] theorem sym3_sub_xy (a b : Symmetric3 K) : (a - b).xy = a.xy - b.xy := rfl
@[simp] theorem sym3_sub_yy (a b : Symmetric3 K) : (a - b).yy = a.yy - b.yy := rfl
@[simp] theorem sym3_sub_xz (a b : Symmetric3 K) : (a - b).xz = a.xz - b.xz := rfl
@[simp] theorem sym3_sub_yz (a b : Symmetric3 K) : (a - b).yz = a.yz - b.yz := rfl
@[simp] theorem sym3_sub_zz (a b : Symmetric3 K) : (a - b).zz = a.zz - b.zz := rfl
@[simp] theorem sym3_smul_xx (s : K) (a : Symmetric3 K) : (s • a).xx = s * a.xx := rfl
@[simp] theorem sym3_smul_xy (s : K) (a : Symmetric3 K) : (s • a).xy = s * a.xy := rfl
@[simp] theorem sym3_smul_yy (s : K) (a : Symmetric3 K) : (s • a).yy = s * a.yy := rfl
@[simp] theorem sym3_smul_xz (s : K) (a : Symmetric3 K) : (s • a).xz = s * a.xz := rfl
@[simp] theorem sym3_smul_yz (s : K) (a : Symmetric3 K) : (s • a).yz = s * a.yz := rfl
@[simp] theorem sym3_smul_zz (s : K) (a : Symmetric3 K) : (s • a).zz = s * a.zz := rfl

@[simp] theorem se3_mul_rotation (a b : SE3 K) :
    (a * b).rotation = a.rotation.mul b.rotation := rfl
@[simp] theorem se3_mul_translation (a b : SE3 K) :
    (a * b).translation = a.translation + a.rotation.mulVec b.translation := rfl
@[simp] theorem se3_one_rotation : (1 : SE3 K).rotation = Matrix3.identity := rfl
@[simp] theorem se3_one_translation : (1 : SE3 K).translation = 0 := rfl

theorem inertia_add_def (Ya Yb : Inertia K) : Ya + Yb = Inertia.add Ya Yb := rfl

/-! ### Vectors and matrices -/

theorem cross_add_left (a b c : Vector3 K) : (a + b).cross c = a.cross c + b.cross c := by
  ext <;> simp [Vector3.cross] <;> ring

theorem cross_add_right (a b c : Vector3 K) : a.cross (b + c) = a.cross b + a.cross c := by
  ext <;> simp [Vector3.cross] <;> ring

theorem cross_sub_left (a b c : Vector3 K) : (a - b).cross c = a.cross c - b.cross c := by
  ext <;> simp [Vector3.cross] <;> ring

theorem cross_sub_right (a b c : Vector3 K) : a.cross (b - c) = a.cross b - a.cross c := by
  ext <;> simp [Vector3.cross] <;> ring

theorem cross_smul_left (s : K) (a b : Vector3 K) : (s • a).cross b = s • a.cross b := by
  ext <;> simp [Vector3.cross] <;> ring

theorem cross_smul_right (s : K) (a b : Vector3 K) : a.cross (s • b) = s • a.cross b := by
  ext <;> simp [Vector3.cross] <;> ring

@[simp] theorem cross_zero_left (a : Vector3 K) : (0 : Vector3 K).cross a = 0 := by
  ext <;> simp [Vector3.cross]

@[simp] theorem cross_zero_right (a : Vector3 K) : a.cross 0 = 0 := by
  ext <;> simp [Vector3.cross]

@[simp] theorem cross_self (a : Vector3 K) : a.cross a = 0 := by
  ext <;> simp [Vector3.cross] <;> ring

theorem mulVec_add (A : Matrix3 K) (a b : Vector3 K) :
    A.mulVec (a + b) = A.mulVec a + A.mulVec b := by
  ext <;> simp [Matrix3.mulVec] <;> ring

theorem mulVec_sub (A : Matrix3 K) (a b : Vector3 K) :
    A.mulVec (a - b) = A.mulVec a - A.mulVec b := by
  ext <;> simp [Matrix3.mulVec] <;> ring

theorem mulVec_smul (A : Matrix3 K) (s : K) (a : Vector3 K) :
    A.mulVec (s • a) = s • A.mulVec a := by
  ext <;> simp [Matrix3.mulVec] <;> ring

@[simp] theorem mulVec_zero (A : Matrix3 K) : A.mulVec 0 = 0 := by
  ext <;> simp [Matrix3.mulVec]

theorem mulVec_mul (A B : Matrix3 K) (a : Vector3 K) :
    (A.mul B).mulVec a = A.mulVec (B.mulVec a) := by
  ext <;> simp [Matrix3.mulVec, Matrix3.mul] <;> ring

@[simp] theorem identity_mulVec (a : Vector3 K) : (Matrix3.identity : Matrix3 K).mulVec a = a := by
  ext <;> simp [Matrix3.mulVec, Matrix3.identity]

theorem rotate_rhsMult (S : Symmetric3 K) (R : Matrix3 K) (a : Vector3 K) :
    (S.rotate R).rhsMult a = R.mulVec (S.rhsMult (R.transpose.mulVec a)) := by
  ext <;> simp [Symmetric3.rotate, Symmetric3.rhsMult, Symmetric3.matrix, Matrix3.mulVec,
    Matrix3.mul, Matrix3.transpose] <;> ring

/-! ### Rotations -/

@[simp] theorem rotation_transpose_mulVec (M : SE3 K) (a : Vector3 K) :
    M.rotation.transpose.mulVec (M.rotation.mulVec a) = a := by
  rw [← mulVec_mul, M.transpose_mul_rotation, identity_mulVec]

@[simp] theorem rotation_mulVec_transpose (M : SE3 K) (a : Vector3 K) :
    M.rotation.mulVec (M.rotation.transpose.mulVec a) = a := by
  rw [← mulVec_mul, M.rotation_mul_transpose, identity_mulVec]

/-- A rotation matrix is its own cofactor matrix. -/
theorem rotation_cofactor (M : SE3 K) :
    M.rotation.xx = M.rotation.yy * M.rotation.zz - M.rotation.yz * M.rotation.zy ∧
    M.rotation.xy = M.rotation.yz * M.rotation.zx - M.rotation.yx * M.rotation.zz ∧
    M.rotation.xz = M.rotation.yx * M.rotation.zy - M.rotation.yy * M.rotation.zx ∧
    M.rotation.yx = M.rotation.xz * M.rotation.zy - M.rotation.xy * M.rotation.zz ∧
    M.rotation.yy = M.rotation.xx * M.rotation.zz - M.rotation.xz * M.rotation.zx ∧
    M.rotation.yz = M.rotation.xy * M.rotation.zx - M.rotation.xx * M.rotation.zy ∧
    M.rotation.zx = M.rotation.xy * M.rotation.yz - M.rotation.xz * M.rotation.yy ∧
    M.rotation.zy = M.rotation.xz * M.rotation.yx - M.rotation.xx * M.rotation.yz ∧
    M.rotation.zz = M.rotation.xx * M.rotation.yy - M.rotation.xy * M.rotation.yx := by
  have h := M.rotation_mul_transpose
  have hd := M.rotation_det
  rw [Matrix3.ext_iff] at h
  simp only [Matrix3.mul, Matrix3.transpose, Matrix3.identity, Matrix3.det] at h hd
  obtain ⟨hxx, hxy, hxz, hyx, hyy, hyz, hzx, hzy, hzz⟩ := h
  set R := M.rotation
  refine ⟨?_, ?_, ?_, ?_, ?_, ?_, ?_, ?_, ?_⟩
  · linear_combination (-R.xx) * hd + (R.yy * R.zz - R.yz * R.zy) * hxx
      + (R.xz * R.zy - R.xy * R.zz) * hyx + (R.xy * R.yz - R.xz * R.yy) * hzx
  · linear_combination (-R.xy) * hd + (R.yz * R.zx - R.yx * R.zz) * hxx
      + (R.xx * R.zz - R.xz * R.zx) * hyx + (R.xz * R.yx - R.xx * R.yz) * hzx
  · linear_combination (-R.xz) * hd + (R.yx * R.zy - R.yy * R.zx) * hxx
      + (R.xy * R.zx - R.xx * R.zy) * hyx + (R.xx * R.yy - R.xy * R.yx) * hzx
  · linear_combination (-R.yx) * hd + (R.yy * R.zz - R.yz * R.zy) * hxy
      + (R.xz * R.zy - R.xy * R.zz) * hyy + (R.xy * R.yz - R.xz * R.yy) * hzy
  · linear_combination (-R.yy) * hd + (R.yz * R.zx - R.yx * R.zz) * hxy
      + (R.xx * R.zz - R.xz * R.zx) * hyy + (R.xz * R.yx - R.xx * R.yz) * hzy
  · linear_combination (-R.yz) * hd + (R.yx * R.zy - R.yy * R.zx) * hxy
      + (R.xy * R.zx - R.xx * R.zy) * hyy + (R.xx * R.yy - R.xy * R.yx) * hzy
  · linear_combination (-R.zx) * hd + (R.yy * R.zz - R.yz * R.zy) * hxz
      + (R.xz * R.zy - R.xy * R.zz) * hyz + (R.xy * R.yz - R.xz * R.yy) * hzz
  · linear_combination (-R.zy) * hd + (R.yz * R.zx - R.yx * R.zz) * hxz
      + (R.xx * R.zz - R.xz * R.zx) * hyz + (R.xz * R.yx - R.xx * R.yz) * hzz
  · linear_combination (-R.zz) * hd + (R.yx * R.zy - R.yy * R.zx) * hxz
      + (R.xy * R.zx - R.xx * R.zy) * hyz + (R.xx * R.yy - R.xy * R.yx) * hzz

/-- A rotation commutes with the cross product. -/
theorem rotation_cross (M : SE3 K) (a b : Vector3 K) :
    M.rotation.mulVec (a.cross b) = (M.rotation.mulVec a).cross (M.rotation.mulVec b) := by
  obtain ⟨hxx, hxy, hxz, hyx, hyy, hyz, hzx, hzy, hzz⟩ := rotation_cofactor M
  set R := M.rotation
  ext
  · simp only [Matrix3.mulVec, Vector3.cross]
    linear_combination (a.y * b.z - a.z * b.y) * hxx + (a.z * b.x - a.x * b.z) * hxy
      + (a.x * b.y - a.y * b.x) * hxz
  · simp only [Matrix3.mulVec, Vector3.cross]
    linear_combination (a.y * b.z - a.z * b.y) * hyx + (a.z * b.x - a.x * b.z) * hyy
      + (a.x * b.y - a.y * b.x) * hyz
  · simp only [Matrix3.mulVec, Vector3.cross]
    linear_combination (a.y * b.z - a.z * b.y) * hzx + (a.z * b.x - a.x * b.z) * hzy
      + (a.x * b.y - a.y * b.x) * hzz

end algebra

section spatial

variable {K : Type} [Field K]

/-! ### Actions on motions -/

theorem motion_se3Action_add (M : SE3 K) (a b : Motion K) :
    Motion.se3Action M (a + b) = Motion.se3Action M a + Motion.se3Action M b := by
  ext <;> simp [Motion.se3Action, Matrix3.mulVec, Vector3.cross] <;> ring

theorem motion_se3Action_smul (M : SE3 K) (s : K) (a : Motion K) :
    Motion.se3Action M (s • a) = s • Motion.se3Action M a := by
  ext <;> simp [Motion.se3Action, Matrix3.mulVec, Vector3.cross] <;> ring

@[simp] theorem motion_se3Action_zero (M : SE3 K) : Motion.se3Action M 0 = 0 := by
  ext <;> simp [Motion.se3Action]

@[simp] theorem motion_se3ActionInverse_zero (M : SE3 K) : Motion.se3ActionInverse M 0 = 0 := by
  ext <;> simp [Motion.se3ActionInverse]

theorem motion_se3Action_sum (M : SE3 K) {ι : Type} (s : Finset ι) (g : ι → Motion K) :
    Motion.se3Action M (∑ k in s, g k) = ∑ k in s, Motion.se3Action M (g k) := by
  classical
  induction s using Finset.induction_on with
  | empty => simp
  | insert h ih => rw [Finset.sum_insert h, Finset.sum_insert h, motion_se3Action_add, ih]

@[simp] theorem motion_se3Action_inverse (M : SE3 K) (m : Motion K) :
    Motion.se3Action M (Motion.se3ActionInverse M m) = m := by
  ext1
  · simp only [Motion.se3Action, Motion.se3ActionInverse, rotation_mulVec_transpose]
    ext <;> simp
  · simp only [Motion.se3Action, Motion.se3ActionInverse, rotation_mulVec_transpose]

theorem motion_se3Action_mul (A B : SE3 K) (m : Motion K) :
    Motion.se3Action (A * B) m = Motion.se3Action A (Motion.se3Action B m) := by
  ext1
  · simp only [Motion.se3Action, se3_mul_rotation, se3_mul_translation, mulVec_mul, mulVec_add,
      rotation_cross, cross_add_left]
    ext <;> simp <;> ring
  · simp only [Motion.se3Action, se3_mul_rotation, mulVec_mul]

@[simp] theorem motion_se3Action_one (m : Motion K) : Motion.se3Action (1 : SE3 K) m = m := by
  ext1 <;> simp [Motion.se3Action]

theorem motion_se3Action_cross (M : SE3 K) (a b : Motion K) :
    Motion.se3Action M (a.cross b) = (Motion.se3Action M a).cross (Motion.se3Action M b) := by
  ext1
  · simp only [Motion.se3Action, Motion.cross, mulVec_add, rotation_cross]
    generalize M.rotation.mulVec a.linear = al
    generalize M.rotation.mulVec a.angular = aa
    generalize M.rotation.mulVec b.linear = bl
    generalize M.rotation.mulVec b.angular = ba
    ext <;> simp [Vector3.cross] <;> ring
  · simp only [Motion.se3Action, Motion.cross, rotation_cross]

/-! ### Actions on forces -/

theorem force_se3Action_add (M : SE3 K) (a b : Force K) :
    Force.se3Action M (a + b) = Force.se3Action M a + Force.se3Action M b := by
  ext <;> simp [Force.se3Action, Matrix3.mulVec, Vector3.cross] <;> ring

theorem force_se3Action_smul (M : SE3 K) (s : K) (a : Force K) :
    Force.se3Action M (s • a) = s • Force.se3Action M a := by
  ext <;> simp [Force.se3Action, Matrix3.mulVec, Vector3.cross] <;> ring

@[simp] theorem force_se3Action_zero (M : SE3 K) : Force.se3Action M 0 = 0 := by
  ext <;> simp [Force.se3Action]

theorem force_se3Action_sum (M : SE3 K) {ι : Type} (s : Finset ι) (g : ι → Force K) :
    Force.se3Action M (∑ k in s, g k) = ∑ k in s, Force.se3Action M (g k) := by
  classical
  induction s using Finset.induction_on with
  | empty => simp
  | insert h ih => rw [Finset.sum_insert h, Finset.sum_insert h, force_se3Action_add, ih]

theorem force_se3Action_mul (A B : SE3 K) (f : Force K) :
    Force.se3Action (A * B) f = Force.se3Action A (Force.se3Action B f) := by
  ext1
  · simp only [Force.se3Action, se3_mul_rotation, mulVec_mul]
  · simp only [Force.se3Action, se3_mul_rotation, se3_mul_translation, mulVec_mul, mulVec_add,
      rotation_cross, cross_add_left]
    ext <;> simp <;> ring

@[simp] theorem force_se3Action_one (f : Force K) : Force.se3Action (1 : SE3 K) f = f := by
  ext1 <;> simp [Force.se3Action]

theorem force_se3Action_crossForce (M : SE3 K) (v : Motion K) (f : Force K) :
    Force.se3Action M (v.crossForce f)
      = (Motion.se3Action M v).crossForce (Force.se3Action M f) := by
  ext1
  · simp only [Force.se3Action, Motion.se3Action, Motion.crossForce, rotation_cross]
  · simp only [Force.se3Action, Motion.se3Action, Motion.crossForce, mulVec_add, rotation_cross]
    generalize M.rotation.mulVec v.linear = vl
    generalize M.rotation.mulVec v.angular = va
    generalize M.rotation.mulVec f.linear = fl
    generalize M.rotation.mulVec f.angular = fa
    ext <;> simp [Vector3.cross] <;> ring

theorem force_shift_add (a b : Force K) (c : Vector3 K) :
    (a + b).shift c = a.shift c + b.shift c := by
  ext <;> simp [Force.shift, Vector3.cross] <;> ring

theorem force_shift_smul (s : K) (a : Force K) (c : Vector3 K) :
    (s • a).shift c = s • a.shift c := by
  ext <;> simp [Force.shift, Vector3.cross] <;> ring

@[simp] theorem force_shift_zero (c : Vector3 K) : (0 : Force K).shift c = 0 := by
  ext <;> simp [Force.shift]

theorem force_shift_sum (c : Vector3 K) {ι : Type} (s : Finset ι) (g : ι → Force K) :
    (∑ k in s, g k).shift c = ∑ k in s, (g k).shift c := by
  classical
  induction s using Finset.induction_on with
  | empty => simp
  | insert h ih => rw [Finset.sum_insert h, Finset.sum_insert h, force_shift_add, ih]

/-! ### Inertias -/

theorem inertia_mult_add (Y : Inertia K) (a b : Motion K) :
    Y.mult (a + b) = Y.mult a + Y.mult b := by
  ext <;> simp [Inertia.mult, Symmetric3.rhsMult, Symmetric3.matrix, Matrix3.mulVec,
    Vector3.cross] <;> ring

theorem inertia_mult_smul (Y : Inertia K) (s : K) (a : Motion K) :
    Y.mult (s • a) = s • Y.mult a := by
  ext <;> simp [Inertia.mult, Symmetric3.rhsMult, Symmetric3.matrix, Matrix3.mulVec,
    Vector3.cross] <;> ring

@[simp] theorem inertia_mult_zero (Y : Inertia K) : Y.mult 0 = 0 := by
  have h := inertia_mult_smul Y 0 0
  rwa [zero_smul, zero_smul] at h

theorem inertia_mult_sub (Y : Inertia K) (a b : Motion K) :
    Y.mult (a - b) = Y.mult a - Y.mult b := by
  ext <;> simp [Inertia.mult, Symmetric3.rhsMult, Symmetric3.matrix, Matrix3.mulVec,
    Vector3.cross] <;> ring

theorem inertia_mult_sum (Y : Inertia K) {ι : Type} (s : Finset ι) (g : ι → Motion K) :
    Y.mult (∑ k in s, g k) = ∑ k in s, Y.mult (g k) := by
  classical
  induction s using Finset.induction_on with
  | empty => simp
  | insert h ih => rw [Finset.sum_insert h, Finset.sum_insert h, inertia_mult_add, ih]

@[simp] theorem inertia_Zero_mult (m : Motion K) : (Inertia.Zero : Inertia K).mult m = 0 := by
  ext <;> simp [Inertia.mult, Inertia.Zero, Symmetric3.rhsMult, Symmetric3.matrix,
    Matrix3.mulVec, Vector3.cross]

/-- Addition of inertias superposes the momenta, as soon as the total mass
is not zero. -/
theorem inertia_add_mult (Ya Yb : Inertia K) (h : Ya.mass + Yb.mass ≠ 0) (m : Motion K) :
    (Ya + Yb).mult m = Ya.mult m + Yb.mult m := by
  ext <;> simp only [inertia_add_def, Inertia.add, Inertia.mult, Symmetric3.rhsMult,
    Symmetric3.matrix, Symmetric3.SkewSquare, Matrix3.mulVec, Vector3.cross,
    vec3_add_x, vec3_add_y, vec3_add_z, vec3_sub_x, vec3_sub_y, vec3_sub_z,
    vec3_smul_x, vec3_smul_y, vec3_smul_z, force_add_linear, force_add_angular,
    sym3_add_xx, sym3_add_xy, sym3_add_yy, sym3_add_xz, sym3_add_yz, sym3_add_zz,
    sym3_sub_xx, sym3_sub_xy, sym3_sub_yy, sym3_sub_xz, sym3_sub_yz, sym3_sub_zz,
    sym3_smul_xx, sym3_smul_xy, sym3_smul_yy, sym3_smul_xz, sym3_smul_yz, sym3_smul_zz] <;>
    field_simp <;> ring

/-- The action of a rigid transform on an inertia is the change of frame of
the operator `Y`. -/
theorem inertia_se3Action_mult (M : SE3 K) (Y : Inertia K) (m : Motion K) :
    (Inertia.se3Action M Y).mult (Motion.se3Action M m) = Force.se3Action M (Y.mult m) := by
  ext1
  · simp only [Inertia.se3Action, Inertia.mult, Motion.se3Action, Force.se3Action,
      mulVec_smul, mulVec_sub, rotation_cross, cross_add_left]
    generalize M.rotation.mulVec m.linear = ml
    generalize M.rotation.mulVec m.angular = ma
    generalize M.rotation.mulVec Y.lever = c
    ext <;> simp only [Vector3.cross, vec3_zero_x, vec3_zero_y, vec3_zero_z, vec3_add_x, vec3_add_y, vec3_add_z, vec3_neg_x, vec3_neg_y, vec3_neg_z, vec3_sub_x, vec3_sub_y, vec3_sub_z, vec3_smul_x, vec3_smul_y, vec3_smul_z] <;> ring
  · simp only [Inertia.se3Action, Inertia.mult, Motion.se3Action, Force.se3Action,
      mulVec_smul, mulVec_sub, mulVec_add, rotation_cross, cross_add_left, rotate_rhsMult,
      rotation_transpose_mulVec]
    generalize M.rotation.mulVec m.linear = ml
    generalize M.rotation.mulVec m.angular = ma
    generalize M.rotation.mulVec Y.lever = c
    generalize M.rotation.mulVec (Y.inertia.rhsMult m.angular) = Iw
    ext <;> simp only [Vector3.cross, vec3_zero_x, vec3_zero_y, vec3_zero_z, vec3_add_x, vec3_add_y, vec3_add_z, vec3_neg_x, vec3_neg_y, vec3_neg_z, vec3_sub_x, vec3_sub_y, vec3_sub_z, vec3_smul_x, vec3_smul_y, vec3_smul_z] <;> ring

end spatial

section loops

variable {K : Type} [Field K]

/-! ### Loops -/

theorem forUp_invariant {σ : Type} (body : Nat → σ → σ) (P : Nat → σ → Prop) :
    ∀ (count start : Nat) (s : σ), P start s →
      (∀ i s, start ≤ i → i < start + count → P i s → P (i + 1) (body i s)) →
      P (start + count) (forUp body start count s) := by
  intro count
  induction count with
  | zero => intro start s h _; simpa [forUp] using h
  | succ n ih =>
    intro start s h hs
    have h1 := ih (start + 1) (body start s) (hs start s le_rfl (by omega) h)
      (fun i s hi hlt => hs i s (by omega) (by omega))
    have e : start + 1 + n = start + (n + 1) := by omega
    rw [e] at h1
    simpa [forUp] using h1

theorem forDown_invariant {σ : Type} (body : Nat → σ → σ) (P : Nat → σ → Prop) :
    ∀ (n : Nat) (s : σ), P n s →
      (∀ i s, i < n → P (i + 1) s → P i (body (i + 1) s)) →
      P 0 (forDown body n s) := by
  intro n
  induction n with
  | zero => intro s h _; simpa [forDown] using h
  | succ n ih =>
    intro s h hs
    have h1 := ih (body (n + 1) s) (hs n s (by omega) h) (fun i s hi => hs i s (by omega))
    simpa [forDown] using h1

theorem forUp_rel {σ τ : Type} (f : Nat → σ → σ) (g : Nat → τ → τ) (R : Nat → σ → τ → Prop) :
    ∀ (count start : Nat) (s : σ) (t : τ), R start s t →
      (∀ i s t, start ≤ i → i < start + count → R i s t → R (i + 1) (f i s) (g i t)) →
      R (start + count) (forUp f start count s) (forUp g start count t) := by
  intro count
  induction count with
  | zero => intro start s t h _; simpa [forUp] using h
  | succ n ih =>
    intro start s t h hs
    have h1 := ih (start + 1) (f start s) (g start t) (hs start s t le_rfl (by omega) h)
      (fun i s t hi hlt => hs i s t (by omega) (by omega))
    have e : start + 1 + n = start + (n + 1) := by omega
    rw [e] at h1
    simpa [forUp] using h1

theorem forDown_rel {σ τ : Type} (f : Nat → σ → σ) (g : Nat → τ → τ) (R : Nat → σ → τ → Prop) :
    ∀ (n : Nat) (s : σ) (t : τ), R n s t →
      (∀ i s t, i < n → R (i + 1) s t → R i (f (i + 1) s) (g (i + 1) t)) →
      R 0 (forDown f n s) (forDown g n t) := by
  intro n
  induction n with
  | zero => intro s t h _; simpa [forDown] using h
  | succ n ih =>
    intro s t h hs
    have h1 := ih (f (n + 1) s) (g (n + 1) t) (hs n s t (by omega) h)
      (fun i s t hi => hs i s t (by omega))
    simpa [forDown] using h1

/-- A sum of which one term changes by `e`. -/
theorem sum_eq_add_of_update {ι B : Type} [DecidableEq ι] [AddCommMonoid B] (S : Finset ι)
    (g g' : ι → B) (p : ι) (e : B) (hp : p ∈ S) (h1 : g' p = g p + e)
    (h2 : ∀ j ∈ S, j ≠ p → g' j = g j) : ∑ j in S, g' j = ∑ j in S, g j + e := by
  rw [← Finset.add_sum_erase S g hp, ← Finset.add_sum_erase S g' hp, h1]
  have : ∑ j in S.erase p, g' j = ∑ j in S.erase p, g j :=
    Finset.sum_congr rfl fun j hj => h2 j (Finset.mem_of_mem_erase hj) (Finset.ne_of_mem_erase hj)
  rw [this, add_right_comm]

/-! ### The forward step of the centroidal dynamics -/

theorem cdForward_joints (model : Model K) (q v : List K) (i : Nat) (d : Data K) :
    (CentroidalDynamicsForwardStep.algo model q v i d).joints
      = Function.update d.joints i ((model.joints i).calcQV (d.joints i) q v) := by
  unfold CentroidalDynamicsForwardStep.algo
  by_cases hp : model.parents i > 0 <;> simp [hp]

theorem cdForward_liMi (model : Model K) (q v : List K) (i : Nat) (d : Data K) :
    (CentroidalDynamicsForwardStep.algo model q v i d).liMi
      = Function.update d.liMi i
          (model.jointPlacements i * (model.joints i).jointTransform q) := by
  unfold CentroidalDynamicsForwardStep.algo
  by_cases hp : model.parents i > 0 <;> simp [hp, JointModel.calcQV]

theorem cdForward_mass (model : Model K) (q v : List K) (i : Nat) (d : Data K) :
    (CentroidalDynamicsForwardStep.algo model q v i d).mass
      = Function.update d.mass i (model.inertias i).mass := by
  unfold CentroidalDynamicsForwardStep.algo
  by_cases hp : model.parents i > 0 <;> simp [hp]

theorem cdForward_com (model : Model K) (q v : List K) (i : Nat) (d : Data K) :
    (CentroidalDynamicsForwardStep.algo model q v i d).com
      = Function.update d.com i ((model.inertias i).mass • (model.inertias i).lever) := by
  unfold CentroidalDynamicsForwardStep.algo
  by_cases hp : model.parents i > 0 <;> simp [hp]

theorem cdForward_v (model : Model K) (q v : List K) (i : Nat) (d : Data K) :
    (CentroidalDynamicsForwardStep.algo model q v i d).v
      = Function.update d.v i
          (if model.parents i > 0 then
            Motion.se3ActionInverse
                (model.jointPlacements i * (model.joints i).jointTransform q)
                (d.v (model.parents i))
              + (model.joints i).jointVelocity q v
          else (model.joints i).jointVelocity q v) := by
  unfold CentroidalDynamicsForwardStep.algo
  by_cases hp : model.parents i > 0 <;> simp [hp, JointModel.calcQV]

theorem cdForward_h (model : Model K) (q v : List K) (i : Nat) (d : Data K) :
    (CentroidalDynamicsForwardStep.algo model q v i d).h
      = Function.update d.h i ((model.inertias i).mult
          ((CentroidalDynamicsForwardStep.algo model q v i d).v i)) := by
  unfold CentroidalDynamicsForwardStep.algo
  by_cases hp : model.parents i > 0 <;> simp [hp, JointModel.calcQV]

end loops

section accumulate

variable {K : Type} [Field K]

/-- The backward accumulation: when each step `i` adds the value of node `i`
to the value of its parent, the root ends with the sum of all values. -/
theorem accumulate_sum {σ B : Type} [AddCommMonoid B] (body : Nat → σ → σ) (g : σ → Nat → B)
    (parents : Nat → Nat) (n : Nat) (I : σ → Prop)
    (hpar : ∀ i, 1 ≤ i → i ≤ n → parents i < i)
    (hI : ∀ i s, 1 ≤ i → i ≤ n → I s → I (body i s))
    (hstep : ∀ i s, 1 ≤ i → i ≤ n → I s →
      g (body i s) (parents i) = g s (parents i) + g s i ∧
      ∀ j, j ≠ parents i → j < i → g (body i s) j = g s j)
    (s : σ) (hs : I s) :
    I (forDown body n s) ∧ g (forDown body n s) 0 = ∑ j in Finset.range (n + 1), g s j := by
  have key := forDown_invariant body
    (fun k t => I t ∧ ∑ j in Finset.range (k + 1), g t j = ∑ j in Finset.range (n + 1), g s j)
    n s ⟨hs, rfl⟩ ?_
  · obtain ⟨h1, h2⟩ := key
    refine ⟨h1, ?_⟩
    simpa using h2
  · intro i t hi ⟨hIt, hsum⟩
    refine ⟨hI (i + 1) t (by omega) (by omega) hIt, ?_⟩
    obtain ⟨e1, e2⟩ := hstep (i + 1) t (by omega) (by omega) hIt
    have hp := hpar (i + 1) (by omega) (by omega)
    rw [← hsum, Finset.sum_range_succ _ (i + 1)]
    exact sum_eq_add_of_update (Finset.range (i + 1)) (g t) (g (body (i + 1) t))
      (parents (i + 1)) (g t (i + 1)) (Finset.mem_range.mpr hp) e1
      (fun j hj hne => e2 j hne (Finset.mem_range.mp hj))

/-! ### The backward step of the centroidal dynamics -/

theorem cdBackward_liMi (model : Model K) (i : Nat) (d : Data K) :
    (centroidalBackwardStep model i d).liMi = d.liMi := rfl

theorem cdBackward_mass (model : Model K) (i : Nat) (d : Data K) :
    (centroidalBackwardStep model i d).mass
      = Function.update d.mass (model.parents i) (d.mass (model.parents i) + d.mass i) := rfl

theorem cdBackward_com (model : Model K) (i : Nat) (d : Data K) :
    (centroidalBackwardStep model i d).com
      = Function.update d.com (model.parents i) (d.com (model.parents i)
          + ((d.liMi i).rotation.mulVec (d.com i)
            + (Function.update d.mass (model.parents i) (d.mass (model.parents i) + d.mass i)) i
                • (d.liMi i).translation)) := rfl

theorem cdBackward_h (model : Model K) (i : Nat) (d : Data K) :
    (centroidalBackwardStep model i d).h
      = Function.update d.h (model.parents i)
          (d.h (model.parents i) + Force.se3Action (d.liMi i) (d.h i)) := rfl

theorem cdBackwardA_liMi (model : Model K) (i : Nat) (d : Data K) :
    (centroidalBackwardStepA model i d).liMi = d.liMi := rfl

theorem cdBackwardA_mass (model : Model K) (i : Nat) (d : Data K) :
    (centroidalBackwardStepA model i d).mass = (centroidalBackwardStep model i d).mass := rfl

theorem cdBackwardA_com (model : Model K) (i : Nat) (d : Data K) :
    (centroidalBackwardStepA model i d).com = (centroidalBackwardStep model i d).com := rfl

theorem cdBackwardA_h (model : Model K) (i : Nat) (d : Data K) :
    (centroidalBackwardStepA model i d).h = (centroidalBackwardStep model i d).h := rfl

theorem cdBackwardA_f (model : Model K) (i : Nat) (d : Data K) :
    (centroidalBackwardStepA model i d).f
      = Function.update d.f (model.parents i)
          (d.f (model.parents i) + Force.se3Action (d.liMi i) (d.f i)) := rfl

/-- The world-frame first moment of the accumulator of node `j`. -/
theorem comTerm_step (Wp L : SE3 K) (cp ci : Vector3 K) (mp mi : K) :
    Wp.rotation.mulVec (cp + (L.rotation.mulVec ci + mi • L.translation))
        + (mp + mi) • Wp.translation
      = (Wp.rotation.mulVec cp + mp • Wp.translation)
        + ((Wp * L).rotation.mulVec ci + mi • (Wp * L).translation) := by
  simp only [se3_mul_rotation, se3_mul_translation, mulVec_mul, mulVec_add, mulVec_smul]
  generalize Wp.rotation.mulVec cp = a
  generalize Wp.rotation.mulVec (L.rotation.mulVec ci) = b
  generalize Wp.rotation.mulVec L.translation = c
  ext <;> simp only [vec3_add_x, vec3_add_y, vec3_add_z, vec3_smul_x, vec3_smul_y,
    vec3_smul_z] <;> ring

/-- Closed form of the backward loop of `computeCentroidalDynamics`, for any
loop body that accumulates mass, first moment and momentum as the source does:
the root holds the sums of the per-node values transported to the frame of
the root by the placements `W`. -/
theorem cdBackward_closed (model : Model K) (body : Nat → Data K → Data K) (n : Nat)
    (hbody : ∀ i d, (body i d).liMi = d.liMi
      ∧ (body i d).mass = (centroidalBackwardStep model i d).mass
      ∧ (body i d).com = (centroidalBackwardStep model i d).com
      ∧ (body i d).h = (centroidalBackwardStep model i d).h)
    (hpar : ∀ i, 1 ≤ i → i ≤ n → model.parents i < i)
    (d : Data K) (W : Nat → SE3 K)
    (hW : ∀ i, 1 ≤ i → i ≤ n → W i = W (model.parents i) * d.liMi i) :
    (forDown body n d).liMi = d.liMi
    ∧ (forDown body n d).mass 0 = ∑ j in Finset.range (n + 1), d.mass j
    ∧ (W 0).rotation.mulVec ((forDown body n d).com 0)
          + (forDown body n d).mass 0 • (W 0).translation
        = ∑ j in Finset.range (n + 1),
            ((W j).rotation.mulVec (d.com j) + d.mass j • (W j).translation)
    ∧ Force.se3Action (W 0) ((forDown body n d).h 0)
        = ∑ j in Finset.range (n + 1), Force.se3Action (W j) (d.h j) := by
  have hm := accumulate_sum body (fun s j => s.mass j) model.parents n
    (fun s => s.liMi = d.liMi) hpar
    (fun i s _ _ h => by show (body i s).liMi = d.liMi; rw [(hbody i s).1]; exact h)
    (fun i s h1 hn _ => by
      have hp := hpar i h1 hn
      show (body i s).mass _ = _ ∧ ∀ j, _ → _ → (body i s).mass j = _
      rw [(hbody i s).2.1, cdBackward_mass]
      refine ⟨by simp, fun j hj _ => by simp [Function.update_noteq hj]⟩) d rfl
  have hc := accumulate_sum body
    (fun s j => (W j).rotation.mulVec (s.com j) + s.mass j • (W j).translation)
    model.parents n (fun s => s.liMi = d.liMi) hpar
    (fun i s _ _ h => by show (body i s).liMi = d.liMi; rw [(hbody i s).1]; exact h)
    (fun i s h1 hn hI => by
      have hp := hpar i h1 hn
      have hne : i ≠ model.parents i := by omega
      have hI' : s.liMi = d.liMi := hI
      show (W _).rotation.mulVec ((body i s).com _) + (body i s).mass _ • _ = _
        ∧ ∀ j, _ → _ → (W j).rotation.mulVec ((body i s).com j) + (body i s).mass j • _ = _
      rw [(hbody i s).2.1, (hbody i s).2.2.1, cdBackward_mass, cdBackward_com]
      refine ⟨?_, fun j hj _ => by simp [Function.update_noteq hj]⟩
      simp only [Function.update_same, Function.update_noteq hne]
      rw [comTerm_step, hW i h1 hn, hI']) d rfl
  have hh := accumulate_sum body (fun s j => Force.se3Action (W j) (s.h j))
    model.parents n (fun s => s.liMi = d.liMi) hpar
    (fun i s _ _ h => by show (body i s).liMi = d.liMi; rw [(hbody i s).1]; exact h)
    (fun i s h1 hn hI => by
      have hI' : s.liMi = d.liMi := hI
      show Force.se3Action _ ((body i s).h _) = _
        ∧ ∀ j, _ → _ → Force.se3Action (W j) ((body i s).h j) = _
      rw [(hbody i s).2.2.2, cdBackward_h]
      refine ⟨?_, fun j hj _ => by simp [Function.update_noteq hj]⟩
      simp only [Function.update_same]
      rw [force_se3Action_add, hW i h1 hn, force_se3Action_mul, hI']) d rfl
  exact ⟨hm.1, hm.2, hc.2, hh.2⟩

end accumulate

section forward

variable {K : Type} [Field K]

theorem worldPlacement_fuel (parents : Nat → Nat) (liMi : Nat → SE3 K) (n : Nat)
    (hpar : ∀ i, 1 ≤ i → i ≤ n → parents i < i) :
    ∀ fuel i, i ≤ n → i ≤ fuel →
      worldPlacement parents liMi fuel i = pathPlacement parents liMi i := by
  intro fuel
  induction fuel using Nat.strong_induction_on with
  | _ fuel ih =>
    intro i hin hif
    unfold pathPlacement
    cases fuel with
    | zero =>
      have : i = 0 := by omega
      subst this; rfl
    | succ f =>
      cases i with
      | zero => simp [worldPlacement]
      | succ j =>
        have hp := hpar (j + 1) (by omega) hin
        simp only [worldPlacement, Nat.succ_ne_zero, if_false]
        rw [ih f (by omega) (parents (j + 1)) (by omega) (by omega),
          ih j (by omega) (parents (j + 1)) (by omega) (by omega)]

theorem pathPlacement_zero (parents : Nat → Nat) (liMi : Nat → SE3 K) :
    pathPlacement parents liMi 0 = 1 := rfl

theorem pathPlacement_succ (parents : Nat → Nat) (liMi : Nat → SE3 K) (n : Nat)
    (hpar : ∀ i, 1 ≤ i → i ≤ n → parents i < i) (i : Nat) (h1 : 1 ≤ i) (hn : i ≤ n) :
    pathPlacement parents liMi i = pathPlacement parents liMi (parents i) * liMi i := by
  obtain ⟨j, rfl⟩ : ∃ j, i = j + 1 := ⟨i - 1, by omega⟩
  have hp := hpar (j + 1) h1 hn
  show worldPlacement parents liMi (j + 1) (j + 1) = _
  simp only [worldPlacement, Nat.succ_ne_zero, if_false]
  rw [worldPlacement_fuel parents liMi n hpar j (parents (j + 1)) (by omega) (by omega)]

/-- After the forward loop of `computeCentroidalDynamics` over the joints
`1..n`, every joint holds its relative placement, mass, first moment,
velocity (propagated from its parent unless that is the root) and momentum.
Stated for any loop body that writes these fields as the velocity step does. -/
theorem cdForward_spec (model : Model K) (q v : List K) (body : Nat → Data K → Data K)
    (hbody : ∀ i d,
      (body i d).liMi = (CentroidalDynamicsForwardStep.algo model q v i d).liMi
      ∧ (body i d).mass = (CentroidalDynamicsForwardStep.algo model q v i d).mass
      ∧ (body i d).com = (CentroidalDynamicsForwardStep.algo model q v i d).com
      ∧ (body i d).v = (CentroidalDynamicsForwardStep.algo model q v i d).v
      ∧ (body i d).h = (CentroidalDynamicsForwardStep.algo model q v i d).h)
    (n : Nat) (hpar : ∀ i, 1 ≤ i → i ≤ n → model.parents i < i) (d : Data K) :
    ∀ j, 1 ≤ j → j ≤ n →
      (forUp body 1 n d).liMi j = model.liMi q j
      ∧ (forUp body 1 n d).mass j = (model.inertias j).mass
      ∧ (forUp body 1 n d).com j = (model.inertias j).mass • (model.inertias j).lever
      ∧ (forUp body 1 n d).v j
          = (if model.parents j > 0 then
              Motion.se3ActionInverse (model.liMi q j)
                  ((forUp body 1 n d).v (model.parents j))
                + (model.joints j).jointVelocity q v
            else (model.joints j).jointVelocity q v)
      ∧ (forUp body 1 n d).h j = (model.inertias j).mult ((forUp body 1 n d).v j) := by
  have key := forUp_invariant body
    (fun i s => ∀ j, 1 ≤ j → j < i →
      s.liMi j = model.liMi q j
      ∧ s.mass j = (model.inertias j).mass
      ∧ s.com j = (model.inertias j).mass • (model.inertias j).lever
      ∧ s.v j = (if model.parents j > 0 then
              Motion.se3ActionInverse (model.liMi q j) (s.v (model.parents j))
                + (model.joints j).jointVelocity q v
            else (model.joints j).jointVelocity q v)
      ∧ s.h j = (model.inertias j).mult (s.v j))
    n 1 d (fun j h1 h2 => by omega) ?_
  · intro j h1 hn
    exact key j h1 (by omega)
  · intro i s hi1 hin ih j hj1 hji
    obtain ⟨e1, e2, e3, e4, e5⟩ := hbody i s
    rw [e1, e2, e3, e4, e5, cdForward_liMi, cdForward_mass, cdForward_com, cdForward_h,
      cdForward_v]
    by_cases hj : j = i
    · subst hj
      have hp := hpar j hj1 (by omega)
      have hne : model.parents j ≠ j := by omega
      simp only [Function.update_same, Function.update_noteq hne, Model.liMi]
      exact ⟨trivial, trivial, trivial, trivial, trivial⟩
    · have hp := hpar j hj1 (by omega)
      have hne : model.parents j ≠ i := by omega
      simp only [Function.update_noteq hj, Function.update_noteq hne]
      exact ih j hj1 (by omega)

end forward

section closed

variable {K : Type} [Field K]

theorem sum_range_eq_Ico {B : Type} [AddCommMonoid B] (g : Nat → B) (n : Nat) (h0 : g 0 = 0) :
    ∑ j in Finset.range (n - 1 + 1), g j = ∑ j in Finset.Ico 1 n, g j := by
  rw [Finset.range_eq_Ico, Finset.sum_eq_sum_Ico_succ_bot (by omega), h0, zero_add]
  rcases Nat.eq_zero_or_pos n with h | h
  · subst h; simp
  · have : n - 1 + 1 = n := by omega
    rw [this]

theorem model_oMi_zero (model : Model K) (q : List K) : model.oMi q 0 = 1 := rfl

theorem model_oMi_succ (model : Model K) (q : List K)
    (hpar : ∀ i, 1 ≤ i → i < model.njoints → model.parents i < i) (i : Nat) (h1 : 1 ≤ i)
    (hn : i < model.njoints) :
    model.oMi q i = model.oMi q (model.parents i) * model.liMi q i :=
  pathPlacement_succ model.parents (model.liMi q) (model.njoints - 1)
    (fun i h1 h2 => hpar i h1 (by omega)) i h1 (by omega)

/-- Closed form of the values aggregated at the root by the two loops of
`computeCentroidalDynamics` (either variant): total mass, first moment and
momentum, each per-joint term transported to the world frame. -/
theorem cd_root_closed (model : Model K) (q v : List K) (fbody bbody : Nat → Data K → Data K)
    (hf : ∀ i d,
      (fbody i d).liMi = (CentroidalDynamicsForwardStep.algo model q v i d).liMi
      ∧ (fbody i d).mass = (CentroidalDynamicsForwardStep.algo model q v i d).mass
      ∧ (fbody i d).com = (CentroidalDynamicsForwardStep.algo model q v i d).com
      ∧ (fbody i d).v = (CentroidalDynamicsForwardStep.algo model q v i d).v
      ∧ (fbody i d).h = (CentroidalDynamicsForwardStep.algo model q v i d).h)
    (hb : ∀ i d, (bbody i d).liMi = d.liMi
      ∧ (bbody i d).mass = (centroidalBackwardStep model i d).mass
      ∧ (bbody i d).com = (centroidalBackwardStep model i d).com
      ∧ (bbody i d).h = (centroidalBackwardStep model i d).h)
    (hpar : ∀ i, 1 ≤ i → i < model.njoints → model.parents i < i)
    (data d1 : Data K)
    (hl : d1.liMi = (forUp fbody 1 (model.njoints - 1) data).liMi)
    (hm : d1.mass = Function.update (forUp fbody 1 (model.njoints - 1) data).mass 0 0)
    (hc : d1.com = Function.update (forUp fbody 1 (model.njoints - 1) data).com 0 0)
    (hh : d1.h = Function.update (forUp fbody 1 (model.njoints - 1) data).h 0 0) :
    (forDown bbody (model.njoints - 1) d1).mass 0 = model.totalMass
    ∧ (forDown bbody (model.njoints - 1) d1).com 0
        = ∑ j in Finset.Ico 1 model.njoints,
            ((model.oMi q j).rotation.mulVec ((model.inertias j).mass • (model.inertias j).lever)
              + (model.inertias j).mass • (model.oMi q j).translation)
    ∧ (forDown bbody (model.njoints - 1) d1).h 0
        = ∑ j in Finset.Ico 1 model.njoints,
            Force.se3Action (model.oMi q j)
              ((model.inertias j).mult ((forUp fbody 1 (model.njoints - 1) data).v j)) := by
  have hpar' : ∀ i, 1 ≤ i → i ≤ model.njoints - 1 → model.parents i < i :=
    fun i h1 h2 => hpar i h1 (by omega)
  have hfs := cdForward_spec model q v fbody hf (model.njoints - 1) hpar' data
  have hW : ∀ i, 1 ≤ i → i ≤ model.njoints - 1 →
      model.oMi q i = model.oMi q (model.parents i) * d1.liMi i := by
    intro i h1 h2
    rw [model_oMi_succ model q hpar i h1 (by omega), hl, (hfs i h1 h2).1]
  obtain ⟨-, c1, c2, c3⟩ := cdBackward_closed model bbody (model.njoints - 1) hb hpar' d1
    (model.oMi q) hW
  have z1 : ∀ x : Vector3 K, (model.oMi q 0).rotation.mulVec x = x := by
    intro x; rw [model_oMi_zero]; simp
  have z2 : (model.oMi q 0).translation = 0 := by rw [model_oMi_zero]; simp
  rw [z1, z2, smul_zero, add_zero] at c2
  rw [model_oMi_zero, force_se3Action_one] at c3
  refine ⟨?_, ?_, ?_⟩
  · rw [c1, sum_range_eq_Ico _ _ (by rw [hm]; simp)]
    refine Finset.sum_congr rfl fun j hj => ?_
    have hj' := Finset.mem_Ico.mp hj
    rw [hm, Function.update_noteq (by omega), (hfs j hj'.1 (by omega)).2.1]
  · rw [c2, sum_range_eq_Ico _ _ (by rw [hm, hc]; simp)]
    refine Finset.sum_congr rfl fun j hj => ?_
    have hj' := Finset.mem_Ico.mp hj
    rw [hm, hc, Function.update_noteq (by omega), Function.update_noteq (by omega),
      (hfs j hj'.1 (by omega)).2.1, (hfs j hj'.1 (by omega)).2.2.1]
  · rw [c3, sum_range_eq_Ico _ _ (by rw [hh]; simp)]
    refine Finset.sum_congr rfl fun j hj => ?_
    have hj' := Finset.mem_Ico.mp hj
    rw [hh, Function.update_noteq (by omega), (hfs j hj'.1 (by omega)).2.2.2.2]

/-- The acceleration step writes the fields of the velocity step as the
velocity step does. -/
theorem cdForwardA_fields (model : Model K) (q v a : List K) (i : Nat) (d : Data K) :
    (CentroidalDynamicsForwardStepA.algo model q v a i d).liMi
        = (CentroidalDynamicsForwardStep.algo model q v i d).liMi
    ∧ (CentroidalDynamicsForwardStepA.algo model q v a i d).mass
        = (CentroidalDynamicsForwardStep.algo model q v i d).mass
    ∧ (CentroidalDynamicsForwardStepA.algo model q v a i d).com
        = (CentroidalDynamicsForwardStep.algo model q v i d).com
    ∧ (CentroidalDynamicsForwardStepA.algo model q v a i d).v
        = (CentroidalDynamicsForwardStep.algo model q v i d).v
    ∧ (CentroidalDynamicsForwardStepA.algo model q v a i d).h
        = (CentroidalDynamicsForwardStep.algo model q v i d).h := by
  unfold CentroidalDynamicsForwardStepA.algo
  by_cases hp : model.parents i > 0 <;> simp [hp]

theorem cdBackward_fields (model : Model K) (i : Nat) (d : Data K) :
    (centroidalBackwardStep model i d).liMi = d.liMi
      ∧ (centroidalBackwardStep model i d).mass = (centroidalBackwardStep model i d).mass
      ∧ (centroidalBackwardStep model i d).com = (centroidalBackwardStep model i d).com
      ∧ (centroidalBackwardStep model i d).h = (centroidalBackwardStep model i d).h :=
  ⟨rfl, rfl, rfl, rfl⟩

theorem cdBackwardA_fields (model : Model K) (i : Nat) (d : Data K) :
    (centroidalBackwardStepA model i d).liMi = d.liMi
      ∧ (centroidalBackwardStepA model i d).mass = (centroidalBackwardStep model i d).mass
      ∧ (centroidalBackwardStepA model i d).com = (centroidalBackwardStep model i d).com
      ∧ (centroidalBackwardStepA model i d).h = (centroidalBackwardStep model i d).h :=
  ⟨rfl, rfl, rfl, rfl⟩

end closed

section c2

variable {K : Type} [Field K]

theorem cdForward_fields (model : Model K) (q v : List K) (i : Nat) (d : Data K) :
    (CentroidalDynamicsForwardStep.algo model q v i d).liMi
        = (CentroidalDynamicsForwardStep.algo model q v i d).liMi
    ∧ (CentroidalDynamicsForwardStep.algo model q v i d).mass
        = (CentroidalDynamicsForwardStep.algo model q v i d).mass
    ∧ (CentroidalDynamicsForwardStep.algo model q v i d).com
        = (CentroidalDynamicsForwardStep.algo model q v i d).com
    ∧ (CentroidalDynamicsForwardStep.algo model q v i d).v
        = (CentroidalDynamicsForwardStep.algo model q v i d).v
    ∧ (CentroidalDynamicsForwardStep.algo model q v i d).h
        = (CentroidalDynamicsForwardStep.algo model q v i d).h :=
  ⟨rfl, rfl, rfl, rfl, rfl⟩

theorem computeCentroidalDynamics_eq (model : Model K) (data : Data K) (q v : List K)
    (hcheck : model.check data = true) (hq : q.length = model.nq) (hv : v.length = model.nv) :
    computeCentroidalDynamics model data q v
      = some (centroidalFinish (centroidalLoops model data q v)) := by
  unfold computeCentroidalDynamics
  rw [if_pos ⟨hcheck, hq, hv⟩]
  rfl

theorem computeCentroidalDynamicsA_eq (model : Model K) (data : Data K) (q v a : List K)
    (hcheck : model.check data = true) (hq : q.length = model.nq) (hv : v.length = model.nv)
    (ha : a.length = model.nv) :
    computeCentroidalDynamicsA model data q v a
      = some (centroidalFinishA (centroidalLoopsA model data q v a)) := by
  unfold computeCentroidalDynamicsA
  rw [if_pos ⟨hcheck, hq, hv, ha⟩]
  rfl

/-- Closed form of the root values after the loops of the velocity variant. -/
theorem centroidalLoops_closed (model : Model K) (data : Data K) (q v : List K)
    (hpar : ∀ i, 1 ≤ i → i < model.njoints → model.parents i < i) :
    (centroidalLoops model data q v).mass 0 = model.totalMass
    ∧ (centroidalLoops model data q v).com 0
        = ∑ j in Finset.Ico 1 model.njoints,
            ((model.oMi q j).rotation.mulVec ((model.inertias j).mass • (model.inertias j).lever)
              + (model.inertias j).mass • (model.oMi q j).translation)
    ∧ (centroidalLoops model data q v).h 0
        = ∑ j in Finset.Ico 1 model.njoints,
            Force.se3Action (model.oMi q j)
              ((model.inertias j).mult
                ((forUp (CentroidalDynamicsForwardStep.algo model q v) 1
                  (model.njoints - 1) data).v j)) :=
  cd_root_closed model q v _ _ (cdForward_fields model q v)
    (cdBackward_fields model) hpar data (centroidalStart model data q v) rfl rfl rfl rfl

/-- Closed form of the root values after the loops of the acceleration
variant. -/
theorem centroidalLoopsA_closed (model : Model K) (data : Data K) (q v a : List K)
    (hpar : ∀ i, 1 ≤ i → i < model.njoints → model.parents i < i) :
    (centroidalLoopsA model data q v a).mass 0 = model.totalMass
    ∧ (centroidalLoopsA model data q v a).com 0
        = ∑ j in Finset.Ico 1 model.njoints,
            ((model.oMi q j).rotation.mulVec ((model.inertias j).mass • (model.inertias j).lever)
              + (model.inertias j).mass • (model.oMi q j).translation)
    ∧ (centroidalLoopsA model data q v a).h 0
        = ∑ j in Finset.Ico 1 model.njoints,
            Force.se3Action (model.oMi q j)
              ((model.inertias j).mult
                ((forUp (CentroidalDynamicsForwardStepA.algo model q v a) 1
                  (model.njoints - 1) data).v j)) :=
  cd_root_closed model q v _ _ (cdForwardA_fields model q v a)
    (cdBackwardA_fields model) hpar data (centroidalStartA model data q v a) rfl rfl rfl rfl

/-- C2 (mass conservation). For every model with `parent(i) < i` for all
joints `i ≥ 1`, whatever the shape of the tree, a call of
`computeCentroidalDynamics` (velocity or acceleration variant) that passes
its checks returns with `data.mass[0]` equal to the sum over
`i = 1..njoints-1` of `model.inertias[i].mass()`. -/
theorem mass_conservation (model : Model K) (data : Data K) (q v a : List K)
    (hpar : ∀ i, 1 ≤ i → i < model.njoints → model.parents i < i)
    (hcheck : model.check data = true) (hq : q.length = model.nq)
    (hv : v.length = model.nv) (ha : a.length = model.nv) :
    (computeCentroidalDynamics model data q v).map (fun d => d.mass 0) = some model.totalMass
    ∧ (computeCentroidalDynamicsA model data q v a).map (fun d => d.mass 0)
        = some model.totalMass := by
  rw [computeCentroidalDynamics_eq model data q v hcheck hq hv,
    computeCentroidalDynamicsA_eq model data q v a hcheck hq hv ha]
  exact ⟨congrArg some (centroidalLoops_closed model data q v hpar).1,
    congrArg some (centroidalLoopsA_closed model data q v a hpar).1⟩

theorem chainModel_parents : ∀ i, 1 ≤ i → i < chainModel.njoints → chainModel.parents i < i := by
  intro i h1 _
  show i - 1 < i
  omega

theorem mass_conservation_witness :
    (computeCentroidalDynamics chainModel (Data.initial 3 2) [1, 2] [3, 4]).map
        (fun d => d.mass 0) = some chainModel.totalMass
    ∧ (computeCentroidalDynamicsA chainModel (Data.initial 3 2) [1, 2] [3, 4] [5, 6]).map
        (fun d => d.mass 0) = some chainModel.totalMass :=
  mass_conservation chainModel (Data.initial 3 2) [1, 2] [3, 4] [5, 6] chainModel_parents
    rfl rfl rfl rfl

end c2

section c3458

variable {K : Type} [Field K]

/-- C5 (contract violation). Each entry point rejects the call, without
running any loop, exactly when one of its checks fails: `q.size() != model.nq`,
`v.size() != model.nv`, `a.size() != model.nv` (acceleration variant) or
`data` not consistent with `model`; it proceeds when all of them pass. -/
theorem contract_checks (model : Model K) (data : Data K) (q v a : List K) :
    (computeCentroidalDynamics model data q v = none
      ↔ ¬ (model.check data = true ∧ q.length = model.nq ∧ v.length = model.nv))
    ∧ (computeCentroidalDynamicsA model data q v a = none
      ↔ ¬ (model.check data = true ∧ q.length = model.nq ∧ v.length = model.nv
            ∧ a.length = model.nv))
    ∧ (ccrba model data q v = none
      ↔ ¬ (model.check data = true ∧ q.length = model.nq ∧ v.length = model.nv))
    ∧ (dccrba model data q v = none
      ↔ ¬ (model.check data = true ∧ q.length = model.nq ∧ v.length = model.nv)) := by
  refine ⟨?_, ?_, ?_, ?_⟩
  · unfold computeCentroidalDynamics
    split_ifs with h <;> simp [h]
  · unfold computeCentroidalDynamicsA
    split_ifs with h <;> simp [h]
  · unfold ccrba
    split_ifs with h <;> simp [h]
  · unfold dccrba
    split_ifs with h <;> simp [h]

@[simp] theorem centroidalFinish_mass (d : Data K) : (centroidalFinish d).mass = d.mass := rfl
@[simp] theorem centroidalFinish_com (d : Data K) :
    (centroidalFinish d).com 0 = d.com 0 / d.mass 0 := by
  simp [centroidalFinish]
@[simp] theorem centroidalFinish_hg (d : Data K) :
    (centroidalFinish d).hg = (d.h 0).shift (d.com 0 / d.mass 0) := by
  simp [centroidalFinish]
@[simp] theorem centroidalFinishA_mass (d : Data K) : (centroidalFinishA d).mass = d.mass := rfl
@[simp] theorem centroidalFinishA_com (d : Data K) :
    (centroidalFinishA d).com 0 = d.com 0 / d.mass 0 := by
  simp [centroidalFinishA, centroidalFinish]
@[simp] theorem centroidalFinishA_hg (d : Data K) :
    (centroidalFinishA d).hg = (d.h 0).shift (d.com 0 / d.mass 0) := by
  simp [centroidalFinishA, centroidalFinish]
@[simp] theorem centroidalFinishA_dhg (d : Data K) :
    (centroidalFinishA d).dhg = (d.f 0).shift (d.com 0 / d.mass 0) := by
  simp [centroidalFinishA, centroidalFinish]

/-- C4, as the code has it. `computeCentroidalDynamics` (either variant) has
no check of the total mass: whenever the size and consistency checks pass it
returns a result in which `com[0]` is the accumulated first moment divided by
the accumulated mass `mass[0]`, whatever that mass is. -/
theorem degenerate_model_unchecked (model : Model K) (data : Data K) (q v a : List K)
    (hcheck : model.check data = true) (hq : q.length = model.nq)
    (hv : v.length = model.nv) (ha : a.length = model.nv) :
    (computeCentroidalDynamics model data q v).map (fun d => d.com 0)
        = some ((centroidalLoops model data q v).com 0 / (centroidalLoops model data q v).mass 0)
    ∧ (computeCentroidalDynamicsA model data q v a).map (fun d => d.com 0)
        = some ((centroidalLoopsA model data q v a).com 0
            / (centroidalLoopsA model data q v a).mass 0) := by
  rw [computeCentroidalDynamics_eq model data q v hcheck hq hv,
    computeCentroidalDynamicsA_eq model data q v a hcheck hq hv ha]
  simp

theorem degenerate_model_unchecked_witness :
    (computeCentroidalDynamics universeModel (Data.initial 1 0) [] []).map (fun d => d.com 0)
        = some ((centroidalLoops universeModel (Data.initial 1 0) [] []).com 0
            / (centroidalLoops universeModel (Data.initial 1 0) [] []).mass 0)
    ∧ (computeCentroidalDynamicsA universeModel (Data.initial 1 0) [] [] []).map
          (fun d => d.com 0)
        = some ((centroidalLoopsA universeModel (Data.initial 1 0) [] [] []).com 0
            / (centroidalLoopsA universeModel (Data.initial 1 0) [] [] []).mass 0) :=
  degenerate_model_unchecked universeModel (Data.initial 1 0) [] [] [] rfl rfl rfl rfl

/-- C4, counterexample. On the model with the universe joint only the mass
accumulated at the root is zero, and yet neither variant of
`computeCentroidalDynamics` reports an error. -/
theorem degenerate_model_not_detected :
    ¬ (((centroidalLoops universeModel (Data.initial 1 0) [] []).mass 0 = 0
          → computeCentroidalDynamics universeModel (Data.initial 1 0) [] [] = none)
      ∧ ((centroidalLoopsA universeModel (Data.initial 1 0) [] [] []).mass 0 = 0
          → computeCentroidalDynamicsA universeModel (Data.initial 1 0) [] [] [] = none)) := by
  intro h
  have h0 : (centroidalLoops universeModel (Data.initial 1 0) [] []).mass 0 = 0 := by
    simp [centroidalLoops, centroidalStart, forDown, forUp, universeModel]
  have h1 := h.1 h0
  rw [computeCentroidalDynamics_eq universeModel (Data.initial 1 0) [] [] rfl rfl rfl] at h1
  exact Option.noConfusion h1

end c3458

section c38

variable {K : Type} [Field K]

theorem se3_one_mul (X : SE3 K) : (1 : SE3 K) * X = X := by
  ext <;> simp [Matrix3.mul, Matrix3.identity, Matrix3.mulVec]

theorem vec3_smul_div_cancel (m : K) (hm : m ≠ 0) (x : Vector3 K) : (m • x) / m = x := by
  ext <;> simp <;> field_simp

theorem vec3_smul_div_self (m : K) (hm : m ≠ 0) (x : Vector3 K) : m • (x / m) = x := by
  ext <;> simp <;> field_simp

/-- C8 (center of mass). For every model with `parent(i) < i` and non-zero
total mass, a call of `computeCentroidalDynamics` that passes its checks
leaves in `data.com[0]` the mass-weighted mean of the centers of mass of the
bodies expressed in the world frame:
`(sum_i m_i) * com[0] = sum_i m_i * (oR_i * lever_i + op_i)`, with
`(oR_i, op_i)` the composition of the relative placements `liMi` along the
path from the root to joint `i`. -/
theorem center_of_mass (model : Model K) (data : Data K) (q v : List K)
    (hpar : ∀ i, 1 ≤ i → i < model.njoints → model.parents i < i)
    (hM : model.totalMass ≠ 0)
    (hcheck : model.check data = true) (hq : q.length = model.nq)
    (hv : v.length = model.nv) :
    (computeCentroidalDynamics model data q v).map (fun d => model.totalMass • d.com 0)
      = some (∑ i in Finset.Ico 1 model.njoints,
          (model.inertias i).mass •
            ((model.oMi q i).rotation.mulVec (model.inertias i).lever
              + (model.oMi q i).translation)) := by
  rw [computeCentroidalDynamics_eq model data q v hcheck hq hv]
  obtain ⟨c1, c2, -⟩ := centroidalLoops_closed model data q v hpar
  simp only [Option.map_some', centroidalFinish_com, c1, c2]
  rw [vec3_smul_div_self _ hM]
  congr 1
  refine Finset.sum_congr rfl fun i _ => ?_
  rw [mulVec_smul, smul_add]

theorem chainModel_totalMass : chainModel.totalMass = 5 := by
  simp [Model.totalMass, chainModel, Finset.sum_Ico_eq_sum_range, Finset.sum_range_succ]
  norm_num

theorem center_of_mass_witness :
    (computeCentroidalDynamics chainModel (Data.initial 3 2) [1, 2] [3, 4]).map
        (fun d => chainModel.totalMass • d.com 0)
      = some (∑ i in Finset.Ico 1 chainModel.njoints,
          (chainModel.inertias i).mass •
            ((chainModel.oMi [1, 2] i).rotation.mulVec (chainModel.inertias i).lever
              + (chainModel.oMi [1, 2] i).translation)) :=
  center_of_mass chainModel (Data.initial 3 2) [1, 2] [3, 4] chainModel_parents
    (by rw [chainModel_totalMass]; norm_num) rfl rfl rfl

/-- C3 (single free body). For a model with exactly one body (`njoints = 2`,
`parent(1) = 0`) of mass `m ≠ 0`, with any lever and rotational inertia, whose
joint velocity has linear part `w` and zero angular part,
`computeCentroidalDynamics` returns the centroidal momentum with linear part
`m * R * w`, for `R` the rotation of the placement of the body, and angular
part zero. -/
theorem single_free_body (model : Model K) (data : Data K) (q v : List K) (w : Vector3 K)
    (hn : model.njoints = 2) (hp : model.parents 1 = 0)
    (hm : (model.inertias 1).mass ≠ 0)
    (hw : (model.joints 1).jointVelocity q v = ⟨w, 0⟩)
    (hcheck : model.check data = true) (hq : q.length = model.nq)
    (hv : v.length = model.nv) :
    (computeCentroidalDynamics model data q v).map (fun d => d.hg)
      = some ⟨(model.inertias 1).mass • (model.liMi q 1).rotation.mulVec w, 0⟩ := by
  have hpar : ∀ i, 1 ≤ i → i < model.njoints → model.parents i < i := by
    intro i h1 h2
    have : i = 1 := by omega
    subst this; omega
  rw [computeCentroidalDynamics_eq model data q v hcheck hq hv]
  obtain ⟨c1, c2, c3⟩ := centroidalLoops_closed model data q v hpar
  have hv1 := (cdForward_spec model q v _ (cdForward_fields model q v) (model.njoints - 1)
    (fun i h1 h2 => hpar i h1 (by omega)) data 1 le_rfl (by omega)).2.2.2.1
  have hoMi : model.oMi q 1 = model.liMi q 1 := by
    rw [model_oMi_succ model q hpar 1 le_rfl (by omega), hp, model_oMi_zero, se3_one_mul]
  have hT : model.totalMass = (model.inertias 1).mass := by
    simp [Model.totalMass, hn]
  simp only [Option.map_some', centroidalFinish_hg, c1, c2, c3, hT]
  rw [hn] at hv1 ⊢
  simp only [Nat.Ico_succ_singleton, Finset.sum_singleton, hoMi]
  rw [hv1, hp, if_neg (lt_irrefl 0), hw, mulVec_smul, ← smul_add, vec3_smul_div_cancel _ hm]
  generalize model.liMi q 1 = L
  generalize model.inertias 1 = Y at hm
  congr 1
  ext1
  · simp only [Force.shift, Force.se3Action, Inertia.mult, cross_zero_right, sub_zero,
      mulVec_smul]
  · simp only [Force.shift, Force.se3Action, Inertia.mult, cross_zero_right, sub_zero,
      mulVec_smul, mulVec_add, rotation_cross, cross_smul_left, cross_smul_right,
      cross_add_right]
    have h0 : Y.inertia.rhsMult (0 : Vector3 K) = 0 := by
      ext <;> simp [Symmetric3.rhsMult, Matrix3.mulVec]
    rw [h0, mulVec_zero]
    generalize L.rotation.mulVec Y.lever = c
    generalize L.rotation.mulVec w = u
    ext <;> simp only [Vector3.cross, vec3_zero_x, vec3_zero_y, vec3_zero_z, vec3_add_x,
      vec3_add_y, vec3_add_z, vec3_smul_x, vec3_smul_y, vec3_smul_z] <;> ring

end c38

section c7

variable {K : Type} [Field K]

theorem single_free_body_witness :
    (computeCentroidalDynamics singleBodyModel (Data.initial 2 1) [5] [3]).map (fun d => d.hg)
      = some ⟨(singleBodyModel.inertias 1).mass
          • (singleBodyModel.liMi [5] 1).rotation.mulVec ⟨3, 0, 0⟩, 0⟩ :=
  single_free_body singleBodyModel (Data.initial 2 1) [5] [3] ⟨3, 0, 0⟩ rfl rfl
    (by show (2 : ℚ) ≠ 0; norm_num)
    (by
      show ([3].getD 0 (0 : ℚ)) • (⟨⟨1, 0, 0⟩, 0⟩ : Motion ℚ) = ⟨⟨3, 0, 0⟩, 0⟩
      ext <;> simp) rfl rfl rfl

theorem se3_mul_assoc (A B C : SE3 K) : A * B * C = A * (B * C) := by
  ext1
  · simp only [se3_mul_rotation]
    ext <;> simp only [Matrix3.mul] <;> ring
  · simp only [se3_mul_rotation, se3_mul_translation, mulVec_add, mulVec_mul, add_assoc]

theorem rotation_dot (M : SE3 K) (a b : Vector3 K) :
    (M.rotation.mulVec a).dot (M.rotation.mulVec b) = a.dot b := by
  have h := M.transpose_mul_rotation
  rw [Matrix3.ext_iff] at h
  simp only [Matrix3.mul, Matrix3.transpose, Matrix3.identity] at h
  obtain ⟨hxx, hxy, hxz, hyx, hyy, hyz, hzx, hzy, hzz⟩ := h
  simp only [Vector3.dot, Matrix3.mulVec]
  linear_combination (a.x * b.x) * hxx + (a.x * b.y) * hxy + (a.x * b.z) * hxz
    + (a.y * b.x) * hyx + (a.y * b.y) * hyy + (a.y * b.z) * hyz
    + (a.z * b.x) * hzx + (a.z * b.y) * hzy + (a.z * b.z) * hzz

theorem transformRoot_liMi (model : Model K) (T : SE3 K) (q : List K) (i : Nat) :
    (model.transformRoot T).liMi q i
      = if model.parents i = 0 then T * model.liMi q i else model.liMi q i := by
  unfold Model.liMi Model.transformRoot
  by_cases h : model.parents i = 0 <;> simp [h, se3_mul_assoc]

theorem transformRoot_oMi (model : Model K) (T : SE3 K) (q : List K)
    (hpar : ∀ i, 1 ≤ i → i < model.njoints → model.parents i < i) :
    ∀ i, 1 ≤ i → i < model.njoints → (model.transformRoot T).oMi q i = T * model.oMi q i := by
  intro i
  induction i using Nat.strong_induction_on with
  | _ i ih =>
    intro h1 hn
    have hp := hpar i h1 hn
    rw [model_oMi_succ (model.transformRoot T) q hpar i h1 hn,
      model_oMi_succ model q hpar i h1 hn, transformRoot_liMi]
    show (model.transformRoot T).oMi q (model.parents i) * _ = _
    by_cases h0 : model.parents i = 0
    · rw [if_pos h0, h0, model_oMi_zero, model_oMi_zero, se3_one_mul, se3_one_mul]
    · rw [if_neg h0, ih (model.parents i) hp (by omega) (by omega), se3_mul_assoc]

theorem transformRoot_v (model : Model K) (T : SE3 K) (data : Data K) (q v : List K)
    (hpar : ∀ i, 1 ≤ i → i < model.njoints → model.parents i < i) :
    ∀ i, 1 ≤ i → i < model.njoints →
      (forUp (CentroidalDynamicsForwardStep.algo (model.transformRoot T) q v) 1
          (model.njoints - 1) data).v i
        = (forUp (CentroidalDynamicsForwardStep.algo model q v) 1
          (model.njoints - 1) data).v i := by
  intro i
  induction i using Nat.strong_induction_on with
  | _ i ih =>
    intro h1 hn
    have hp := hpar i h1 hn
    have e1 := (cdForward_spec model q v _ (cdForward_fields model q v) (model.njoints - 1)
      (fun i h1 h2 => hpar i h1 (by omega)) data i h1 (by omega)).2.2.2.1
    have e2 := (cdForward_spec (model.transformRoot T) q v _
      (cdForward_fields (model.transformRoot T) q v) (model.njoints - 1)
      (fun i h1 h2 => hpar i h1 (by omega)) data i h1 (by omega)).2.2.2.1
    have e2' : (forUp (CentroidalDynamicsForwardStep.algo (model.transformRoot T) q v) 1
          (model.njoints - 1) data).v i
        = if model.parents i > 0 then
            Motion.se3ActionInverse ((model.transformRoot T).liMi q i)
              ((forUp (CentroidalDynamicsForwardStep.algo (model.transformRoot T) q v) 1
                (model.njoints - 1) data).v (model.parents i))
              + (model.joints i).jointVelocity q v
          else (model.joints i).jointVelocity q v := e2
    rw [e1, e2']
    by_cases h0 : model.parents i > 0
    · rw [if_pos h0, if_pos h0, transformRoot_liMi, if_neg (by omega),
        ih (model.parents i) hp (by omega) (by omega)]
    · rw [if_neg h0, if_neg h0]

end c7

section c7b

variable {K : Type} [Field K]

theorem vec3_div_eq_smul (a : Vector3 K) (m : K) : a / m = m⁻¹ • a := by
  ext <;> simp [div_eq_inv_mul]

theorem mulVec_sum (A : Matrix3 K) {ι : Type} (s : Finset ι) (g : ι → Vector3 K) :
    A.mulVec (∑ k in s, g k) = ∑ k in s, A.mulVec (g k) := by
  classical
  induction s using Finset.induction_on with
  | empty => simp
  | insert h ih => rw [Finset.sum_insert h, Finset.sum_insert h, mulVec_add, ih]

/-- The frame shift commutes with a rigid transform of the world frame. -/
theorem shift_se3Action (T : SE3 K) (f : Force K) (c : Vector3 K) :
    (Force.se3Action T f).shift (T.rotation.mulVec c + T.translation)
      = ⟨T.rotation.mulVec (f.shift c).linear, T.rotation.mulVec (f.shift c).angular⟩ := by
  ext1
  · simp only [Force.shift, Force.se3Action]
  · simp only [Force.shift, Force.se3Action, mulVec_add, rotation_cross]
    generalize T.rotation.mulVec f.linear = a
    generalize T.rotation.mulVec f.angular = b
    generalize T.rotation.mulVec c = u
    ext <;> simp only [Vector3.cross, vec3_add_x, vec3_add_y, vec3_add_z] <;> ring

/-- C7 (frame invariance). For every model (`parent(i) < i`) with non-zero
total mass, every `q`, `v` and every constant rigid transform `T = (R, p)`:
if `model'` is `model` with `jointPlacements[i]` replaced by
`T * jointPlacements[i]` for every joint `i` attached to the root, then
`computeCentroidalDynamics` on `model'` returns `hg'` with
`hg'.linear = R * hg.linear`, `hg'.angular = R * hg.angular` (so that both
parts keep their norm) and `com'[0] = R * com[0] + p`, where `hg` and `com[0]`
are the results on `model`. -/
theorem frame_invariance (model : Model K) (data : Data K) (q v : List K) (T : SE3 K)
    (hpar : ∀ i, 1 ≤ i → i < model.njoints → model.parents i < i)
    (hM : model.totalMass ≠ 0)
    (hcheck : model.check data = true) (hq : q.length = model.nq)
    (hv : v.length = model.nv) :
    ∃ r r', computeCentroidalDynamics model data q v = some r
      ∧ computeCentroidalDynamics (model.transformRoot T) data q v = some r'
      ∧ r'.hg.linear = T.rotation.mulVec r.hg.linear
      ∧ r'.hg.angular = T.rotation.mulVec r.hg.angular
      ∧ r'.com 0 = T.rotation.mulVec (r.com 0) + T.translation
      ∧ r'.hg.linear.dot r'.hg.linear = r.hg.linear.dot r.hg.linear
      ∧ r'.hg.angular.dot r'.hg.angular = r.hg.angular.dot r.hg.angular := by
  have hpar' : ∀ i, 1 ≤ i → i < (model.transformRoot T).njoints →
      (model.transformRoot T).parents i < i := hpar
  obtain ⟨c1, c2, c3⟩ := centroidalLoops_closed model data q v hpar
  obtain ⟨d1, d2, d3⟩ := centroidalLoops_closed (model.transformRoot T) data q v hpar'
  have hT : (model.transformRoot T).totalMass = model.totalMass := rfl
  -- the momentum aggregated at the root is transported by `T`
  have eh : (centroidalLoops (model.transformRoot T) data q v).h 0
      = Force.se3Action T ((centroidalLoops model data q v).h 0) := by
    rw [d3, c3, force_se3Action_sum]
    refine Finset.sum_congr rfl fun j hj => ?_
    have hj' := Finset.mem_Ico.mp hj
    have hj2 : j < model.njoints := hj'.2
    rw [← force_se3Action_mul, ← transformRoot_oMi model T q hpar j hj'.1 hj2]
    show Force.se3Action _ ((model.inertias j).mult
      ((forUp (CentroidalDynamicsForwardStep.algo (model.transformRoot T) q v) 1
          (model.njoints - 1) data).v j)) = _
    rw [transformRoot_v model T data q v hpar j hj'.1 hj2]
  -- the first moment is transported by `T`
  have ec : (centroidalLoops (model.transformRoot T) data q v).com 0
      = T.rotation.mulVec ((centroidalLoops model data q v).com 0)
        + model.totalMass • T.translation := by
    rw [d2, c2, mulVec_sum, Model.totalMass, Finset.sum_smul, ← Finset.sum_add_distrib]
    refine Finset.sum_congr rfl fun j hj => ?_
    have hj' := Finset.mem_Ico.mp hj
    have hj2 : j < model.njoints := hj'.2
    rw [transformRoot_oMi model T q hpar j hj'.1 hj2]
    show (T * model.oMi q j).rotation.mulVec ((model.inertias j).mass • (model.inertias j).lever)
      + (model.inertias j).mass • (T * model.oMi q j).translation = _
    simp only [se3_mul_rotation, se3_mul_translation, mulVec_mul, mulVec_add, mulVec_smul,
      smul_add]
    abel
  have ecom : (centroidalLoops (model.transformRoot T) data q v).com 0
        / (centroidalLoops (model.transformRoot T) data q v).mass 0
      = T.rotation.mulVec ((centroidalLoops model data q v).com 0
          / (centroidalLoops model data q v).mass 0) + T.translation := by
    rw [ec, d1, c1, hT, vec3_div_eq_smul, vec3_div_eq_smul, smul_add, mulVec_smul, smul_smul,
      inv_mul_cancel₀ hM, one_smul]
  have hcheck' : (model.transformRoot T).check data = true := hcheck
  refine ⟨_, _, computeCentroidalDynamics_eq model data q v hcheck hq hv,
    computeCentroidalDynamics_eq (model.transformRoot T) data q v hcheck' hq hv, ?_⟩
  have ehg : (centroidalFinish (centroidalLoops (model.transformRoot T) data q v)).hg
      = ⟨T.rotation.mulVec (centroidalFinish (centroidalLoops model data q v)).hg.linear,
         T.rotation.mulVec (centroidalFinish (centroidalLoops model data q v)).hg.angular⟩ := by
    rw [centroidalFinish_hg, centroidalFinish_hg, ecom, eh, shift_se3Action]
  refine ⟨?_, ?_, ?_, ?_, ?_⟩
  · rw [ehg]
  · rw [ehg]
  · rw [centroidalFinish_com, centroidalFinish_com, ecom]
  · rw [ehg, rotation_dot]
  · rw [ehg, rotation_dot]

theorem frame_invariance_witness :
    ∃ r r', computeCentroidalDynamics chainModel (Data.initial 3 2) [1, 2] [3, 4] = some r
      ∧ computeCentroidalDynamics (chainModel.transformRoot quarterTurn) (Data.initial 3 2)
          [1, 2] [3, 4] = some r'
      ∧ r'.hg.linear = quarterTurn.rotation.mulVec r.hg.linear
      ∧ r'.hg.angular = quarterTurn.rotation.mulVec r.hg.angular
      ∧ r'.com 0 = quarterTurn.rotation.mulVec (r.com 0) + quarterTurn.translation
      ∧ r'.hg.linear.dot r'.hg.linear = r.hg.linear.dot r.hg.linear
      ∧ r'.hg.angular.dot r'.hg.angular = r.hg.angular.dot r.hg.angular :=
  frame_invariance chainModel (Data.initial 3 2) [1, 2] [3, 4] quarterTurn chainModel_parents
    (by rw [chainModel_totalMass]; norm_num) rfl rfl rfl

end c7b

section fk

variable {K : Type} [Field K]

theorem ccrba_eq (model : Model K) (data : Data K) (q v : List K)
    (hcheck : model.check data = true) (hq : q.length = model.nq) (hv : v.length = model.nv) :
    ccrba model data q v = some (ccrbaFinish model v (ccrbaLoops model data q)) := by
  unfold ccrba
  rw [if_pos ⟨hcheck, hq, hv⟩]
  rfl

theorem fkZero_joints (model : Model K) (q : List K) (i : Nat) (d : Data K) :
    (ForwardKinematicZeroStep.algo model q i d).joints
      = Function.update d.joints i ((model.joints i).calcQ (d.joints i) q) := by
  unfold ForwardKinematicZeroStep.algo
  by_cases hp : model.parents i > 0 <;> simp [hp]

theorem fkZero_liMi (model : Model K) (q : List K) (i : Nat) (d : Data K) :
    (ForwardKinematicZeroStep.algo model q i d).liMi
      = Function.update d.liMi i (model.liMi q i) := by
  unfold ForwardKinematicZeroStep.algo Model.liMi
  by_cases hp : model.parents i > 0 <;> simp [hp, JointModel.calcQ]

theorem fkZero_oMi (model : Model K) (q : List K) (i : Nat) (d : Data K) :
    (ForwardKinematicZeroStep.algo model q i d).oMi
      = Function.update d.oMi i
          (if model.parents i > 0 then d.oMi (model.parents i) * model.liMi q i
           else model.liMi q i) := by
  unfold ForwardKinematicZeroStep.algo Model.liMi
  by_cases hp : model.parents i > 0 <;> simp [hp, JointModel.calcQ]

theorem fkZero_Ycrb (model : Model K) (q : List K) (i : Nat) (d : Data K) :
    (ForwardKinematicZeroStep.algo model q i d).Ycrb = d.Ycrb := by
  unfold ForwardKinematicZeroStep.algo
  by_cases hp : model.parents i > 0 <;> simp [hp]

/-- After `forwardKinematics(model, data, q)` every joint `1..n` holds its
placement relative to its parent, its placement in the world (the composition
along the path from the root) and its motion subspace. Stated for any loop
body that writes these fields as the position-only step does. -/
theorem fk_spec (model : Model K) (q : List K) (body : Nat → Data K → Data K)
    (hbody : ∀ i d,
      (body i d).liMi = Function.update d.liMi i (model.liMi q i)
      ∧ (body i d).oMi = Function.update d.oMi i
          (if model.parents i > 0 then d.oMi (model.parents i) * model.liMi q i
           else model.liMi q i)
      ∧ (∀ j, j ≠ i → (body i d).joints j = d.joints j)
      ∧ ((body i d).joints i).S = (model.joints i).jointSubspace q)
    (hpar : model.TreeOrdered) (d : Data K) :
    ∀ j, 1 ≤ j → j < model.njoints →
      (forUp body 1 (model.njoints - 1) d).liMi j = model.liMi q j
      ∧ (forUp body 1 (model.njoints - 1) d).oMi j = model.oMi q j
      ∧ ((forUp body 1 (model.njoints - 1) d).joints j).S = (model.joints j).jointSubspace q := by
  have key := forUp_invariant body
    (fun i s => ∀ j, 1 ≤ j → j < i →
      s.liMi j = model.liMi q j ∧ s.oMi j = model.oMi q j
      ∧ (s.joints j).S = (model.joints j).jointSubspace q)
    (model.njoints - 1) 1 d (fun j h1 h2 => by omega) ?_
  · intro j h1 hn
    exact key j h1 (by omega)
  · intro i s hi1 hin ih j hj1 hji
    obtain ⟨e1, e2, e3, e4⟩ := hbody i s
    rw [e1, e2]
    by_cases hj : j = i
    · subst hj
      have hp := hpar j hj1 (by omega)
      refine ⟨by simp, ?_, e4⟩
      simp only [Function.update_same]
      rw [model_oMi_succ model q hpar j hj1 (by omega)]
      by_cases h0 : model.parents j > 0
      · rw [if_pos h0, (ih (model.parents j) h0 hp).2.1]
      · have : model.parents j = 0 := by omega
        rw [if_neg h0, this, model_oMi_zero, se3_one_mul]
    · rw [e3 j hj]
      simp only [Function.update_noteq hj]
      exact ih j hj1 (by omega)

theorem fkZero_body (model : Model K) (q : List K) (i : Nat) (d : Data K) :
    (ForwardKinematicZeroStep.algo model q i d).liMi = Function.update d.liMi i (model.liMi q i)
    ∧ (ForwardKinematicZeroStep.algo model q i d).oMi = Function.update d.oMi i
        (if model.parents i > 0 then d.oMi (model.parents i) * model.liMi q i
         else model.liMi q i)
    ∧ (∀ j, j ≠ i → (ForwardKinematicZeroStep.algo model q i d).joints j = d.joints j)
    ∧ ((ForwardKinematicZeroStep.algo model q i d).joints i).S
        = (model.joints i).jointSubspace q := by
  refine ⟨fkZero_liMi model q i d, fkZero_oMi model q i d, ?_, ?_⟩
  · intro j hj
    rw [fkZero_joints, Function.update_noteq hj]
  · rw [fkZero_joints, Function.update_same]
    rfl

/-- The state of `ccrba` before its backward loop. -/
theorem ccrbaStart_spec (model : Model K) (data : Data K) (q : List K)
    (hpar : model.TreeOrdered) :
    (ccrbaStart model data q).Ycrb 0 = Inertia.Zero
    ∧ ∀ j, 1 ≤ j → j < model.njoints →
      (ccrbaStart model data q).liMi j = model.liMi q j
      ∧ (ccrbaStart model data q).oMi j = model.oMi q j
      ∧ ((ccrbaStart model data q).joints j).S = (model.joints j).jointSubspace q
      ∧ (ccrbaStart model data q).Ycrb j = model.inertias j := by
  have hfk := fk_spec model q _ (fkZero_body model q) hpar data
  have key := forUp_invariant
    (fun i (d : Data K) => { d with Ycrb := Function.update d.Ycrb i (model.inertias i) })
    (fun i s => s.liMi = (forwardKinematics model data q).liMi
      ∧ s.oMi = (forwardKinematics model data q).oMi
      ∧ s.joints = (forwardKinematics model data q).joints
      ∧ s.Ycrb 0 = Inertia.Zero
      ∧ ∀ j, 1 ≤ j → j < i → s.Ycrb j = model.inertias j)
    (model.njoints - 1) 1
    { forwardKinematics model data q with
      Ycrb := Function.update (forwardKinematics model data q).Ycrb 0 Inertia.Zero }
    ⟨rfl, rfl, rfl, by simp, fun j h1 h2 => by omega⟩ ?_
  · obtain ⟨k1, k2, k3, k4, k5⟩ := key
    refine ⟨k4, fun j h1 hn => ?_⟩
    have := hfk j h1 hn
    refine ⟨?_, ?_, ?_, k5 j h1 (by omega)⟩
    · exact (congrFun k1 j).trans this.1
    · exact (congrFun k2 j).trans this.2.1
    · exact (congrArg JointData.S (congrFun k3 j)).trans this.2.2
  · intro i s hi1 hin ⟨a1, a2, a3, a4, a5⟩
    refine ⟨a1, a2, a3, ?_, ?_⟩
    · show Function.update s.Ycrb i (model.inertias i) 0 = _
      rw [Function.update_noteq (by omega), a4]
    · intro j h1 h2
      show Function.update s.Ycrb i (model.inertias i) j = _
      by_cases hj : j = i
      · subst hj; simp
      · rw [Function.update_noteq hj]
        exact a5 j h1 (by omega)

end fk

section ccrbaBackward

variable {K : Type} [Field K]

/-- The backward accumulation with an invariant that depends on the index of
the step. -/
theorem accumulate_indexed {σ B : Type} [AddCommMonoid B] (body : Nat → σ → σ)
    (g : σ → Nat → B) (parents : Nat → Nat) (n : Nat) (I : Nat → σ → Prop)
    (hpar : ∀ i, 1 ≤ i → i ≤ n → parents i < i)
    (hI : ∀ i s, i < n → I (i + 1) s → I i (body (i + 1) s))
    (hstep : ∀ i s, i < n → I (i + 1) s →
      g (body (i + 1) s) (parents (i + 1)) = g s (parents (i + 1)) + g s (i + 1) ∧
      ∀ j, j ≠ parents (i + 1) → j < i + 1 → g (body (i + 1) s) j = g s j)
    (s : σ) (hs : I n s) :
    I 0 (forDown body n s) ∧ g (forDown body n s) 0 = ∑ j in Finset.range (n + 1), g s j := by
  have key := forDown_invariant body
    (fun k t => I k t ∧ ∑ j in Finset.range (k + 1), g t j = ∑ j in Finset.range (n + 1), g s j)
    n s ⟨hs, rfl⟩ ?_
  · obtain ⟨h1, h2⟩ := key
    refine ⟨h1, ?_⟩
    simpa using h2
  · intro i t hi ⟨hIt, hsum⟩
    refine ⟨hI i t hi hIt, ?_⟩
    obtain ⟨e1, e2⟩ := hstep i t hi hIt
    have hp := hpar (i + 1) (by omega) (by omega)
    rw [← hsum, Finset.sum_range_succ _ (i + 1)]
    exact sum_eq_add_of_update (Finset.range (i + 1)) (g t) (g (body (i + 1) t))
      (parents (i + 1)) (g t (i + 1)) (Finset.mem_range.mpr hp) e1
      (fun j hj hne => e2 j hne (Finset.mem_range.mp hj))

theorem ccrbaStep_liMi (model : Model K) (i : Nat) (d : Data K) :
    (CcrbaBackwardStep.algo model i d).liMi = d.liMi := rfl

theorem ccrbaStep_oMi (model : Model K) (i : Nat) (d : Data K) :
    (CcrbaBackwardStep.algo model i d).oMi = d.oMi := rfl

theorem ccrbaStep_Ycrb (model : Model K) (i : Nat) (d : Data K) :
    (CcrbaBackwardStep.algo model i d).Ycrb
      = Function.update d.Ycrb (model.parents i)
          (d.Ycrb (model.parents i) + Inertia.se3Action (d.liMi i) (d.Ycrb i)) := rfl

theorem ccrbaStep_S (model : Model K) (i : Nat) (d : Data K) (j : Nat) :
    ((CcrbaBackwardStep.algo model i d).joints j).S = (d.joints j).S := by
  unfold CcrbaBackwardStep.algo
  by_cases hj : j = i
  · subst hj; simp
  · simp [Function.update_noteq hj]

theorem ccrbaStep_Ag (model : Model K) (i : Nat) (d : Data K)
    (hne : i ≠ model.parents i) :
    (CcrbaBackwardStep.algo model i d).Ag
      = (model.joints i).setJointCols d.Ag
          (fun k => Force.se3Action (d.oMi i) ((d.Ycrb i).mult ((d.joints i).S k))) := by
  unfold CcrbaBackwardStep.algo
  simp [Function.update_noteq hne]

@[simp] theorem inertia_add_mass (Ya Yb : Inertia K) : (Ya + Yb).mass = Ya.mass + Yb.mass := rfl

@[simp] theorem inertia_se3Action_mass (M : SE3 K) (Y : Inertia K) :
    (Inertia.se3Action M Y).mass = Y.mass := rfl

@[simp] theorem inertia_se3Action_lever (M : SE3 K) (Y : Inertia K) :
    (Inertia.se3Action M Y).lever = M.translation + M.rotation.mulVec Y.lever := rfl

/-- The first moment of a sum of inertias, when the total mass is not zero. -/
theorem inertia_add_moment (Ya Yb : Inertia K) (h : Ya.mass + Yb.mass ≠ 0) :
    (Ya + Yb).mass • (Ya + Yb).lever = Ya.mass • Ya.lever + Yb.mass • Yb.lever := by
  show (Ya.mass + Yb.mass) • ((1 / (Ya.mass + Yb.mass)) • (Ya.mass • Ya.lever + Yb.mass • Yb.lever))
    = _
  rw [smul_smul, mul_one_div_cancel h, one_smul]

theorem ccrbaFrame_step (model : Model K) (d : Data K) (i : Nat) (s : Data K)
    (h : ccrbaFrame model d (i + 1) s) :
    ccrbaFrame model d i (CcrbaBackwardStep.algo model (i + 1) s)
    ∧ (s.Ycrb (model.parents (i + 1))).mass + (s.Ycrb (i + 1)).mass ≠ 0 := by
  obtain ⟨h1, h2, h3, h4⟩ := h
  obtain ⟨h5, h6⟩ := h4
  refine ⟨⟨h1, h2, fun j => (ccrbaStep_S model (i + 1) s j).trans (h3 j), ?_⟩, h5⟩
  have e : (fun j => ((CcrbaBackwardStep.algo model (i + 1) s).Ycrb j).mass)
      = Function.update (fun j => (s.Ycrb j).mass) (model.parents (i + 1))
          ((s.Ycrb (model.parents (i + 1))).mass + (s.Ycrb (i + 1)).mass) := by
    funext j
    rw [ccrbaStep_Ycrb]
    by_cases hj : j = model.parents (i + 1)
    · subst hj; simp
    · simp [Function.update_noteq hj]
  rw [e]
  exact h6

end ccrbaBackward

section c9

variable {K : Type} [Field K]

theorem compositeMassesOK_congr (parents : Nat → Nat) :
    ∀ (n : Nat) (m m' : Nat → K), (∀ i, 1 ≤ i → i ≤ n → parents i < i) →
      (∀ j, j ≤ n → m j = m' j) → compositeMassesOK parents n m →
      compositeMassesOK parents n m' := by
  intro n
  induction n with
  | zero => intro m m' _ _ _; trivial
  | succ n ih =>
    intro m m' hpar hm h
    obtain ⟨h1, h2⟩ := h
    have hp := hpar (n + 1) (by omega) le_rfl
    refine ⟨by rw [← hm _ (by omega), ← hm _ le_rfl]; exact h1, ?_⟩
    refine ih _ _ (fun i a b => hpar i a (by omega)) ?_ h2
    intro j hj
    by_cases e : j = parents (n + 1)
    · subst e
      simp only [Function.update_same]
      rw [hm _ (by omega), hm _ le_rfl]
    · rw [Function.update_noteq e, Function.update_noteq e]
      exact hm j (by omega)

theorem ccrbaFrame_start (model : Model K) (data : Data K) (q : List K)
    (hpar : model.TreeOrdered) (hden : model.CompositeMassesNonzero) :
    ccrbaFrame model (ccrbaStart model data q) (model.njoints - 1) (ccrbaStart model data q) := by
  obtain ⟨h0, hs⟩ := ccrbaStart_spec model data q hpar
  refine ⟨rfl, rfl, fun _ => rfl, ?_⟩
  refine compositeMassesOK_congr model.parents _ _ _ (fun i a b => hpar i a (by omega)) ?_ hden
  intro j hj
  by_cases e : j = 0
  · subst e
    simp only [if_true]
    rw [h0]
    rfl
  · rw [if_neg e, (hs j (by omega) (by omega)).2.2.2]

/-- Closed form of the composite inertia of the root after the backward loop
of `ccrba`: total mass and first moment. -/
theorem ccrbaLoops_closed (model : Model K) (data : Data K) (q : List K)
    (hpar : model.TreeOrdered) (hden : model.CompositeMassesNonzero) :
    ((ccrbaLoops model data q).Ycrb 0).mass = model.totalMass
    ∧ ((ccrbaLoops model data q).Ycrb 0).mass • ((ccrbaLoops model data q).Ycrb 0).lever
        = ∑ j in Finset.Ico 1 model.njoints,
            ((model.oMi q j).rotation.mulVec ((model.inertias j).mass • (model.inertias j).lever)
              + (model.inertias j).mass • (model.oMi q j).translation) := by
  obtain ⟨h0, hs⟩ := ccrbaStart_spec model data q hpar
  have hpar' : ∀ i, 1 ≤ i → i ≤ model.njoints - 1 → model.parents i < i :=
    fun i a b => hpar i a (by omega)
  have hfr := ccrbaFrame_start model data q hpar hden
  have hm := accumulate_indexed (CcrbaBackwardStep.algo model) (fun s j => (s.Ycrb j).mass)
    model.parents (model.njoints - 1) (ccrbaFrame model (ccrbaStart model data q)) hpar'
    (fun i s _ h => (ccrbaFrame_step model _ i s h).1)
    (fun i s hi _ => by
      show ((CcrbaBackwardStep.algo model (i + 1) s).Ycrb _).mass = _
        ∧ ∀ j, _ → _ → ((CcrbaBackwardStep.algo model (i + 1) s).Ycrb j).mass = _
      rw [ccrbaStep_Ycrb]
      refine ⟨by simp, fun j hj _ => by simp [Function.update_noteq hj]⟩)
    _ hfr
  have hc := accumulate_indexed (CcrbaBackwardStep.algo model)
    (fun s j => (model.oMi q j).rotation.mulVec ((s.Ycrb j).mass • (s.Ycrb j).lever)
      + (s.Ycrb j).mass • (model.oMi q j).translation)
    model.parents (model.njoints - 1) (ccrbaFrame model (ccrbaStart model data q)) hpar'
    (fun i s _ h => (ccrbaFrame_step model _ i s h).1)
    (fun i s hi h => by
      have hnz := (ccrbaFrame_step model _ i s h).2
      have hp := hpar' (i + 1) (by omega) (by omega)
      have hl : s.liMi (i + 1) = model.liMi q (i + 1) := by
        rw [h.1]; exact (hs (i + 1) (by omega) (by omega)).1
      show (model.oMi q _).rotation.mulVec
            (((CcrbaBackwardStep.algo model (i + 1) s).Ycrb _).mass
              • ((CcrbaBackwardStep.algo model (i + 1) s).Ycrb _).lever)
          + ((CcrbaBackwardStep.algo model (i + 1) s).Ycrb _).mass • _ = _
        ∧ ∀ j, _ → _ → (model.oMi q j).rotation.mulVec
            (((CcrbaBackwardStep.algo model (i + 1) s).Ycrb j).mass
              • ((CcrbaBackwardStep.algo model (i + 1) s).Ycrb j).lever)
          + ((CcrbaBackwardStep.algo model (i + 1) s).Ycrb j).mass • _ = _
      rw [ccrbaStep_Ycrb]
      refine ⟨?_, fun j hj _ => by simp [Function.update_noteq hj]⟩
      simp only [Function.update_same]
      rw [inertia_add_moment _ _ (by simpa using hnz)]
      simp only [inertia_add_mass, inertia_se3Action_mass, inertia_se3Action_lever]
      rw [smul_add (s.Ycrb (i + 1)).mass, ← mulVec_smul,
        add_comm ((s.Ycrb (i + 1)).mass • (s.liMi (i + 1)).translation), comTerm_step,
        model_oMi_succ model q hpar (i + 1) (by omega) (by omega), hl])
    _ hfr
  refine ⟨?_, ?_⟩
  · have e1 : ((ccrbaLoops model data q).Ycrb 0).mass
        = ∑ j in Finset.range (model.njoints - 1 + 1), ((ccrbaStart model data q).Ycrb j).mass :=
      hm.2
    rw [e1, sum_range_eq_Ico _ _ (by rw [h0]; rfl)]
    refine Finset.sum_congr rfl fun j hj => ?_
    have hj' := Finset.mem_Ico.mp hj
    rw [(hs j hj'.1 hj'.2).2.2.2]
  · have e : (model.oMi q 0).rotation.mulVec
          (((ccrbaLoops model data q).Ycrb 0).mass • ((ccrbaLoops model data q).Ycrb 0).lever)
          + ((ccrbaLoops model data q).Ycrb 0).mass • (model.oMi q 0).translation
        = ∑ j in Finset.range (model.njoints - 1 + 1),
            ((model.oMi q j).rotation.mulVec
                (((ccrbaStart model data q).Ycrb j).mass • ((ccrbaStart model data q).Ycrb j).lever)
              + ((ccrbaStart model data q).Ycrb j).mass • (model.oMi q j).translation) := hc.2
    simp only [model_oMi_zero, se3_one_rotation, se3_one_translation, identity_mulVec,
      smul_zero, add_zero] at e
    rw [e, sum_range_eq_Ico _ _ (by rw [h0]; simp [Inertia.Zero])]
    refine Finset.sum_congr rfl fun j hj => ?_
    have hj' := Finset.mem_Ico.mp hj
    rw [(hs j hj'.1 hj'.2).2.2.2]

/-- The shift loop only changes the columns `0..nv` of `Ag`. -/
theorem shiftAg_eq (nv : Nat) (d : Data K) :
    shiftAg nv d
      = { d with Ag := fun k => if k < nv then (d.Ag k).shift (d.com 0) else d.Ag k } := by
  have key := forUp_invariant
    (fun k (s : Data K) => { s with Ag := Function.update s.Ag k ((s.Ag k).shift (s.com 0)) })
    (fun i s => s = { d with Ag := fun k => if k < i then (d.Ag k).shift (d.com 0) else d.Ag k })
    nv 0 d (by simp) ?_
  · simpa using key
  · intro i s _ _ hs
    subst hs
    simp only
    congr 1
    funext k
    by_cases hk : k = i
    · subst hk; simp
    · rw [Function.update_noteq hk]
      have : k < i + 1 ↔ k < i := by omega
      simp only [this]

theorem ccrbaFinish_Ycrb (model : Model K) (v : List K) (d : Data K) :
    (ccrbaFinish model v d).Ycrb = d.Ycrb := by
  simp [ccrbaFinish, shiftAg_eq]

theorem ccrbaFinish_com (model : Model K) (v : List K) (d : Data K) :
    (ccrbaFinish model v d).com 0 = (d.Ycrb 0).lever := by
  simp [ccrbaFinish, shiftAg_eq]

theorem ccrbaFinish_Ig (model : Model K) (v : List K) (d : Data K) :
    (ccrbaFinish model v d).Ig = ⟨(d.Ycrb 0).mass, 0, (d.Ycrb 0).inertia⟩ := by
  simp [ccrbaFinish, shiftAg_eq]

theorem ccrbaFinish_Ag (model : Model K) (v : List K) (d : Data K) :
    (ccrbaFinish model v d).Ag
      = fun k => if k < model.nv then (d.Ag k).shift (d.Ycrb 0).lever else d.Ag k := by
  simp [ccrbaFinish, shiftAg_eq]

theorem ccrbaFinish_hg (model : Model K) (v : List K) (d : Data K) :
    (ccrbaFinish model v d).hg
      = mulCols (ccrbaFinish model v d).Ag model.nv (fun k => v.getD k 0) := by
  simp [ccrbaFinish, shiftAg_eq]

end c9

section c9b

variable {K : Type} [Field K]

/-- The mass of the composite inertia of the root after the backward loop of
`ccrba` is the total mass, whatever the masses are. -/
theorem ccrbaLoops_mass (model : Model K) (data : Data K) (q : List K)
    (hpar : model.TreeOrdered) :
    ((ccrbaLoops model data q).Ycrb 0).mass = model.totalMass := by
  obtain ⟨h0, hs⟩ := ccrbaStart_spec model data q hpar
  have hm := accumulate_sum (CcrbaBackwardStep.algo model) (fun s j => (s.Ycrb j).mass)
    model.parents (model.njoints - 1) (fun _ => True) (fun i a b => hpar i a (by omega))
    (fun _ _ _ _ _ => trivial)
    (fun i s _ _ _ => by
      show ((CcrbaBackwardStep.algo model i s).Ycrb _).mass = _
        ∧ ∀ j, _ → _ → ((CcrbaBackwardStep.algo model i s).Ycrb j).mass = _
      rw [ccrbaStep_Ycrb]
      refine ⟨by simp, fun j hj _ => by simp [Function.update_noteq hj]⟩)
    (ccrbaStart model data q) trivial
  have e1 : ((ccrbaLoops model data q).Ycrb 0).mass
      = ∑ j in Finset.range (model.njoints - 1 + 1), ((ccrbaStart model data q).Ycrb j).mass :=
    hm.2
  rw [e1, sum_range_eq_Ico _ _ (by rw [h0]; rfl)]
  refine Finset.sum_congr rfl fun j hj => ?_
  have hj' := Finset.mem_Ico.mp hj
  rw [(hs j hj'.1 hj'.2).2.2.2]

/-- The center of mass left by `ccrba` is the one of
`computeCentroidalDynamics`, when no addition of composite inertias has a zero
total mass. -/
theorem ccrba_com_eq (model : Model K) (data data' : Data K) (q v : List K)
    (hpar : model.TreeOrdered) (hM : model.totalMass ≠ 0)
    (hden : model.CompositeMassesNonzero) :
    ((ccrbaLoops model data q).Ycrb 0).lever
      = (centroidalLoops model data' q v).com 0 / (centroidalLoops model data' q v).mass 0 := by
  obtain ⟨c1, c2, -⟩ := centroidalLoops_closed model data' q v hpar
  obtain ⟨b1, b2⟩ := ccrbaLoops_closed model data q hpar hden
  rw [c1, c2, ← b2, b1, vec3_smul_div_cancel _ hM]

/-- C9, as the code has it. For every model with `parent(i) < i` and non-zero
total mass, a call of `ccrba` that passes its checks leaves
`Ycrb[0].mass()` equal to the sum of the per-joint inertia masses, also stored
as `Ig.mass()`, `data.com[0] = Ycrb[0].lever()` and `Ig.lever()` zero; and
`com[0]` is the `com[0]` computed by `computeCentroidalDynamics` on the same
model and `q` provided no addition of composite inertias in the backward loop
has a zero total mass. -/
theorem ccrba_root_inertia (model : Model K) (data : Data K) (q v : List K)
    (hpar : model.TreeOrdered) (hM : model.totalMass ≠ 0)
    (hcheck : model.check data = true) (hq : q.length = model.nq)
    (hv : v.length = model.nv) :
    ∃ r c, ccrba model data q v = some r
      ∧ computeCentroidalDynamics model data q v = some c
      ∧ (r.Ycrb 0).mass = model.totalMass
      ∧ r.Ig.mass = model.totalMass
      ∧ r.com 0 = (r.Ycrb 0).lever
      ∧ r.Ig.lever = 0
      ∧ (model.CompositeMassesNonzero → r.com 0 = c.com 0) := by
  refine ⟨_, _, ccrba_eq model data q v hcheck hq hv,
    computeCentroidalDynamics_eq model data q v hcheck hq hv, ?_, ?_, ?_, ?_, ?_⟩
  · rw [ccrbaFinish_Ycrb, ccrbaLoops_mass model data q hpar]
  · rw [ccrbaFinish_Ig]
    exact ccrbaLoops_mass model data q hpar
  · rw [ccrbaFinish_com, ccrbaFinish_Ycrb]
  · rw [ccrbaFinish_Ig]
  · intro hden
    rw [ccrbaFinish_com, centroidalFinish_com]
    exact ccrba_com_eq model data data q v hpar hM hden

theorem chainModel_masses : chainModel.CompositeMassesNonzero := by
  show compositeMassesOK chainModel.parents 2 _
  simp only [compositeMassesOK]
  decide!

theorem ccrba_root_inertia_witness :
    ∃ r c, ccrba chainModel (Data.initial 3 2) [1, 2] [3, 4] = some r
      ∧ computeCentroidalDynamics chainModel (Data.initial 3 2) [1, 2] [3, 4] = some c
      ∧ (r.Ycrb 0).mass = chainModel.totalMass
      ∧ r.Ig.mass = chainModel.totalMass
      ∧ r.com 0 = (r.Ycrb 0).lever
      ∧ r.Ig.lever = 0
      ∧ r.com 0 = c.com 0 := by
  obtain ⟨r, c, h1, h2, h3, h4, h5, h6, h7⟩ :=
    ccrba_root_inertia chainModel (Data.initial 3 2) [1, 2] [3, 4] chainModel_parents
      (by rw [chainModel_totalMass]; norm_num) rfl rfl rfl
  exact ⟨r, c, h1, h2, h3, h4, h5, h6, h7 chainModel_masses⟩

theorem starModel_tree : starModel.TreeOrdered := by
  intro i h1 _
  show 0 < i
  omega

/-- C9, counterexample. The star of three bodies of masses 1, -1 and 1 has
`parent(i) < i` and total mass 1, and the center of mass left by `ccrba`
differs from the one left by `computeCentroidalDynamics`: the composite of
the last two bodies has mass zero and loses its first moment. -/
theorem ccrba_com_counterexample :
    starModel.TreeOrdered ∧ starModel.totalMass ≠ 0
    ∧ (ccrba starModel (Data.initial 4 3) [0, 0, 0] [0, 0, 1]).map (fun d => d.com 0)
        ≠ (computeCentroidalDynamics starModel (Data.initial 4 3) [0, 0, 0] [0, 0, 1]).map
            (fun d => d.com 0) :=
  ⟨starModel_tree, by decide!, by decide!⟩

end c9b

section columns

variable {K : Type} [Field K]

/-- The column blocks of two different joints are disjoint. -/
theorem block_disjoint (model : Model K) (hcols : model.ColumnsPartition) (i j : Nat)
    (hi1 : 1 ≤ i) (hi : i < model.njoints) (hj1 : 1 ≤ j) (hj : j < model.njoints)
    (hne : i ≠ j) (c : Nat) (hc : c < (model.joints j).nv) :
    ¬ ((model.joints i).idx_v ≤ (model.joints j).idx_v + c
        ∧ (model.joints j).idx_v + c < (model.joints i).idx_v + (model.joints i).nv) := by
  intro h
  have hlt : (model.joints j).idx_v + c < model.nv := by
    have := hcols.1 j hj1 hj
    omega
  obtain ⟨j0, -, huniq⟩ := hcols.2 _ hlt
  have e1 := huniq i ⟨hi1, hi, h.1, h.2⟩
  have e2 := huniq j ⟨hj1, hj, by omega, by omega⟩
  exact hne (e1.trans e2.symm)

/-- A sum over the columns is the sum over the joints of the sums over their
blocks. -/
theorem sum_columns (model : Model K) (hcols : model.ColumnsPartition) {B : Type}
    [AddCommMonoid B] (f : Nat → B) :
    ∑ k in Finset.range model.nv, f k
      = ∑ j in Finset.Ico 1 model.njoints,
          ∑ c in Finset.range (model.joints j).nv, f ((model.joints j).idx_v + c) := by
  have h1 : ∀ k ∈ Finset.range model.nv,
      f k = ∑ j in Finset.Ico 1 model.njoints,
        if (model.joints j).idx_v ≤ k ∧ k < (model.joints j).idx_v + (model.joints j).nv
        then f k else 0 := by
    intro k hk
    obtain ⟨j0, hj0, huniq⟩ := hcols.2 k (Finset.mem_range.mp hk)
    rw [Finset.sum_eq_single j0]
    · rw [if_pos ⟨hj0.2.2.1, hj0.2.2.2⟩]
    · intro j hj hne
      have hj' := Finset.mem_Ico.mp hj
      rw [if_neg]
      intro hb
      exact hne (huniq j ⟨hj'.1, hj'.2, hb.1, hb.2⟩)
    · intro hn
      exact absurd (Finset.mem_Ico.mpr ⟨hj0.1, hj0.2.1⟩) hn
  rw [Finset.sum_congr rfl h1, Finset.sum_comm]
  refine Finset.sum_congr rfl fun j hj => ?_
  have hj' := Finset.mem_Ico.mp hj
  have hin := hcols.1 j hj'.1 hj'.2
  rw [← Finset.sum_filter]
  have e : (Finset.range model.nv).filter
        (fun k => (model.joints j).idx_v ≤ k ∧ k < (model.joints j).idx_v + (model.joints j).nv)
      = Finset.Ico (model.joints j).idx_v ((model.joints j).idx_v + (model.joints j).nv) := by
    ext k
    simp only [Finset.mem_filter, Finset.mem_range, Finset.mem_Ico]
    omega
  rw [e, Finset.sum_Ico_eq_sum_range, Nat.add_sub_cancel_left]

theorem setJointCols_block {α : Type} (jm : JointModel K) (A B : Nat → α) (c : Nat)
    (hc : c < jm.nv) : jm.setJointCols A B (jm.idx_v + c) = B c := by
  unfold JointModel.setJointCols
  rw [if_pos ⟨by omega, by omega⟩, Nat.add_sub_cancel_left]

theorem setJointCols_other {α : Type} (jm : JointModel K) (A B : Nat → α) (k : Nat)
    (hk : ¬ (jm.idx_v ≤ k ∧ k < jm.idx_v + jm.nv)) : jm.setJointCols A B k = A k := by
  unfold JointModel.setJointCols
  rw [if_neg hk]

theorem mulCols_congr {α : Type} [AddCommMonoid α] [SMul K α] (A A' : Nat → α) (n : Nat)
    (x : Nat → K) (h : ∀ c, c < n → A c = A' c) : mulCols A n x = mulCols A' n x := by
  unfold mulCols
  exact Finset.sum_congr rfl fun c hc => by rw [h c (Finset.mem_range.mp hc)]

theorem inertia_mult_mulCols (Y : Inertia K) (S : Nat → Motion K) (n : Nat) (x : Nat → K) :
    mulCols (fun c => Y.mult (S c)) n x = Y.mult (mulCols S n x) := by
  unfold mulCols
  rw [inertia_mult_sum]
  exact Finset.sum_congr rfl fun c _ => (inertia_mult_smul Y _ _).symm

theorem force_se3Action_mulCols (M : SE3 K) (F : Nat → Force K) (n : Nat) (x : Nat → K) :
    mulCols (fun c => Force.se3Action M (F c)) n x = Force.se3Action M (mulCols F n x) := by
  unfold mulCols
  rw [force_se3Action_sum]
  exact Finset.sum_congr rfl fun c _ => (force_se3Action_smul M _ _).symm

end columns

section c1

variable {K : Type} [Field K]

/-- The product of the block of joint `j` in `Ag` with the slice of `v` of
that joint, after the step of joint `a` of the backward loop of `ccrba`. -/
theorem ccrbaStep_block (model : Model K) (v : List K) (hcols : model.ColumnsPartition)
    (a : Nat) (ha1 : 1 ≤ a) (ha : a < model.njoints) (hp : model.parents a < a) (s : Data K) :
    mulCols ((model.joints a).jointCols (CcrbaBackwardStep.algo model a s).Ag)
        (model.joints a).nv ((model.joints a).jointVelocitySelector v)
      = Force.se3Action (s.oMi a) ((s.Ycrb a).mult
          (mulCols (s.joints a).S (model.joints a).nv
            ((model.joints a).jointVelocitySelector v)))
    ∧ ∀ j, 1 ≤ j → j < model.njoints → j ≠ a →
      mulCols ((model.joints j).jointCols (CcrbaBackwardStep.algo model a s).Ag)
          (model.joints j).nv ((model.joints j).jointVelocitySelector v)
        = mulCols ((model.joints j).jointCols s.Ag)
          (model.joints j).nv ((model.joints j).jointVelocitySelector v) := by
  rw [ccrbaStep_Ag model a s (by omega)]
  constructor
  · rw [← inertia_mult_mulCols, ← force_se3Action_mulCols]
    refine mulCols_congr _ _ _ _ fun c hc => ?_
    show (model.joints a).setJointCols _ _ ((model.joints a).idx_v + c) = _
    rw [setJointCols_block _ _ _ _ hc]
  · intro j hj1 hj hne
    refine mulCols_congr _ _ _ _ fun c hc => ?_
    show (model.joints a).setJointCols _ _ ((model.joints j).idx_v + c) = s.Ag _
    rw [setJointCols_other _ _ _ _
      (block_disjoint model hcols a j ha1 ha hj1 hj (Ne.symm hne) c hc)]

/-- The momentum identity behind `ccrba`: when the local velocities `u`
satisfy the recurrence of the tree, the products of the blocks of `Ag` (before
the shift) with the slices of `v` sum up to the momentum of the bodies
transported to the world frame. -/
theorem ccrba_momentum (model : Model K) (data : Data K) (q v : List K) (u : Nat → Motion K)
    (hpar : model.TreeOrdered) (hcols : model.ColumnsPartition)
    (hden : model.CompositeMassesNonzero) (hu0 : u 0 = 0)
    (hu : ∀ i, 1 ≤ i → i < model.njoints →
      u i = Motion.se3ActionInverse (model.liMi q i) (u (model.parents i))
        + mulCols ((model.joints i).jointSubspace q) (model.joints i).nv
            ((model.joints i).jointVelocitySelector v)) :
    ∑ j in Finset.Ico 1 model.njoints,
        mulCols ((model.joints j).jointCols (ccrbaLoops model data q).Ag)
          (model.joints j).nv ((model.joints j).jointVelocitySelector v)
      = ∑ j in Finset.Ico 1 model.njoints,
          Force.se3Action (model.oMi q j) ((model.inertias j).mult (u j)) := by
  obtain ⟨h0, hs⟩ := ccrbaStart_spec model data q hpar
  have hfr := ccrbaFrame_start model data q hpar hden
  have key := forDown_invariant (CcrbaBackwardStep.algo model)
    (fun k s => ccrbaFrame model (ccrbaStart model data q) k s
      ∧ ∑ j in Finset.Ico (k + 1) (model.njoints - 1 + 1),
            mulCols ((model.joints j).jointCols s.Ag)
              (model.joints j).nv ((model.joints j).jointVelocitySelector v)
          + ∑ j in Finset.range (k + 1),
              Force.se3Action (model.oMi q j) ((s.Ycrb j).mult (u j))
        = ∑ j in Finset.range (model.njoints - 1 + 1),
            Force.se3Action (model.oMi q j)
              (((ccrbaStart model data q).Ycrb j).mult (u j)))
    (model.njoints - 1) (ccrbaStart model data q) ⟨hfr, by simp⟩ ?_
  · obtain ⟨-, k2⟩ := key
    have e0 : ∀ Y : Inertia K, Force.se3Action (model.oMi q 0) (Y.mult (u 0)) = 0 := by
      intro Y; rw [hu0, inertia_mult_zero, force_se3Action_zero]
    rw [Finset.sum_range_one, e0, add_zero, sum_range_eq_Ico _ _ (e0 _)] at k2
    have e1 : Finset.Ico 1 (model.njoints - 1 + 1) = Finset.Ico 1 model.njoints := by
      rcases Nat.eq_zero_or_pos model.njoints with h | h
      · rw [h]; rfl
      · have : model.njoints - 1 + 1 = model.njoints := by omega
        rw [this]
    rw [e1] at k2
    change ∑ j in Finset.Ico 1 model.njoints,
        mulCols ((model.joints j).jointCols (ccrbaLoops model data q).Ag)
          (model.joints j).nv ((model.joints j).jointVelocitySelector v) = _ at k2
    rw [k2]
    refine Finset.sum_congr rfl fun j hj => ?_
    have hj' := Finset.mem_Ico.mp hj
    rw [(hs j hj'.1 hj'.2).2.2.2]
  · intro i s hi ⟨hF, hsum⟩
    obtain ⟨hF', hnz⟩ := ccrbaFrame_step model _ i s hF
    refine ⟨hF', ?_⟩
    have ha1 : 1 ≤ i + 1 := by omega
    have ha : i + 1 < model.njoints := by omega
    have hp := hpar (i + 1) ha1 ha
    obtain ⟨b1, b2⟩ := ccrbaStep_block model v hcols (i + 1) ha1 ha hp s
    have hsa := hs (i + 1) ha1 ha
    have hoMi : s.oMi (i + 1) = model.oMi q (i + 1) := by rw [hF.2.1]; exact hsa.2.1
    have hliMi : s.liMi (i + 1) = model.liMi q (i + 1) := by rw [hF.1]; exact hsa.1
    have hS : (s.joints (i + 1)).S = (model.joints (i + 1)).jointSubspace q := by
      rw [hF.2.2.1]; exact hsa.2.2.1
    rw [← hsum, Finset.sum_eq_sum_Ico_succ_bot (by omega), b1, hoMi, hS,
      Finset.sum_range_succ _ (i + 1)]
    have hrest : ∑ j in Finset.Ico (i + 1 + 1) (model.njoints - 1 + 1),
          mulCols ((model.joints j).jointCols (CcrbaBackwardStep.algo model (i + 1) s).Ag)
            (model.joints j).nv ((model.joints j).jointVelocitySelector v)
        = ∑ j in Finset.Ico (i + 1 + 1) (model.njoints - 1 + 1),
          mulCols ((model.joints j).jointCols s.Ag)
            (model.joints j).nv ((model.joints j).jointVelocitySelector v) := by
      refine Finset.sum_congr rfl fun j hj => ?_
      have hj' := Finset.mem_Ico.mp hj
      exact b2 j (by omega) (by omega) (by omega)
    have hupd := sum_eq_add_of_update (Finset.range (i + 1))
      (fun j => Force.se3Action (model.oMi q j) ((s.Ycrb j).mult (u j)))
      (fun j => Force.se3Action (model.oMi q j)
        (((CcrbaBackwardStep.algo model (i + 1) s).Ycrb j).mult (u j)))
      (model.parents (i + 1))
      (Force.se3Action (model.oMi q (i + 1)) ((s.Ycrb (i + 1)).mult
        (Motion.se3ActionInverse (model.liMi q (i + 1)) (u (model.parents (i + 1))))))
      (Finset.mem_range.mpr hp)
      (by
        simp only [ccrbaStep_Ycrb, Function.update_same]
        rw [inertia_add_mult _ _ (by simpa using hnz), force_se3Action_add, hliMi]
        congr 1
        have e := inertia_se3Action_mult (model.liMi q (i + 1)) (s.Ycrb (i + 1))
          (Motion.se3ActionInverse (model.liMi q (i + 1)) (u (model.parents (i + 1))))
        rw [motion_se3Action_inverse] at e
        rw [e, ← force_se3Action_mul, ← model_oMi_succ model q hpar (i + 1) ha1 ha])
      (fun j _ hne => by simp only [ccrbaStep_Ycrb, Function.update_noteq hne])
    rw [hrest, hupd, hu (i + 1) ha1 ha, inertia_mult_add, force_se3Action_add]
    abel

end c1

section c1b

variable {K : Type} [Field K]

/-- C1, as the code has it (linear consistency). For every model satisfying
`parent(i) < i`, whose joint column blocks partition `0..nv`, whose joint
velocity is its motion subspace applied to its velocity sub-vector, whose
total mass is non-zero and in which no addition of composite inertias in the
backward loop of `ccrba` has a zero total mass, and for every `q` and `v`:
the centroidal momentum `hg` returned by `computeCentroidalDynamics` equals
`Ag * v`, with `Ag` the matrix returned by `ccrba`, and equals the `hg` that
`ccrba` stores. -/
theorem linear_consistency (model : Model K) (data data' : Data K) (q v : List K)
    (hpar : model.TreeOrdered) (hcols : model.ColumnsPartition)
    (hvel : model.VelocityInSubspace q v) (hM : model.totalMass ≠ 0)
    (hden : model.CompositeMassesNonzero)
    (hcheck : model.check data = true) (hcheck' : model.check data' = true)
    (hq : q.length = model.nq) (hv : v.length = model.nv) :
    ∃ c r, computeCentroidalDynamics model data q v = some c
      ∧ ccrba model data' q v = some r
      ∧ c.hg = mulCols r.Ag model.nv (fun k => v.getD k 0)
      ∧ c.hg = r.hg := by
  refine ⟨_, _, computeCentroidalDynamics_eq model data q v hcheck hq hv,
    ccrba_eq model data' q v hcheck' hq hv, ?_⟩
  have main : (centroidalFinish (centroidalLoops model data q v)).hg
      = mulCols (ccrbaFinish model v (ccrbaLoops model data' q)).Ag model.nv
          (fun k => v.getD k 0) := by
    obtain ⟨-, -, c3⟩ := centroidalLoops_closed model data q v hpar
    have hfs := cdForward_spec model q v _ (cdForward_fields model q v) (model.njoints - 1)
      (fun i h1 h2 => hpar i h1 (by omega)) data
    -- the local velocities of the forward pass, with zero at the root
    have hmom := ccrba_momentum model data' q v
      (fun j => if j = 0 then 0
        else (forUp (CentroidalDynamicsForwardStep.algo model q v) 1
          (model.njoints - 1) data).v j)
      hpar hcols hden rfl ?_
    · rw [centroidalFinish_hg, ← ccrba_com_eq model data' data q v hpar hM hden, c3,
        ccrbaFinish_Ag]
      unfold mulCols
      have e : ∀ k ∈ Finset.range model.nv,
          v.getD k 0 • (if k < model.nv
              then ((ccrbaLoops model data' q).Ag k).shift ((ccrbaLoops model data' q).Ycrb 0).lever
              else (ccrbaLoops model data' q).Ag k)
            = (v.getD k 0 • (ccrbaLoops model data' q).Ag k).shift
                ((ccrbaLoops model data' q).Ycrb 0).lever := by
        intro k hk
        rw [if_pos (Finset.mem_range.mp hk), force_shift_smul]
      rw [Finset.sum_congr rfl e, ← force_shift_sum, sum_columns model hcols]
      congr 1
      have hmom' : ∑ j in Finset.Ico 1 model.njoints,
            mulCols ((model.joints j).jointCols (ccrbaLoops model data' q).Ag)
              (model.joints j).nv ((model.joints j).jointVelocitySelector v)
          = ∑ j in Finset.Ico 1 model.njoints,
              Force.se3Action (model.oMi q j) ((model.inertias j).mult
                ((forUp (CentroidalDynamicsForwardStep.algo model q v) 1
                  (model.njoints - 1) data).v j)) :=
        hmom.trans (Finset.sum_congr rfl fun j hj => by
          have hj' := Finset.mem_Ico.mp hj
          simp only [if_neg (show j ≠ 0 by omega)])
      exact hmom'.symm
    · intro i h1 hn
      have hp := hpar i h1 hn
      beta_reduce
      rw [if_neg (by omega), (hfs i h1 (by omega)).2.2.2.1, ← hvel i h1 hn]
      by_cases h0 : model.parents i > 0
      · rw [if_pos h0, if_neg (by omega)]
      · have : model.parents i = 0 := by omega
        rw [if_neg h0, if_pos this, motion_se3ActionInverse_zero, zero_add]
  exact ⟨main, by rw [ccrbaFinish_hg]; exact main⟩

theorem prismatic_velocity (idx : Nat) (q v : List ℚ) :
    (prismaticX idx).jointVelocity q v
      = mulCols ((prismaticX idx).jointSubspace q) (prismaticX idx).nv
          ((prismaticX idx).jointVelocitySelector v) := by
  show v.getD idx 0 • (⟨⟨1, 0, 0⟩, 0⟩ : Motion ℚ)
    = ∑ k in Finset.range 1, v.getD (idx + k) 0 • (⟨⟨1, 0, 0⟩, 0⟩ : Motion ℚ)
  rw [Finset.sum_range_one, Nat.add_zero]

theorem chainModel_columns : chainModel.ColumnsPartition := by
  constructor
  · intro j h1 h2
    show (j - 1) + 1 ≤ 2
    have : j < 3 := h2
    omega
  · intro k hk
    have hk' : k < 2 := hk
    refine ⟨k + 1, ⟨by omega, by show k + 1 < 3; omega, by show k + 1 - 1 ≤ k; omega,
      by show k < k + 1 - 1 + 1; omega⟩, ?_⟩
    rintro j ⟨h1, -, h3, h4⟩
    have h3' : j - 1 ≤ k := h3
    have h4' : k < j - 1 + 1 := h4
    omega

theorem chainModel_velocity (q v : List ℚ) : chainModel.VelocityInSubspace q v :=
  fun j _ _ => prismatic_velocity (j - 1) q v

theorem linear_consistency_witness :
    ∃ c r, computeCentroidalDynamics chainModel (Data.initial 3 2) [1, 2] [3, 4] = some c
      ∧ ccrba chainModel (Data.initial 3 2) [1, 2] [3, 4] = some r
      ∧ c.hg = mulCols r.Ag chainModel.nv (fun k => ([3, 4] : List ℚ).getD k 0)
      ∧ c.hg = r.hg :=
  linear_consistency chainModel (Data.initial 3 2) (Data.initial 3 2) [1, 2] [3, 4]
    chainModel_parents chainModel_columns (chainModel_velocity _ _)
    (by rw [chainModel_totalMass]; norm_num) chainModel_masses rfl rfl rfl rfl

theorem starModel_columns : starModel.ColumnsPartition := by
  constructor
  · intro j h1 h2
    show (j - 1) + 1 ≤ 3
    have : j < 4 := h2
    omega
  · intro k hk
    have hk' : k < 3 := hk
    refine ⟨k + 1, ⟨by omega, by show k + 1 < 4; omega, by show k + 1 - 1 ≤ k; omega,
      by show k < k + 1 - 1 + 1; omega⟩, ?_⟩
    rintro j ⟨h1, -, h3, h4⟩
    have h3' : j - 1 ≤ k := h3
    have h4' : k < j - 1 + 1 := h4
    omega

theorem starModel_velocity (q v : List ℚ) : starModel.VelocityInSubspace q v :=
  fun j _ _ => prismatic_velocity (j - 1) q v

/-- C1, counterexample. The star of three bodies of masses 1, -1 and 1
satisfies every hypothesis of the claim (`parent(i) < i`, column blocks that
partition `0..nv`, joint velocity in the motion subspace, total mass 1), and
the momentum returned by `computeCentroidalDynamics` differs from `Ag * v`
for the matrix `Ag` returned by `ccrba`. -/
theorem linear_consistency_counterexample :
    starModel.TreeOrdered ∧ starModel.ColumnsPartition
    ∧ starModel.VelocityInSubspace [0, 0, 0] [0, 0, 1] ∧ starModel.totalMass ≠ 0
    ∧ (computeCentroidalDynamics starModel (Data.initial 4 3) [0, 0, 0] [0, 0, 1]).map
          (fun d => d.hg)
        ≠ (ccrba starModel (Data.initial 4 3) [0, 0, 0] [0, 0, 1]).map
          (fun d => mulCols d.Ag starModel.nv (fun k => ([0, 0, 1] : List ℚ).getD k 0)) :=
  ⟨starModel_tree, starModel_columns, starModel_velocity _ _, by decide!, by decide!⟩

end c1b

section accel

variable {K : Type} [Field K]

theorem cdForward_a (model : Model K) (q v : List K) (i : Nat) (d : Data K) :
    (CentroidalDynamicsForwardStep.algo model q v i d).a = d.a := by
  unfold CentroidalDynamicsForwardStep.algo
  by_cases hp : model.parents i > 0 <;> simp [hp]

theorem cdForward_f (model : Model K) (q v : List K) (i : Nat) (d : Data K) :
    (CentroidalDynamicsForwardStep.algo model q v i d).f = d.f := by
  unfold CentroidalDynamicsForwardStep.algo
  by_cases hp : model.parents i > 0 <;> simp [hp]

theorem cdForwardA_a (model : Model K) (q v a : List K) (i : Nat) (d : Data K)
    (hne : model.parents i ≠ i) :
    (CentroidalDynamicsForwardStepA.algo model q v a i d).a
      = Function.update d.a i
          (if model.parents i > 0 then
            mulCols ((model.joints i).jointSubspace q) (model.joints i).nv
                ((model.joints i).jointVelocitySelector a)
              + (model.joints i).jointBias q v
              + ((CentroidalDynamicsForwardStep.algo model q v i d).v i).cross
                  ((model.joints i).jointVelocity q v)
              + Motion.se3ActionInverse (model.liMi q i) (d.a (model.parents i))
          else
            mulCols ((model.joints i).jointSubspace q) (model.joints i).nv
                ((model.joints i).jointVelocitySelector a)
              + (model.joints i).jointBias q v
              + ((CentroidalDynamicsForwardStep.algo model q v i d).v i).cross
                  ((model.joints i).jointVelocity q v)) := by
  unfold CentroidalDynamicsForwardStepA.algo
  have hj := cdForward_joints model q v i d
  have hl := cdForward_liMi model q v i d
  have ha := cdForward_a model q v i d
  by_cases hp : model.parents i > 0
  · simp [hp, hj, hl, ha, JointModel.calcQV, Function.update_noteq hne, Model.liMi]
  · simp [hp, hj, hl, ha, JointModel.calcQV]

theorem cdForwardA_f (model : Model K) (q v a : List K) (i : Nat) (d : Data K) :
    (CentroidalDynamicsForwardStepA.algo model q v a i d).f
      = Function.update d.f i
          ((model.inertias i).mult ((CentroidalDynamicsForwardStepA.algo model q v a i d).a i)
            + ((CentroidalDynamicsForwardStep.algo model q v i d).v i).crossForce
                ((CentroidalDynamicsForwardStep.algo model q v i d).h i)) := by
  unfold CentroidalDynamicsForwardStepA.algo
  have hf := cdForward_f model q v i d
  by_cases hp : model.parents i > 0 <;> simp [hp, hf]

/-- After the forward loop of the acceleration variant every joint holds its
acceleration (joint acceleration, bias and velocity product, plus the
acceleration of the parent unless that is the root) and its force residual. -/
theorem cdForwardA_spec (model : Model K) (q v a : List K) (n : Nat)
    (hpar : ∀ i, 1 ≤ i → i ≤ n → model.parents i < i) (d : Data K) :
    ∀ j, 1 ≤ j → j ≤ n →
      (forUp (CentroidalDynamicsForwardStepA.algo model q v a) 1 n d).a j
          = (if model.parents j > 0 then
              mulCols ((model.joints j).jointSubspace q) (model.joints j).nv
                  ((model.joints j).jointVelocitySelector a)
                + (model.joints j).jointBias q v
                + ((forUp (CentroidalDynamicsForwardStepA.algo model q v a) 1 n d).v j).cross
                    ((model.joints j).jointVelocity q v)
                + Motion.se3ActionInverse (model.liMi q j)
                    ((forUp (CentroidalDynamicsForwardStepA.algo model q v a) 1 n d).a
                      (model.parents j))
            else
              mulCols ((model.joints j).jointSubspace q) (model.joints j).nv
                  ((model.joints j).jointVelocitySelector a)
                + (model.joints j).jointBias q v
                + ((forUp (CentroidalDynamicsForwardStepA.algo model q v a) 1 n d).v j).cross
                    ((model.joints j).jointVelocity q v))
      ∧ (forUp (CentroidalDynamicsForwardStepA.algo model q v a) 1 n d).f j
          = (model.inertias j).mult
                ((forUp (CentroidalDynamicsForwardStepA.algo model q v a) 1 n d).a j)
              + ((forUp (CentroidalDynamicsForwardStepA.algo model q v a) 1 n d).v j).crossForce
                  ((forUp (CentroidalDynamicsForwardStepA.algo model q v a) 1 n d).h j) := by
  have key := forUp_invariant (CentroidalDynamicsForwardStepA.algo model q v a)
    (fun i s => ∀ j, 1 ≤ j → j < i →
      s.a j = (if model.parents j > 0 then
              mulCols ((model.joints j).jointSubspace q) (model.joints j).nv
                  ((model.joints j).jointVelocitySelector a)
                + (model.joints j).jointBias q v
                + (s.v j).cross ((model.joints j).jointVelocity q v)
                + Motion.se3ActionInverse (model.liMi q j) (s.a (model.parents j))
            else
              mulCols ((model.joints j).jointSubspace q) (model.joints j).nv
                  ((model.joints j).jointVelocitySelector a)
                + (model.joints j).jointBias q v
                + (s.v j).cross ((model.joints j).jointVelocity q v))
      ∧ s.f j = (model.inertias j).mult (s.a j) + (s.v j).crossForce (s.h j))
    n 1 d (fun j h1 h2 => by omega) ?_
  · intro j h1 hn
    exact key j h1 (by omega)
  · intro i s hi1 hin ih j hj1 hji
    obtain ⟨-, -, -, e4, e5⟩ := cdForwardA_fields model q v a i s
    have hpi := hpar i hi1 (by omega)
    rw [cdForwardA_f, cdForwardA_a model q v a i s (by omega), e4, e5, cdForward_h,
      cdForward_v]
    by_cases hj : j = i
    · subst hj
      have hne : model.parents j ≠ j := by omega
      simp only [Function.update_same, Function.update_noteq hne]
      exact ⟨trivial, trivial⟩
    · have hp := hpar j hj1 (by omega)
      have hne : model.parents j ≠ i := by omega
      simp only [Function.update_noteq hj, Function.update_noteq hne]
      exact ih j hj1 (by omega)

/-- Closed form of the force residual aggregated at the root by the backward
loop of the acceleration variant. -/
theorem centroidalLoopsA_f (model : Model K) (data : Data K) (q v a : List K)
    (hpar : model.TreeOrdered) :
    (centroidalLoopsA model data q v a).f 0
      = ∑ j in Finset.Ico 1 model.njoints,
          Force.se3Action (model.oMi q j)
            ((forUp (CentroidalDynamicsForwardStepA.algo model q v a) 1
              (model.njoints - 1) data).f j) := by
  have hpar' : ∀ i, 1 ≤ i → i ≤ model.njoints - 1 → model.parents i < i :=
    fun i h1 h2 => hpar i h1 (by omega)
  have hfs := cdForward_spec model q v _ (cdForwardA_fields model q v a) (model.njoints - 1)
    hpar' data
  have hh := accumulate_sum (centroidalBackwardStepA model)
    (fun s j => Force.se3Action (model.oMi q j) (s.f j))
    model.parents (model.njoints - 1)
    (fun s => s.liMi = (centroidalStartA model data q v a).liMi) hpar'
    (fun i s _ _ h => h)
    (fun i s h1 hn hI => by
      have hI' : s.liMi = (centroidalStartA model data q v a).liMi := hI
      have hl : s.liMi i = model.liMi q i := by
        rw [hI']; exact (hfs i h1 hn).1
      show Force.se3Action _ ((centroidalBackwardStepA model i s).f _) = _
        ∧ ∀ j, _ → _ → Force.se3Action (model.oMi q j) ((centroidalBackwardStepA model i s).f j) = _
      rw [cdBackwardA_f]
      refine ⟨?_, fun j hj _ => by simp [Function.update_noteq hj]⟩
      simp only [Function.update_same]
      rw [force_se3Action_add, model_oMi_succ model q hpar i h1 (by omega),
        force_se3Action_mul, hl])
    (centroidalStartA model data q v a) rfl
  have e : (centroidalLoopsA model data q v a).f 0
      = ∑ j in Finset.range (model.njoints - 1 + 1),
          Force.se3Action (model.oMi q j) ((centroidalStartA model data q v a).f j) := by
    have := hh.2
    simp only [model_oMi_zero, force_se3Action_one] at this
    exact this
  rw [e, sum_range_eq_Ico _ _ (by simp [centroidalStartA])]
  refine Finset.sum_congr rfl fun j hj => ?_
  have hj' := Finset.mem_Ico.mp hj
  have : (centroidalStartA model data q v a).f j
      = (forUp (CentroidalDynamicsForwardStepA.algo model q v a) 1
          (model.njoints - 1) data).f j := by
    show Function.update _ 0 0 j = _
    rw [Function.update_noteq (by omega)]
  rw [this]

end accel

section fkv

variable {K : Type} [Field K]

theorem dccrba_eq (model : Model K) (data : Data K) (q v : List K)
    (hcheck : model.check data = true) (hq : q.length = model.nq) (hv : v.length = model.nv) :
    dccrba model data q v = some (dccrbaFinish model v (dccrbaLoops model data q v)) := by
  unfold dccrba
  rw [if_pos ⟨hcheck, hq, hv⟩]
  rfl

theorem fkFirst_joints (model : Model K) (q v : List K) (i : Nat) (d : Data K) :
    (ForwardKinematicFirstStep.algo model q v i d).joints
      = Function.update d.joints i ((model.joints i).calcQV (d.joints i) q v) := by
  unfold ForwardKinematicFirstStep.algo
  by_cases hp : model.parents i > 0 <;> simp [hp]

theorem fkFirst_liMi (model : Model K) (q v : List K) (i : Nat) (d : Data K) :
    (ForwardKinematicFirstStep.algo model q v i d).liMi
      = Function.update d.liMi i (model.liMi q i) := by
  unfold ForwardKinematicFirstStep.algo Model.liMi
  by_cases hp : model.parents i > 0 <;> simp [hp, JointModel.calcQV]

theorem fkFirst_oMi (model : Model K) (q v : List K) (i : Nat) (d : Data K) :
    (ForwardKinematicFirstStep.algo model q v i d).oMi
      = Function.update d.oMi i
          (if model.parents i > 0 then d.oMi (model.parents i) * model.liMi q i
           else model.liMi q i) := by
  unfold ForwardKinematicFirstStep.algo Model.liMi
  by_cases hp : model.parents i > 0 <;> simp [hp, JointModel.calcQV]

theorem fkFirst_v (model : Model K) (q v : List K) (i : Nat) (d : Data K)
    (hne : model.parents i ≠ i) :
    (ForwardKinematicFirstStep.algo model q v i d).v
      = Function.update d.v i
          (if model.parents i > 0 then
            (model.joints i).jointVelocity q v
              + Motion.se3ActionInverse (model.liMi q i) (d.v (model.parents i))
           else (model.joints i).jointVelocity q v) := by
  unfold ForwardKinematicFirstStep.algo Model.liMi
  by_cases hp : model.parents i > 0 <;>
    simp [hp, JointModel.calcQV, Function.update_noteq hne]

theorem fkFirst_body (model : Model K) (q v : List K) (i : Nat) (d : Data K) :
    (ForwardKinematicFirstStep.algo model q v i d).liMi = Function.update d.liMi i (model.liMi q i)
    ∧ (ForwardKinematicFirstStep.algo model q v i d).oMi = Function.update d.oMi i
        (if model.parents i > 0 then d.oMi (model.parents i) * model.liMi q i
         else model.liMi q i)
    ∧ (∀ j, j ≠ i → (ForwardKinematicFirstStep.algo model q v i d).joints j = d.joints j)
    ∧ ((ForwardKinematicFirstStep.algo model q v i d).joints i).S
        = (model.joints i).jointSubspace q := by
  refine ⟨fkFirst_liMi model q v i d, fkFirst_oMi model q v i d, ?_, ?_⟩
  · intro j hj
    rw [fkFirst_joints, Function.update_noteq hj]
  · rw [fkFirst_joints, Function.update_same]
    rfl

/-- After `forwardKinematics(model, data, q, v)` the velocity of every joint
is its own velocity, plus the velocity of its parent seen from the joint
unless the parent is the root. -/
theorem fkV_spec (model : Model K) (q v : List K) (hpar : model.TreeOrdered) (d : Data K) :
    ∀ j, 1 ≤ j → j < model.njoints →
      (forwardKinematicsV model d q v).v j
        = (if model.parents j > 0 then
            (model.joints j).jointVelocity q v
              + Motion.se3ActionInverse (model.liMi q j)
                  ((forwardKinematicsV model d q v).v (model.parents j))
           else (model.joints j).jointVelocity q v) := by
  have key := forUp_invariant (ForwardKinematicFirstStep.algo model q v)
    (fun i s => ∀ j, 1 ≤ j → j < i →
      s.v j = (if model.parents j > 0 then
            (model.joints j).jointVelocity q v
              + Motion.se3ActionInverse (model.liMi q j) (s.v (model.parents j))
           else (model.joints j).jointVelocity q v))
    (model.njoints - 1) 1 d (fun j h1 h2 => by omega) ?_
  · intro j h1 hn
    exact key j h1 (by omega)
  · intro i s hi1 hin ih j hj1 hji
    have hpi := hpar i hi1 (by omega)
    rw [fkFirst_v model q v i s (by omega)]
    by_cases hj : j = i
    · subst hj
      have hne : model.parents j ≠ j := by omega
      simp only [Function.update_same, Function.update_noteq hne]
    · have hp := hpar j hj1 (by omega)
      have hne : model.parents j ≠ i := by omega
      simp only [Function.update_noteq hj, Function.update_noteq hne]
      exact ih j hj1 (by omega)

theorem dccrbaInit_fields (model : Model K) (i : Nat) (d : Data K) :
    (dccrbaInitStep model i d).liMi = d.liMi ∧ (dccrbaInitStep model i d).oMi = d.oMi
    ∧ (dccrbaInitStep model i d).joints = d.joints ∧ (dccrbaInitStep model i d).v = d.v
    ∧ (dccrbaInitStep model i d).oYcrb
        = Function.update d.oYcrb i (Inertia.se3Action (d.oMi i) (model.inertias i))
    ∧ (dccrbaInitStep model i d).ov
        = Function.update d.ov i (Motion.se3Action (d.oMi i) (d.v i))
    ∧ (dccrbaInitStep model i d).doYcrb
        = Function.update d.doYcrb i
            ((Inertia.se3Action (d.oMi i) (model.inertias i)).variation
              (Motion.se3Action (d.oMi i) (d.v i))) := by
  refine ⟨rfl, rfl, rfl, rfl, rfl, rfl, ?_⟩
  simp [dccrbaInitStep]

/-- The state of `dccrba` before its backward loop. -/
theorem dccrbaStart_spec (model : Model K) (data : Data K) (q v : List K)
    (hpar : model.TreeOrdered) :
    (dccrbaStart model data q v).oYcrb 0 = Inertia.Zero
    ∧ ∀ j, 1 ≤ j → j < model.njoints →
      (dccrbaStart model data q v).oMi j = model.oMi q j
      ∧ ((dccrbaStart model data q v).joints j).S = (model.joints j).jointSubspace q
      ∧ (dccrbaStart model data q v).ov j
          = Motion.se3Action (model.oMi q j) ((forwardKinematicsV model data q v).v j)
      ∧ (dccrbaStart model data q v).oYcrb j
          = Inertia.se3Action (model.oMi q j) (model.inertias j)
      ∧ (dccrbaStart model data q v).doYcrb j
          = ((dccrbaStart model data q v).oYcrb j).variation
              ((dccrbaStart model data q v).ov j) := by
  have hfk := fk_spec model q _ (fkFirst_body model q v) hpar data
  have key := forUp_invariant (dccrbaInitStep model)
    (fun i s => s.liMi = (forwardKinematicsV model data q v).liMi
      ∧ s.oMi = (forwardKinematicsV model data q v).oMi
      ∧ s.joints = (forwardKinematicsV model data q v).joints
      ∧ s.v = (forwardKinematicsV model data q v).v
      ∧ s.oYcrb 0 = Inertia.Zero
      ∧ ∀ j, 1 ≤ j → j < i →
          s.ov j = Motion.se3Action (s.oMi j) (s.v j)
          ∧ s.oYcrb j = Inertia.se3Action (s.oMi j) (model.inertias j)
          ∧ s.doYcrb j = (s.oYcrb j).variation (s.ov j))
    (model.njoints - 1) 1
    { forwardKinematicsV model data q v with
      oYcrb := Function.update (forwardKinematicsV model data q v).oYcrb 0 Inertia.Zero }
    ⟨rfl, rfl, rfl, rfl, by simp, fun j h1 h2 => by omega⟩ ?_
  · obtain ⟨k1, k2, k3, k4, k5, k6⟩ := key
    refine ⟨k5, fun j h1 hn => ?_⟩
    have := hfk j h1 hn
    have e2 : (dccrbaStart model data q v).oMi j = model.oMi q j :=
      (congrFun k2 j).trans this.2.1
    have e4 : (dccrbaStart model data q v).v j = (forwardKinematicsV model data q v).v j :=
      congrFun k4 j
    obtain ⟨a1, a2, a3⟩ := k6 j h1 (by omega)
    refine ⟨e2, (congrArg JointData.S (congrFun k3 j)).trans this.2.2, ?_, ?_, a3⟩
    · rw [← e2, ← e4]; exact a1
    · rw [← e2]; exact a2
  · intro i s hi1 hin ⟨a1, a2, a3, a4, a5, a6⟩
    obtain ⟨b1, b2, b3, b4, b5, b6, b7⟩ := dccrbaInit_fields model i s
    refine ⟨b1.trans a1, b2.trans a2, b3.trans a3, b4.trans a4, ?_, ?_⟩
    · rw [b5, Function.update_noteq (by omega), a5]
    · intro j h1 h2
      rw [b2, b4, b5, b6, b7]
      by_cases hj : j = i
      · subst hj; simp
      · simp only [Function.update_noteq hj]
        exact a6 j h1 (by omega)

end fkv

section dccrbaStep

variable {K : Type} [Field K]

/-! ### 6×6 matrices and the variation of an inertia -/

@[simp] theorem matrix6_add_c0 (A B : Matrix6 K) : (A + B).c0 = A.c0 + B.c0 := rfl
@[simp] theorem matrix6_add_c1 (A B : Matrix6 K) : (A + B).c1 = A.c1 + B.c1 := rfl
@[simp] theorem matrix6_add_c2 (A B : Matrix6 K) : (A + B).c2 = A.c2 + B.c2 := rfl
@[simp] theorem matrix6_add_c3 (A B : Matrix6 K) : (A + B).c3 = A.c3 + B.c3 := rfl
@[simp] theorem matrix6_add_c4 (A B : Matrix6 K) : (A + B).c4 = A.c4 + B.c4 := rfl
@[simp] theorem matrix6_add_c5 (A B : Matrix6 K) : (A + B).c5 = A.c5 + B.c5 := rfl

theorem matrix6_add_mulMotion (A B : Matrix6 K) (m : Motion K) :
    (A + B).mulMotion m = A.mulMotion m + B.mulMotion m := by
  simp only [Matrix6.mulMotion, matrix6_add_c0, matrix6_add_c1, matrix6_add_c2, matrix6_add_c3,
    matrix6_add_c4, matrix6_add_c5, smul_add]
  abel

@[simp] theorem matrix6_mulMotion_zero (A : Matrix6 K) : A.mulMotion 0 = 0 := by
  simp [Matrix6.mulMotion]

theorem matrix6_ofColumns_mulMotion (f : Motion K → Force K)
    (hadd : ∀ a b, f (a + b) = f a + f b) (hsmul : ∀ (s : K) a, f (s • a) = s • f a)
    (m : Motion K) : (Matrix6.ofColumns f).mulMotion m = f m := by
  simp only [Matrix6.mulMotion, Matrix6.ofColumns, ← hsmul, ← hadd]
  congr 1
  ext <;> simp

theorem motion_cross_add_right (a b c : Motion K) : a.cross (b + c) = a.cross b + a.cross c := by
  ext1
  · simp only [Motion.cross, motion_add_linear, motion_add_angular, cross_add_right]
    abel
  · simp only [Motion.cross, motion_add_angular, cross_add_right]

theorem motion_cross_smul_right (s : K) (a b : Motion K) : a.cross (s • b) = s • a.cross b := by
  ext1
  · simp only [Motion.cross, motion_smul_linear, motion_smul_angular, cross_smul_right, smul_add]
  · simp only [Motion.cross, motion_smul_angular, cross_smul_right]

@[simp] theorem motion_cross_self (a : Motion K) : a.cross a = 0 := by
  ext1
  · simp only [Motion.cross, motion_zero_linear]
    ext <;> simp only [Vector3.cross, vec3_add_x, vec3_add_y, vec3_add_z, vec3_zero_x,
      vec3_zero_y, vec3_zero_z] <;> ring
  · simp only [Motion.cross, cross_self, motion_zero_angular]

theorem motion_cross_sum (a : Motion K) {ι : Type} (s : Finset ι) (g : ι → Motion K) :
    a.cross (∑ k in s, g k) = ∑ k in s, a.cross (g k) := by
  classical
  induction s using Finset.induction_on with
  | empty =>
    simp only [Finset.sum_empty]
    have h := motion_cross_smul_right (0 : K) a 0
    rwa [zero_smul, zero_smul] at h
  | insert h ih => rw [Finset.sum_insert h, Finset.sum_insert h, motion_cross_add_right, ih]

theorem crossForce_add_right (v : Motion K) (f g : Force K) :
    v.crossForce (f + g) = v.crossForce f + v.crossForce g := by
  ext1
  · simp only [Motion.crossForce, force_add_linear, cross_add_right]
  · simp only [Motion.crossForce, force_add_linear, force_add_angular, cross_add_right]
    abel

theorem crossForce_smul_right (s : K) (v : Motion K) (f : Force K) :
    v.crossForce (s • f) = s • v.crossForce f := by
  ext1
  · simp only [Motion.crossForce, force_smul_linear, cross_smul_right]
  · simp only [Motion.crossForce, force_smul_linear, force_smul_angular, cross_smul_right,
      smul_add]

/-- The variation of an inertia applied to a motion. -/
theorem variation_mulMotion (Y : Inertia K) (v m : Motion K) :
    (Y.variation v).mulMotion m = v.crossForce (Y.mult m) - Y.mult (v.cross m) := by
  unfold Inertia.variation
  rw [matrix6_ofColumns_mulMotion]
  · intro a b
    rw [inertia_mult_add, crossForce_add_right, motion_cross_add_right, inertia_mult_add]
    abel
  · intro s a
    rw [inertia_mult_smul, crossForce_smul_right, motion_cross_smul_right, inertia_mult_smul,
      smul_sub]

/-- The variation of an inertia applied to the velocity that induces it. -/
theorem variation_mulMotion_self (Y : Inertia K) (v : Motion K) :
    (Y.variation v).mulMotion v = v.crossForce (Y.mult v) := by
  rw [variation_mulMotion, motion_cross_self, inertia_mult_zero, sub_zero]

/-! ### The backward step of `dccrba` -/

theorem dStep_fields (model : Model K) (i : Nat) (d : Data K) :
    (DCcrbaBackwardStep.algo model i d).oMi = d.oMi
    ∧ (DCcrbaBackwardStep.algo model i d).ov = d.ov
    ∧ (DCcrbaBackwardStep.algo model i d).joints = d.joints
    ∧ (DCcrbaBackwardStep.algo model i d).oYcrb
        = Function.update d.oYcrb (model.parents i) (d.oYcrb (model.parents i) + d.oYcrb i)
    ∧ (DCcrbaBackwardStep.algo model i d).doYcrb
        = (if model.parents i > 0 then
            Function.update d.doYcrb (model.parents i) (d.doYcrb (model.parents i) + d.doYcrb i)
          else d.doYcrb) := by
  unfold DCcrbaBackwardStep.algo
  by_cases hp : model.parents i > 0 <;> simp [hp]

theorem dStep_cols (model : Model K) (i : Nat) (d : Data K) (hne : model.parents i ≠ i) :
    (∀ c, c < (model.joints i).nv →
      (DCcrbaBackwardStep.algo model i d).Ag ((model.joints i).idx_v + c)
          = (d.oYcrb i).mult (Motion.se3Action (d.oMi i) ((d.joints i).S c))
      ∧ (DCcrbaBackwardStep.algo model i d).dAg ((model.joints i).idx_v + c)
          = (d.doYcrb i).mulMotion (Motion.se3Action (d.oMi i) ((d.joints i).S c))
            + (d.oYcrb i).mult
                ((d.ov i).cross (Motion.se3Action (d.oMi i) ((d.joints i).S c))))
    ∧ ∀ k, ¬ ((model.joints i).idx_v ≤ k ∧ k < (model.joints i).idx_v + (model.joints i).nv) →
      (DCcrbaBackwardStep.algo model i d).Ag k = d.Ag k
      ∧ (DCcrbaBackwardStep.algo model i d).dAg k = d.dAg k := by
  have hne' : i ≠ model.parents i := Ne.symm hne
  constructor
  · intro c hc
    have hb : (model.joints i).idx_v ≤ (model.joints i).idx_v + c
        ∧ (model.joints i).idx_v + c < (model.joints i).idx_v + (model.joints i).nv :=
      ⟨by omega, by omega⟩
    unfold DCcrbaBackwardStep.algo
    by_cases hp : model.parents i > 0 <;>
      simp [hp, JointModel.setJointCols, JointModel.jointCols, hc, Function.update_noteq hne']
  · intro k hk
    unfold DCcrbaBackwardStep.algo
    by_cases hp : model.parents i > 0 <;>
      simp [hp, JointModel.setJointCols, hk]

end dccrbaStep

section dccrbaBackward

variable {K : Type} [Field K]

theorem matrix6_mulMotion_add (A : Matrix6 K) (a b : Motion K) :
    A.mulMotion (a + b) = A.mulMotion a + A.mulMotion b := by
  simp only [Matrix6.mulMotion, motion_add_linear, motion_add_angular, vec3_add_x, vec3_add_y,
    vec3_add_z, add_smul]
  abel

theorem matrix6_mulMotion_smul (A : Matrix6 K) (s : K) (a : Motion K) :
    A.mulMotion (s • a) = s • A.mulMotion a := by
  simp only [Matrix6.mulMotion, motion_smul_linear, motion_smul_angular, vec3_smul_x,
    vec3_smul_y, vec3_smul_z, smul_add, smul_smul]

theorem matrix6_mulMotion_mulCols (A : Matrix6 K) (S : Nat → Motion K) (n : Nat) (x : Nat → K) :
    mulCols (fun c => A.mulMotion (S c)) n x = A.mulMotion (mulCols S n x) := by
  unfold mulCols
  induction n with
  | zero => simp
  | succ n ih =>
    rw [Finset.sum_range_succ, Finset.sum_range_succ, matrix6_mulMotion_add, ih,
      matrix6_mulMotion_smul]

theorem motion_se3Action_mulCols (M : SE3 K) (S : Nat → Motion K) (n : Nat) (x : Nat → K) :
    mulCols (fun c => Motion.se3Action M (S c)) n x = Motion.se3Action M (mulCols S n x) := by
  unfold mulCols
  rw [motion_se3Action_sum]
  exact Finset.sum_congr rfl fun c _ => (motion_se3Action_smul M _ _).symm

theorem motion_cross_mulCols (w : Motion K) (S : Nat → Motion K) (n : Nat) (x : Nat → K) :
    mulCols (fun c => w.cross (S c)) n x = w.cross (mulCols S n x) := by
  unfold mulCols
  rw [motion_cross_sum]
  exact Finset.sum_congr rfl fun c _ => (motion_cross_smul_right _ w _).symm

theorem mulCols_add {α : Type} [AddCommMonoid α] [Module K α] (A B : Nat → α) (n : Nat)
    (x : Nat → K) : mulCols (fun c => A c + B c) n x = mulCols A n x + mulCols B n x := by
  unfold mulCols
  rw [← Finset.sum_add_distrib]
  exact Finset.sum_congr rfl fun c _ => smul_add _ _ _

theorem dccrbaFrame_step (model : Model K) (d : Data K) (i : Nat) (s : Data K)
    (h : dccrbaFrame model d (i + 1) s) :
    dccrbaFrame model d i (DCcrbaBackwardStep.algo model (i + 1) s)
    ∧ (s.oYcrb (model.parents (i + 1))).mass + (s.oYcrb (i + 1)).mass ≠ 0 := by
  obtain ⟨h1, h2, h3, h4⟩ := h
  obtain ⟨h5, h6⟩ := h4
  obtain ⟨e1, e2, e3, e4, -⟩ := dStep_fields model (i + 1) s
  refine ⟨⟨e1.trans h1, e2.trans h2, fun j => by rw [e3]; exact h3 j, ?_⟩, h5⟩
  have e : (fun j => ((DCcrbaBackwardStep.algo model (i + 1) s).oYcrb j).mass)
      = Function.update (fun j => (s.oYcrb j).mass) (model.parents (i + 1))
          ((s.oYcrb (model.parents (i + 1))).mass + (s.oYcrb (i + 1)).mass) := by
    funext j
    rw [e4]
    by_cases hj : j = model.parents (i + 1)
    · subst hj; simp
    · simp [Function.update_noteq hj]
  rw [e]
  exact h6

theorem dccrbaFrame_start (model : Model K) (data : Data K) (q v : List K)
    (hpar : model.TreeOrdered) (hden : model.CompositeMassesNonzero) :
    dccrbaFrame model (dccrbaStart model data q v) (model.njoints - 1)
      (dccrbaStart model data q v) := by
  obtain ⟨h0, hs⟩ := dccrbaStart_spec model data q v hpar
  refine ⟨rfl, rfl, fun _ => rfl, ?_⟩
  refine compositeMassesOK_congr model.parents _ _ _ (fun i a b => hpar i a (by omega)) ?_ hden
  intro j hj
  by_cases e : j = 0
  · subst e
    simp only [if_true]
    rw [h0]
    rfl
  · rw [if_neg e, (hs j (by omega) (by omega)).2.2.2.1]
    rfl

/-- Closed form of the world-frame composite inertia of the root after the
backward loop of `dccrba`: total mass and first moment. -/
theorem dccrbaLoops_closed (model : Model K) (data : Data K) (q v : List K)
    (hpar : model.TreeOrdered) (hden : model.CompositeMassesNonzero) :
    ((dccrbaLoops model data q v).oYcrb 0).mass = model.totalMass
    ∧ ((dccrbaLoops model data q v).oYcrb 0).mass • ((dccrbaLoops model data q v).oYcrb 0).lever
        = ∑ j in Finset.Ico 1 model.njoints,
            ((model.oMi q j).rotation.mulVec ((model.inertias j).mass • (model.inertias j).lever)
              + (model.inertias j).mass • (model.oMi q j).translation) := by
  obtain ⟨h0, hs⟩ := dccrbaStart_spec model data q v hpar
  have hpar' : ∀ i, 1 ≤ i → i ≤ model.njoints - 1 → model.parents i < i :=
    fun i a b => hpar i a (by omega)
  have hfr := dccrbaFrame_start model data q v hpar hden
  have hm := accumulate_indexed (DCcrbaBackwardStep.algo model) (fun s j => (s.oYcrb j).mass)
    model.parents (model.njoints - 1) (dccrbaFrame model (dccrbaStart model data q v)) hpar'
    (fun i s _ h => (dccrbaFrame_step model _ i s h).1)
    (fun i s hi _ => by
      show ((DCcrbaBackwardStep.algo model (i + 1) s).oYcrb _).mass = _
        ∧ ∀ j, _ → _ → ((DCcrbaBackwardStep.algo model (i + 1) s).oYcrb j).mass = _
      rw [(dStep_fields model (i + 1) s).2.2.2.1]
      refine ⟨by simp, fun j hj _ => by simp [Function.update_noteq hj]⟩)
    _ hfr
  have hc := accumulate_indexed (DCcrbaBackwardStep.algo model)
    (fun s j => (s.oYcrb j).mass • (s.oYcrb j).lever)
    model.parents (model.njoints - 1) (dccrbaFrame model (dccrbaStart model data q v)) hpar'
    (fun i s _ h => (dccrbaFrame_step model _ i s h).1)
    (fun i s hi h => by
      have hnz := (dccrbaFrame_step model _ i s h).2
      show ((DCcrbaBackwardStep.algo model (i + 1) s).oYcrb _).mass
            • ((DCcrbaBackwardStep.algo model (i + 1) s).oYcrb _).lever = _
        ∧ ∀ j, _ → _ → ((DCcrbaBackwardStep.algo model (i + 1) s).oYcrb j).mass
            • ((DCcrbaBackwardStep.algo model (i + 1) s).oYcrb j).lever = _
      rw [(dStep_fields model (i + 1) s).2.2.2.1]
      refine ⟨?_, fun j hj _ => by simp [Function.update_noteq hj]⟩
      simp only [Function.update_same]
      rw [inertia_add_moment _ _ hnz])
    _ hfr
  have e1 : ((dccrbaLoops model data q v).oYcrb 0).mass
      = ∑ j in Finset.range (model.njoints - 1 + 1),
          ((dccrbaStart model data q v).oYcrb j).mass := hm.2
  have e2 : ((dccrbaLoops model data q v).oYcrb 0).mass
        • ((dccrbaLoops model data q v).oYcrb 0).lever
      = ∑ j in Finset.range (model.njoints - 1 + 1),
          ((dccrbaStart model data q v).oYcrb j).mass
            • ((dccrbaStart model data q v).oYcrb j).lever := hc.2
  refine ⟨?_, ?_⟩
  · rw [e1, sum_range_eq_Ico _ _ (by rw [h0]; rfl)]
    refine Finset.sum_congr rfl fun j hj => ?_
    have hj' := Finset.mem_Ico.mp hj
    rw [(hs j hj'.1 hj'.2).2.2.2.1]
    rfl
  · rw [e2, sum_range_eq_Ico _ _ (by rw [h0]; simp [Inertia.Zero])]
    refine Finset.sum_congr rfl fun j hj => ?_
    have hj' := Finset.mem_Ico.mp hj
    rw [(hs j hj'.1 hj'.2).2.2.2.1]
    simp only [inertia_se3Action_mass, inertia_se3Action_lever, smul_add, mulVec_smul]
    rw [add_comm]

end dccrbaBackward

section rate

variable {K : Type} [Field K]

/-- The products of the blocks of `Ag` and `dAg` of joint `j` with the slices
of `a` and `v` of that joint, after the step of joint `i` of the backward
loop of `dccrba`. -/
theorem dStep_block (model : Model K) (v a : List K) (hcols : model.ColumnsPartition)
    (i : Nat) (hi1 : 1 ≤ i) (hi : i < model.njoints) (hp : model.parents i < i) (s : Data K) :
    mulCols ((model.joints i).jointCols (DCcrbaBackwardStep.algo model i s).Ag)
          (model.joints i).nv ((model.joints i).jointVelocitySelector a)
        + mulCols ((model.joints i).jointCols (DCcrbaBackwardStep.algo model i s).dAg)
          (model.joints i).nv ((model.joints i).jointVelocitySelector v)
      = (s.oYcrb i).mult (Motion.se3Action (s.oMi i)
            (mulCols (s.joints i).S (model.joints i).nv
              ((model.joints i).jointVelocitySelector a)))
        + ((s.doYcrb i).mulMotion (Motion.se3Action (s.oMi i)
            (mulCols (s.joints i).S (model.joints i).nv
              ((model.joints i).jointVelocitySelector v)))
          + (s.oYcrb i).mult ((s.ov i).cross (Motion.se3Action (s.oMi i)
            (mulCols (s.joints i).S (model.joints i).nv
              ((model.joints i).jointVelocitySelector v)))))
    ∧ ∀ j, 1 ≤ j → j < model.njoints → j ≠ i →
      mulCols ((model.joints j).jointCols (DCcrbaBackwardStep.algo model i s).Ag)
            (model.joints j).nv ((model.joints j).jointVelocitySelector a)
          + mulCols ((model.joints j).jointCols (DCcrbaBackwardStep.algo model i s).dAg)
            (model.joints j).nv ((model.joints j).jointVelocitySelector v)
        = mulCols ((model.joints j).jointCols s.Ag)
            (model.joints j).nv ((model.joints j).jointVelocitySelector a)
          + mulCols ((model.joints j).jointCols s.dAg)
            (model.joints j).nv ((model.joints j).jointVelocitySelector v) := by
  obtain ⟨c1, c2⟩ := dStep_cols model i s (by omega)
  constructor
  · rw [← motion_se3Action_mulCols, ← motion_se3Action_mulCols, ← inertia_mult_mulCols,
      ← motion_cross_mulCols, ← inertia_mult_mulCols, ← matrix6_mulMotion_mulCols,
      ← mulCols_add]
    congr 1
    · exact mulCols_congr _ _ _ _ fun c hc => (c1 c hc).1
    · exact mulCols_congr _ _ _ _ fun c hc => (c1 c hc).2
  · intro j hj1 hj hne
    have hd := fun c hc => block_disjoint model hcols i j hi1 hi hj1 hj (Ne.symm hne) c hc
    congr 1
    · exact mulCols_congr _ _ _ _ fun c hc => (c2 _ (hd c hc)).1
    · exact mulCols_congr _ _ _ _ fun c hc => (c2 _ (hd c hc)).2

/-- The momentum-rate identity behind `dccrba`: when the world-frame
velocities `ow` and accelerations `oa` satisfy the recurrences of the tree,
the products of the blocks of `Ag` with the slices of `a` and of the blocks of
`dAg` with the slices of `v` (before the shift) sum up to the rate of change
of the momentum of the bodies in the world frame. -/
theorem dccrba_rate (model : Model K) (data : Data K) (q v a : List K) (oa ow : Nat → Motion K)
    (hpar : model.TreeOrdered) (hcols : model.ColumnsPartition)
    (hden : model.CompositeMassesNonzero) (hoa0 : oa 0 = 0) (how0 : ow 0 = 0)
    (how : ∀ i, 1 ≤ i → i < model.njoints →
      (dccrbaStart model data q v).ov i = ow i
      ∧ ow i = ow (model.parents i)
          + Motion.se3Action (model.oMi q i)
              (mulCols ((model.joints i).jointSubspace q) (model.joints i).nv
                ((model.joints i).jointVelocitySelector v)))
    (hoa : ∀ i, 1 ≤ i → i < model.njoints →
      oa i = oa (model.parents i)
          + Motion.se3Action (model.oMi q i)
              (mulCols ((model.joints i).jointSubspace q) (model.joints i).nv
                ((model.joints i).jointVelocitySelector a))
          + (ow i).cross (Motion.se3Action (model.oMi q i)
              (mulCols ((model.joints i).jointSubspace q) (model.joints i).nv
                ((model.joints i).jointVelocitySelector v)))) :
    ∑ j in Finset.Ico 1 model.njoints,
        (mulCols ((model.joints j).jointCols (dccrbaLoops model data q v).Ag)
            (model.joints j).nv ((model.joints j).jointVelocitySelector a)
          + mulCols ((model.joints j).jointCols (dccrbaLoops model data q v).dAg)
            (model.joints j).nv ((model.joints j).jointVelocitySelector v))
      = ∑ j in Finset.Ico 1 model.njoints,
          (((dccrbaStart model data q v).oYcrb j).mult (oa j)
            + ((dccrbaStart model data q v).doYcrb j).mulMotion (ow j)) := by
  obtain ⟨h0, hs⟩ := dccrbaStart_spec model data q v hpar
  have hfr := dccrbaFrame_start model data q v hpar hden
  have key := forDown_invariant (DCcrbaBackwardStep.algo model)
    (fun k s => dccrbaFrame model (dccrbaStart model data q v) k s
      ∧ ∑ j in Finset.Ico (k + 1) (model.njoints - 1 + 1),
            (mulCols ((model.joints j).jointCols s.Ag)
                (model.joints j).nv ((model.joints j).jointVelocitySelector a)
              + mulCols ((model.joints j).jointCols s.dAg)
                (model.joints j).nv ((model.joints j).jointVelocitySelector v))
          + ∑ j in Finset.range (k + 1),
              ((s.oYcrb j).mult (oa j) + (s.doYcrb j).mulMotion (ow j))
        = ∑ j in Finset.range (model.njoints - 1 + 1),
            (((dccrbaStart model data q v).oYcrb j).mult (oa j)
              + ((dccrbaStart model data q v).doYcrb j).mulMotion (ow j)))
    (model.njoints - 1) (dccrbaStart model data q v) ⟨hfr, by simp⟩ ?_
  · obtain ⟨-, k2⟩ := key
    have e0 : ∀ (Y : Inertia K) (A : Matrix6 K), Y.mult (oa 0) + A.mulMotion (ow 0) = 0 := by
      intro Y A; rw [hoa0, how0, inertia_mult_zero, matrix6_mulMotion_zero, add_zero]
    rw [Finset.sum_range_one, e0, add_zero, sum_range_eq_Ico _ _ (e0 _ _)] at k2
    have e1 : Finset.Ico 1 (model.njoints - 1 + 1) = Finset.Ico 1 model.njoints := by
      rcases Nat.eq_zero_or_pos model.njoints with h | h
      · rw [h]; rfl
      · have : model.njoints - 1 + 1 = model.njoints := by omega
        rw [this]
    rw [e1] at k2
    exact k2
  · intro i s hi ⟨hF, hsum⟩
    obtain ⟨hF', hnz⟩ := dccrbaFrame_step model _ i s hF
    refine ⟨hF', ?_⟩
    have ha1 : 1 ≤ i + 1 := by omega
    have ha : i + 1 < model.njoints := by omega
    have hp := hpar (i + 1) ha1 ha
    obtain ⟨b1, b2⟩ := dStep_block model v a hcols (i + 1) ha1 ha hp s
    obtain ⟨-, -, -, f4, f5⟩ := dStep_fields model (i + 1) s
    have hsa := hs (i + 1) ha1 ha
    have hoMi : s.oMi (i + 1) = model.oMi q (i + 1) := by rw [hF.1]; exact hsa.1
    have hS : (s.joints (i + 1)).S = (model.joints (i + 1)).jointSubspace q := by
      rw [hF.2.2.1]; exact hsa.2.1
    have hov : s.ov (i + 1) = ow (i + 1) := by
      rw [hF.2.1]; exact (how (i + 1) ha1 ha).1
    rw [← hsum, Finset.sum_eq_sum_Ico_succ_bot (by omega), b1, hoMi, hS, hov,
      Finset.sum_range_succ _ (i + 1)]
    have hrest : ∑ j in Finset.Ico (i + 1 + 1) (model.njoints - 1 + 1),
          (mulCols ((model.joints j).jointCols (DCcrbaBackwardStep.algo model (i + 1) s).Ag)
              (model.joints j).nv ((model.joints j).jointVelocitySelector a)
            + mulCols ((model.joints j).jointCols (DCcrbaBackwardStep.algo model (i + 1) s).dAg)
              (model.joints j).nv ((model.joints j).jointVelocitySelector v))
        = ∑ j in Finset.Ico (i + 1 + 1) (model.njoints - 1 + 1),
          (mulCols ((model.joints j).jointCols s.Ag)
              (model.joints j).nv ((model.joints j).jointVelocitySelector a)
            + mulCols ((model.joints j).jointCols s.dAg)
              (model.joints j).nv ((model.joints j).jointVelocitySelector v)) := by
      refine Finset.sum_congr rfl fun j hj => ?_
      have hj' := Finset.mem_Ico.mp hj
      exact b2 j (by omega) (by omega) (by omega)
    have hupd := sum_eq_add_of_update (Finset.range (i + 1))
      (fun j => (s.oYcrb j).mult (oa j) + (s.doYcrb j).mulMotion (ow j))
      (fun j => ((DCcrbaBackwardStep.algo model (i + 1) s).oYcrb j).mult (oa j)
        + ((DCcrbaBackwardStep.algo model (i + 1) s).doYcrb j).mulMotion (ow j))
      (model.parents (i + 1))
      ((s.oYcrb (i + 1)).mult (oa (model.parents (i + 1)))
        + (s.doYcrb (i + 1)).mulMotion (ow (model.parents (i + 1))))
      (Finset.mem_range.mpr hp)
      (by
        simp only [f4, f5, Function.update_same]
        rw [inertia_add_mult _ _ hnz]
        by_cases h0 : model.parents (i + 1) > 0
        · rw [if_pos h0, Function.update_same, matrix6_add_mulMotion]
          abel
        · have hz : model.parents (i + 1) = 0 := by omega
          rw [if_neg h0, hz, how0, matrix6_mulMotion_zero, matrix6_mulMotion_zero]
          abel)
      (fun j _ hne => by
        simp only [f4, f5, Function.update_noteq hne]
        by_cases h0 : model.parents (i + 1) > 0
        · rw [if_pos h0, Function.update_noteq hne]
        · rw [if_neg h0])
    rw [hrest, hupd, hoa (i + 1) ha1 ha, (how (i + 1) ha1 ha).2, inertia_mult_add,
      inertia_mult_add, matrix6_mulMotion_add]
    rw [← (how (i + 1) ha1 ha).2]
    abel

end rate

section c10

variable {K : Type} [Field K]

/-- The shift loop on `dAg` only changes the columns `0..nv` of `dAg`. -/
theorem shiftdAg_eq (nv : Nat) (d : Data K) :
    shiftdAg nv d
      = { d with dAg := fun k => if k < nv then (d.dAg k).shift (d.com 0) else d.dAg k } := by
  have key := forUp_invariant
    (fun k (s : Data K) => { s with dAg := Function.update s.dAg k ((s.dAg k).shift (s.com 0)) })
    (fun i s => s = { d with dAg := fun k => if k < i then (d.dAg k).shift (d.com 0) else d.dAg k })
    nv 0 d (by simp) ?_
  · simpa using key
  · intro i s _ _ hs
    subst hs
    simp only
    congr 1
    funext k
    by_cases hk : k = i
    · subst hk; simp
    · rw [Function.update_noteq hk]
      have : k < i + 1 ↔ k < i := by omega
      simp only [this]

theorem dccrbaFinish_Ag (model : Model K) (v : List K) (d : Data K) :
    (dccrbaFinish model v d).Ag
      = fun k => if k < model.nv then (d.Ag k).shift (d.oYcrb 0).lever else d.Ag k := by
  simp [dccrbaFinish, shiftAg_eq, shiftdAg_eq]

theorem dccrbaFinish_dAg (model : Model K) (v : List K) (d : Data K) :
    (dccrbaFinish model v d).dAg
      = fun k => if k < model.nv then (d.dAg k).shift (d.oYcrb 0).lever else d.dAg k := by
  simp [dccrbaFinish, shiftAg_eq, shiftdAg_eq]

theorem dccrbaFinish_com (model : Model K) (v : List K) (d : Data K) :
    (dccrbaFinish model v d).com 0 = (d.oYcrb 0).lever := by
  simp [dccrbaFinish, shiftAg_eq, shiftdAg_eq]

theorem dccrbaFinish_hg (model : Model K) (v : List K) (d : Data K) :
    (dccrbaFinish model v d).hg
      = mulCols (dccrbaFinish model v d).Ag model.nv (fun k => v.getD k 0) := by
  simp [dccrbaFinish, shiftAg_eq, shiftdAg_eq]

/-- A product with a shifted matrix is the shift of the product. -/
theorem mulCols_shift (A : Nat → Force K) (n : Nat) (x : Nat → K) (c : Vector3 K) :
    mulCols (fun k => if k < n then (A k).shift c else A k) n x = (mulCols A n x).shift c := by
  unfold mulCols
  rw [force_shift_sum]
  refine Finset.sum_congr rfl fun k hk => ?_
  beta_reduce
  rw [if_pos (Finset.mem_range.mp hk), force_shift_smul]

/-- The center of mass left by `dccrba` is the one of
`computeCentroidalDynamics`, when no addition of composite inertias has a zero
total mass. -/
theorem dccrba_com_eq (model : Model K) (data data' : Data K) (q v a : List K)
    (hpar : model.TreeOrdered) (hM : model.totalMass ≠ 0)
    (hden : model.CompositeMassesNonzero) :
    ((dccrbaLoops model data q v).oYcrb 0).lever
      = (centroidalLoopsA model data' q v a).com 0
          / (centroidalLoopsA model data' q v a).mass 0 := by
  obtain ⟨c1, c2, -⟩ := centroidalLoopsA_closed model data' q v a hpar
  obtain ⟨b1, b2⟩ := dccrbaLoops_closed model data q v hpar hden
  rw [c1, c2, ← b2, b1, vec3_smul_div_cancel _ hM]

/-- The velocities of `forwardKinematics(model, data, q, v)` are those of the
forward loop of `computeCentroidalDynamics`. -/
theorem fkV_v_eq (model : Model K) (data data' : Data K) (q v a : List K)
    (hpar : model.TreeOrdered) :
    ∀ i, 1 ≤ i → i < model.njoints →
      (forwardKinematicsV model data q v).v i
        = (forUp (CentroidalDynamicsForwardStepA.algo model q v a) 1
            (model.njoints - 1) data').v i := by
  intro i
  induction i using Nat.strong_induction_on with
  | _ i ih =>
    intro h1 hn
    have hp := hpar i h1 hn
    have e1 := fkV_spec model q v hpar data i h1 hn
    have e2 := (cdForward_spec model q v _ (cdForwardA_fields model q v a) (model.njoints - 1)
      (fun i h1 h2 => hpar i h1 (by omega)) data' i h1 (by omega)).2.2.2.1
    rw [e1, e2]
    by_cases h0 : model.parents i > 0
    · rw [if_pos h0, if_pos h0, ih (model.parents i) hp h0 (by omega), add_comm]
    · rw [if_neg h0, if_neg h0]

end c10

section c10b

variable {K : Type} [Field K]

/-- C10, as the code has it (momentum-rate identity). For every model
(`parent(i) < i`, non-zero total mass) whose joint column blocks partition
`0..nv`, whose joint velocity is its motion subspace applied to its velocity
sub-vector, whose joints have a zero bias acceleration and in which no
addition of composite inertias in the backward loop of `dccrba` has a zero
total mass, and for every `q`, `v` and `a`: the rate of change of centroidal
momentum `dhg` returned by `computeCentroidalDynamics(model, data, q, v, a)`
equals `Ag * a + dAg * v`, with `Ag` and `dAg` the matrices left in Data by
`dccrba(model, data, q, v)`. -/
theorem momentum_rate (model : Model K) (data data' : Data K) (q v a : List K)
    (hpar : model.TreeOrdered) (hcols : model.ColumnsPartition)
    (hvel : model.VelocityInSubspace q v) (hbias : model.ZeroBias q v)
    (hM : model.totalMass ≠ 0) (hden : model.CompositeMassesNonzero)
    (hcheck : model.check data = true) (hcheck' : model.check data' = true)
    (hq : q.length = model.nq) (hv : v.length = model.nv) (ha : a.length = model.nv) :
    ∃ c r, computeCentroidalDynamicsA model data q v a = some c
      ∧ dccrba model data' q v = some r
      ∧ c.dhg = mulCols r.Ag model.nv (fun k => a.getD k 0)
          + mulCols r.dAg model.nv (fun k => v.getD k 0) := by
  refine ⟨_, _, computeCentroidalDynamicsA_eq model data q v a hcheck hq hv ha,
    dccrba_eq model data' q v hcheck' hq hv, ?_⟩
  have hpar' : ∀ i, 1 ≤ i → i ≤ model.njoints - 1 → model.parents i < i :=
    fun i h1 h2 => hpar i h1 (by omega)
  have hfs := cdForward_spec model q v _ (cdForwardA_fields model q v a) (model.njoints - 1)
    hpar' data
  have hfa := cdForwardA_spec model q v a (model.njoints - 1) hpar' data
  obtain ⟨h0, hs⟩ := dccrbaStart_spec model data' q v hpar
  -- abbreviations for the forward state of the acceleration variant
  generalize hr : forUp (CentroidalDynamicsForwardStepA.algo model q v a) 1
    (model.njoints - 1) data = r at hfs hfa
  have hvv : ∀ i, 1 ≤ i → i < model.njoints → (forwardKinematicsV model data' q v).v i = r.v i := by
    intro i h1 hn
    rw [← hr]
    exact fkV_v_eq model data' data q v a hpar i h1 hn
  have hrate := dccrba_rate model data' q v a
    (fun j => if j = 0 then 0 else Motion.se3Action (model.oMi q j) (r.a j))
    (fun j => if j = 0 then 0 else Motion.se3Action (model.oMi q j) (r.v j))
    hpar hcols hden rfl rfl ?_ ?_
  · rw [centroidalFinishA_dhg, ← dccrba_com_eq model data' data q v a hpar hM hden,
      centroidalLoopsA_f model data q v a hpar, hr, dccrbaFinish_Ag, dccrbaFinish_dAg,
      mulCols_shift, mulCols_shift, ← force_shift_add]
    congr 1
    unfold mulCols
    rw [← Finset.sum_add_distrib, sum_columns model hcols]
    have hrate' : ∑ j in Finset.Ico 1 model.njoints,
          ∑ c in Finset.range (model.joints j).nv,
            (a.getD ((model.joints j).idx_v + c) 0
                • (dccrbaLoops model data' q v).Ag ((model.joints j).idx_v + c)
              + v.getD ((model.joints j).idx_v + c) 0
                • (dccrbaLoops model data' q v).dAg ((model.joints j).idx_v + c))
        = ∑ j in Finset.Ico 1 model.njoints,
            (((dccrbaStart model data' q v).oYcrb j).mult
                (Motion.se3Action (model.oMi q j) (r.a j))
              + ((dccrbaStart model data' q v).doYcrb j).mulMotion
                (Motion.se3Action (model.oMi q j) (r.v j))) := by
      refine Eq.trans ?_ (hrate.trans (Finset.sum_congr rfl fun j hj => ?_))
      · refine Finset.sum_congr rfl fun j _ => ?_
        rw [Finset.sum_add_distrib]
        rfl
      · have hj' := Finset.mem_Ico.mp hj
        simp only [if_neg (show j ≠ 0 by omega)]
    rw [hrate']
    refine Finset.sum_congr rfl fun j hj => ?_
    have hj' := Finset.mem_Ico.mp hj
    obtain ⟨s1, -, s3, s4, s5⟩ := hs j hj'.1 hj'.2
    rw [(hfa j hj'.1 (by omega)).2, (hfs j hj'.1 (by omega)).2.2.2.2, force_se3Action_add,
      force_se3Action_crossForce, ← inertia_se3Action_mult, ← inertia_se3Action_mult,
      s5, s3, s4, hvv j hj'.1 hj'.2, variation_mulMotion_self]
  · -- the world-frame velocities
    intro i h1 hn
    have hp := hpar i h1 hn
    obtain ⟨-, -, s3, -, -⟩ := hs i h1 hn
    have hi0 : i ≠ 0 := by omega
    simp only [if_neg hi0]
    rw [s3, hvv i h1 hn]
    refine ⟨rfl, ?_⟩
    rw [(hfs i h1 (by omega)).2.2.2.1, ← hvel i h1 hn]
    by_cases h0 : model.parents i > 0
    · have hp0 : model.parents i ≠ 0 := by omega
      rw [if_pos h0, if_neg hp0, motion_se3Action_add,
        model_oMi_succ model q hpar i h1 hn, motion_se3Action_mul, motion_se3Action_inverse]
    · have hz : model.parents i = 0 := by omega
      rw [if_neg h0, if_pos hz, zero_add]
  · -- the world-frame accelerations
    intro i h1 hn
    have hp := hpar i h1 hn
    have hi0 : i ≠ 0 := by omega
    simp only [if_neg hi0]
    rw [(hfa i h1 (by omega)).1, hbias i h1 hn, add_zero, ← hvel i h1 hn]
    by_cases h0 : model.parents i > 0
    · have hp0 : model.parents i ≠ 0 := by omega
      rw [if_pos h0, if_neg hp0, motion_se3Action_add, motion_se3Action_add,
        motion_se3Action_cross]
      rw [model_oMi_succ model q hpar i h1 hn, motion_se3Action_mul (model.oMi q (model.parents i))
        (model.liMi q i) (Motion.se3ActionInverse _ _), motion_se3Action_inverse]
      abel
    · have hz : model.parents i = 0 := by omega
      rw [if_neg h0, if_pos hz, zero_add, motion_se3Action_add, motion_se3Action_cross]

end c10b

section c10c

theorem chainModel_bias (q v : List ℚ) : chainModel.ZeroBias q v := fun _ _ _ => rfl

theorem momentum_rate_witness :
    ∃ c r, computeCentroidalDynamicsA chainModel (Data.initial 3 2) [1, 2] [3, 4] [5, 6] = some c
      ∧ dccrba chainModel (Data.initial 3 2) [1, 2] [3, 4] = some r
      ∧ c.dhg = mulCols r.Ag chainModel.nv (fun k => ([5, 6] : List ℚ).getD k 0)
          + mulCols r.dAg chainModel.nv (fun k => ([3, 4] : List ℚ).getD k 0) :=
  momentum_rate chainModel (Data.initial 3 2) (Data.initial 3 2) [1, 2] [3, 4] [5, 6]
    chainModel_parents chainModel_columns (chainModel_velocity _ _) (chainModel_bias _ _)
    (by rw [chainModel_totalMass]; norm_num) chainModel_masses rfl rfl rfl rfl rfl

/-- A model with one joint that owns the single column has column blocks that
partition the columns. -/
theorem singleJoint_columns (model : Model ℚ) (hn : model.njoints = 2) (hv : model.nv = 1)
    (hi : (model.joints 1).idx_v = 0) (hw : (model.joints 1).nv = 1) :
    model.ColumnsPartition := by
  constructor
  · intro j h1 h2
    have e : j = 1 := by omega
    subst e
    omega
  · intro k hk
    refine ⟨1, ⟨le_rfl, by omega, by omega, by omega⟩, ?_⟩
    rintro j ⟨h1, h2, -, -⟩
    omega

theorem rootParent_tree (model : Model ℚ) (h : ∀ i, model.parents i = 0) :
    model.TreeOrdered := by
  intro i h1 _
  rw [h i]
  omega

theorem parabolaModel_velocity (q v : List ℚ) : parabolaModel.VelocityInSubspace q v := by
  intro j _ _
  show v.getD 0 0 • (⟨⟨1, 2 * q.getD 0 0, 0⟩, 0⟩ : Motion ℚ)
    = ∑ k in Finset.range 1, v.getD (0 + k) 0 • (⟨⟨1, 2 * q.getD 0 0, 0⟩, 0⟩ : Motion ℚ)
  rw [Finset.sum_range_one, Nat.add_zero]

theorem parabolaModel_masses : parabolaModel.CompositeMassesNonzero := by
  show compositeMassesOK parabolaModel.parents 1 _
  simp only [compositeMassesOK]
  decide!

theorem sidewaysModel_masses : sidewaysModel.CompositeMassesNonzero := by
  show compositeMassesOK sidewaysModel.parents 1 _
  simp only [compositeMassesOK]
  decide!

theorem sharedColumnModel_masses : sharedColumnModel.CompositeMassesNonzero := by
  show compositeMassesOK sharedColumnModel.parents 2 _
  simp only [compositeMassesOK]
  decide!

/-- C10, counterexample. Four models with `parent(i) < i` and non-zero total
mass on which `dhg` of `computeCentroidalDynamics(model, data, q, v, a)`
differs from `Ag * a + dAg * v` of `dccrba`, each satisfying all but one of
the further conditions. A body on a joint that slides along a parabola: the
joint has the bias acceleration `(0, 2, 0)` at `q = 0`, `v = 1`, which enters
`dhg` only. The star of three bodies of masses 1, -1 and 1: a composite of
mass zero loses its first moment in `dccrba`. A body on a joint whose velocity
is not in its motion subspace. Two bodies whose joints share column 0: the
second block written replaces the first. -/
theorem momentum_rate_counterexample :
    (parabolaModel.TreeOrdered ∧ parabolaModel.totalMass ≠ 0
      ∧ parabolaModel.ColumnsPartition ∧ parabolaModel.VelocityInSubspace [0] [1]
      ∧ parabolaModel.CompositeMassesNonzero
      ∧ (computeCentroidalDynamicsA parabolaModel (Data.initial 2 1) [0] [1] [0]).map
            (fun d => d.dhg)
          ≠ (dccrba parabolaModel (Data.initial 2 1) [0] [1]).map
            (fun d => mulCols d.Ag parabolaModel.nv (fun k => ([0] : List ℚ).getD k 0)
              + mulCols d.dAg parabolaModel.nv (fun k => ([1] : List ℚ).getD k 0)))
    ∧ (starModel.TreeOrdered ∧ starModel.totalMass ≠ 0
      ∧ starModel.ColumnsPartition ∧ starModel.VelocityInSubspace [0, 0, 0] [0, 0, 1]
      ∧ starModel.ZeroBias [0, 0, 0] [0, 0, 1]
      ∧ (computeCentroidalDynamicsA starModel (Data.initial 4 3) [0, 0, 0] [0, 0, 1]
            [0, 0, 1]).map (fun d => d.dhg)
          ≠ (dccrba starModel (Data.initial 4 3) [0, 0, 0] [0, 0, 1]).map
            (fun d => mulCols d.Ag starModel.nv (fun k => ([0, 0, 1] : List ℚ).getD k 0)
              + mulCols d.dAg starModel.nv (fun k => ([0, 0, 1] : List ℚ).getD k 0)))
    ∧ (sidewaysModel.TreeOrdered ∧ sidewaysModel.totalMass ≠ 0
      ∧ sidewaysModel.ColumnsPartition ∧ sidewaysModel.ZeroBias [0] [1]
      ∧ sidewaysModel.CompositeMassesNonzero
      ∧ (computeCentroidalDynamicsA sidewaysModel (Data.initial 2 1) [0] [1] [0]).map
            (fun d => d.dhg)
          ≠ (dccrba sidewaysModel (Data.initial 2 1) [0] [1]).map
            (fun d => mulCols d.Ag sidewaysModel.nv (fun k => ([0] : List ℚ).getD k 0)
              + mulCols d.dAg sidewaysModel.nv (fun k => ([1] : List ℚ).getD k 0)))
    ∧ (sharedColumnModel.TreeOrdered ∧ sharedColumnModel.totalMass ≠ 0
      ∧ sharedColumnModel.VelocityInSubspace [0] [0] ∧ sharedColumnModel.ZeroBias [0] [0]
      ∧ sharedColumnModel.CompositeMassesNonzero
      ∧ (computeCentroidalDynamicsA sharedColumnModel (Data.initial 3 1) [0] [0] [1]).map
            (fun d => d.dhg)
          ≠ (dccrba sharedColumnModel (Data.initial 3 1) [0] [0]).map
            (fun d => mulCols d.Ag sharedColumnModel.nv (fun k => ([1] : List ℚ).getD k 0)
              + mulCols d.dAg sharedColumnModel.nv (fun k => ([0] : List ℚ).getD k 0))) :=
  ⟨⟨rootParent_tree _ fun _ => rfl, by decide!, singleJoint_columns _ rfl rfl rfl rfl,
      parabolaModel_velocity _ _, parabolaModel_masses, by decide!⟩,
    ⟨starModel_tree, by decide!, starModel_columns, starModel_velocity _ _,
      fun _ _ _ => rfl, by decide!⟩,
    ⟨rootParent_tree _ fun _ => rfl, by decide!, singleJoint_columns _ rfl rfl rfl rfl,
      fun _ _ _ => rfl, sidewaysModel_masses, by decide!⟩,
    ⟨rootParent_tree _ fun _ => rfl, by decide!, fun j _ _ => prismatic_velocity 0 [0] [0],
      fun _ _ _ => rfl, sharedColumnModel_masses, by decide!⟩⟩

end c10c

section stale1

variable {K : Type} [Field K]

/-- The velocities, accelerations, momenta and force residuals left by the
forward loop of `computeCentroidalDynamics` do not depend on the prior
contents of Data. -/
theorem cdForwardA_indep (model : Model K) (d1 d2 : Data K) (q v a : List K)
    (hpar : model.TreeOrdered) :
    ∀ i, 1 ≤ i → i < model.njoints →
      (forUp (CentroidalDynamicsForwardStepA.algo model q v a) 1 (model.njoints - 1) d1).v i
        = (forUp (CentroidalDynamicsForwardStepA.algo model q v a) 1 (model.njoints - 1) d2).v i
      ∧ (forUp (CentroidalDynamicsForwardStepA.algo model q v a) 1 (model.njoints - 1) d1).a i
        = (forUp (CentroidalDynamicsForwardStepA.algo model q v a) 1 (model.njoints - 1) d2).a i
      ∧ (forUp (CentroidalDynamicsForwardStepA.algo model q v a) 1 (model.njoints - 1) d1).h i
        = (forUp (CentroidalDynamicsForwardStepA.algo model q v a) 1 (model.njoints - 1) d2).h i
      ∧ (forUp (CentroidalDynamicsForwardStepA.algo model q v a) 1 (model.njoints - 1) d1).f i
        = (forUp (CentroidalDynamicsForwardStepA.algo model q v a) 1 (model.njoints - 1) d2).f i := by
  have hpar' : ∀ i, 1 ≤ i → i ≤ model.njoints - 1 → model.parents i < i :=
    fun i h1 h2 => hpar i h1 (by omega)
  intro i
  induction i using Nat.strong_induction_on with
  | _ i ih =>
    intro h1 hn
    have hp := hpar i h1 hn
    obtain ⟨-, -, -, v1, m1⟩ := cdForward_spec model q v _ (cdForwardA_fields model q v a)
      (model.njoints - 1) hpar' d1 i h1 (by omega)
    obtain ⟨-, -, -, v2, m2⟩ := cdForward_spec model q v _ (cdForwardA_fields model q v a)
      (model.njoints - 1) hpar' d2 i h1 (by omega)
    obtain ⟨a1, f1⟩ := cdForwardA_spec model q v a (model.njoints - 1) hpar' d1 i h1 (by omega)
    obtain ⟨a2, f2⟩ := cdForwardA_spec model q v a (model.njoints - 1) hpar' d2 i h1 (by omega)
    have ev : (forUp (CentroidalDynamicsForwardStepA.algo model q v a) 1
          (model.njoints - 1) d1).v i
        = (forUp (CentroidalDynamicsForwardStepA.algo model q v a) 1
          (model.njoints - 1) d2).v i := by
      rw [v1, v2]
      by_cases h0 : model.parents i > 0
      · rw [if_pos h0, if_pos h0, (ih (model.parents i) hp h0 (by omega)).1]
      · rw [if_neg h0, if_neg h0]
    have ea : (forUp (CentroidalDynamicsForwardStepA.algo model q v a) 1
          (model.njoints - 1) d1).a i
        = (forUp (CentroidalDynamicsForwardStepA.algo model q v a) 1
          (model.njoints - 1) d2).a i := by
      rw [a1, a2, ev]
      by_cases h0 : model.parents i > 0
      · rw [if_pos h0, if_pos h0, (ih (model.parents i) hp h0 (by omega)).2.1]
      · rw [if_neg h0, if_neg h0]
    have eh : (forUp (CentroidalDynamicsForwardStepA.algo model q v a) 1
          (model.njoints - 1) d1).h i
        = (forUp (CentroidalDynamicsForwardStepA.algo model q v a) 1
          (model.njoints - 1) d2).h i := by
      rw [m1, m2, ev]
    exact ⟨ev, ea, eh, by rw [f1, f2, ev, ea, eh]⟩

theorem cdForward_indep (model : Model K) (d1 d2 : Data K) (q v : List K)
    (hpar : model.TreeOrdered) :
    ∀ i, 1 ≤ i → i < model.njoints →
      (forUp (CentroidalDynamicsForwardStep.algo model q v) 1 (model.njoints - 1) d1).v i
        = (forUp (CentroidalDynamicsForwardStep.algo model q v) 1 (model.njoints - 1) d2).v i := by
  have hpar' : ∀ i, 1 ≤ i → i ≤ model.njoints - 1 → model.parents i < i :=
    fun i h1 h2 => hpar i h1 (by omega)
  intro i
  induction i using Nat.strong_induction_on with
  | _ i ih =>
    intro h1 hn
    have hp := hpar i h1 hn
    obtain ⟨-, -, -, v1, -⟩ := cdForward_spec model q v _ (cdForward_fields model q v)
      (model.njoints - 1) hpar' d1 i h1 (by omega)
    obtain ⟨-, -, -, v2, -⟩ := cdForward_spec model q v _ (cdForward_fields model q v)
      (model.njoints - 1) hpar' d2 i h1 (by omega)
    rw [v1, v2]
    by_cases h0 : model.parents i > 0
    · rw [if_pos h0, if_pos h0, ih (model.parents i) hp h0 (by omega)]
    · rw [if_neg h0, if_neg h0]

/-- The outputs of the velocity variant do not depend on the prior contents
of Data. -/
theorem centroidal_indep (model : Model K) (d1 d2 : Data K) (q v : List K)
    (hpar : model.TreeOrdered) :
    (centroidalFinish (centroidalLoops model d1 q v)).centroidalOutputs
      = (centroidalFinish (centroidalLoops model d2 q v)).centroidalOutputs := by
  obtain ⟨a1, a2, a3⟩ := centroidalLoops_closed model d1 q v hpar
  obtain ⟨b1, b2, b3⟩ := centroidalLoops_closed model d2 q v hpar
  have eh : (centroidalLoops model d1 q v).h 0 = (centroidalLoops model d2 q v).h 0 := by
    rw [a3, b3]
    refine Finset.sum_congr rfl fun j hj => ?_
    have hj' := Finset.mem_Ico.mp hj
    rw [cdForward_indep model d1 d2 q v hpar j hj'.1 hj'.2]
  simp only [Data.centroidalOutputs, centroidalFinish_mass, centroidalFinish_com,
    centroidalFinish_hg, a1, a2, b1, b2, eh]

/-- The outputs of the acceleration variant do not depend on the prior
contents of Data. -/
theorem centroidalA_indep (model : Model K) (d1 d2 : Data K) (q v a : List K)
    (hpar : model.TreeOrdered) :
    (centroidalFinishA (centroidalLoopsA model d1 q v a)).centroidalOutputsA
      = (centroidalFinishA (centroidalLoopsA model d2 q v a)).centroidalOutputsA := by
  obtain ⟨a1, a2, a3⟩ := centroidalLoopsA_closed model d1 q v a hpar
  obtain ⟨b1, b2, b3⟩ := centroidalLoopsA_closed model d2 q v a hpar
  have eh : (centroidalLoopsA model d1 q v a).h 0 = (centroidalLoopsA model d2 q v a).h 0 := by
    rw [a3, b3]
    refine Finset.sum_congr rfl fun j hj => ?_
    have hj' := Finset.mem_Ico.mp hj
    rw [(cdForwardA_indep model d1 d2 q v a hpar j hj'.1 hj'.2).1]
  have ef : (centroidalLoopsA model d1 q v a).f 0 = (centroidalLoopsA model d2 q v a).f 0 := by
    rw [centroidalLoopsA_f model d1 q v a hpar, centroidalLoopsA_f model d2 q v a hpar]
    refine Finset.sum_congr rfl fun j hj => ?_
    have hj' := Finset.mem_Ico.mp hj
    rw [(cdForwardA_indep model d1 d2 q v a hpar j hj'.1 hj'.2).2.2.2]
  simp only [Data.centroidalOutputsA, centroidalFinishA_mass, centroidalFinishA_com,
    centroidalFinishA_hg, centroidalFinishA_dhg, a1, a2, b1, b2, eh, ef]

end stale1

section stale2

variable {K : Type} [Field K]

/-- Two runs of the backward loop of `ccrba` that start from states agreeing
on the quantities written before the loop agree afterwards on the composite
inertias and on the column blocks of all joints. -/
theorem ccrbaLoops_indep (model : Model K) (d1 d2 : Data K) (q : List K)
    (hpar : model.TreeOrdered) :
    (∀ j, j ≤ model.njoints - 1 → (ccrbaLoops model d1 q).Ycrb j = (ccrbaLoops model d2 q).Ycrb j)
    ∧ ∀ j, 1 ≤ j → j < model.njoints → ∀ c, c < (model.joints j).nv →
        (ccrbaLoops model d1 q).Ag ((model.joints j).idx_v + c)
          = (ccrbaLoops model d2 q).Ag ((model.joints j).idx_v + c) := by
  obtain ⟨a0, a1⟩ := ccrbaStart_spec model d1 q hpar
  obtain ⟨b0, b1⟩ := ccrbaStart_spec model d2 q hpar
  have key := forDown_rel (CcrbaBackwardStep.algo model) (CcrbaBackwardStep.algo model)
    (fun k (s t : Data K) =>
      (∀ j, j ≤ model.njoints - 1 → s.Ycrb j = t.Ycrb j)
      ∧ (∀ j, 1 ≤ j → j < model.njoints →
          s.liMi j = t.liMi j ∧ s.oMi j = t.oMi j ∧ (s.joints j).S = (t.joints j).S)
      ∧ ∀ j, k < j → j < model.njoints → ∀ c, c < (model.joints j).nv →
          s.Ag ((model.joints j).idx_v + c) = t.Ag ((model.joints j).idx_v + c))
    (model.njoints - 1) (ccrbaStart model d1 q) (ccrbaStart model d2 q) ?_ ?_
  · exact ⟨key.1, fun j h1 hn => key.2.2 j (by omega) hn⟩
  · refine ⟨fun j hj => ?_, fun j h1 hn => ?_, fun j hk hn => by omega⟩
    · by_cases h0 : j = 0
      · subst h0; rw [a0, b0]
      · rw [(a1 j (by omega) (by omega)).2.2.2, (b1 j (by omega) (by omega)).2.2.2]
    · obtain ⟨x1, x2, x3, -⟩ := a1 j h1 hn
      obtain ⟨y1, y2, y3, -⟩ := b1 j h1 hn
      exact ⟨x1.trans y1.symm, x2.trans y2.symm, x3.trans y3.symm⟩
  · intro i s t hi ⟨hY, hF, hA⟩
    have hin : i + 1 < model.njoints := by omega
    have hp := hpar (i + 1) (by omega) hin
    have hne : i + 1 ≠ model.parents (i + 1) := by omega
    obtain ⟨f1, f2, f3⟩ := hF (i + 1) (by omega) hin
    refine ⟨fun j hj => ?_, fun j h1 hn => ?_, fun j hk hn c hc => ?_⟩
    · rw [ccrbaStep_Ycrb, ccrbaStep_Ycrb]
      by_cases hjp : j = model.parents (i + 1)
      · subst hjp
        rw [Function.update_same, Function.update_same, hY _ hj, hY _ (by omega), f1]
      · rw [Function.update_noteq hjp, Function.update_noteq hjp, hY _ hj]
    · rw [ccrbaStep_liMi, ccrbaStep_liMi, ccrbaStep_oMi, ccrbaStep_oMi, ccrbaStep_S,
        ccrbaStep_S]
      exact hF j h1 hn
    · rw [ccrbaStep_Ag model (i + 1) s hne, ccrbaStep_Ag model (i + 1) t hne]
      unfold JointModel.setJointCols
      by_cases hb : (model.joints (i + 1)).idx_v ≤ (model.joints j).idx_v + c
          ∧ (model.joints j).idx_v + c < (model.joints (i + 1)).idx_v + (model.joints (i + 1)).nv
      · rw [if_pos hb, if_pos hb, f2, f3, hY _ (by omega)]
      · rw [if_neg hb, if_neg hb]
        have hj : i + 1 < j := by
          rcases Nat.lt_or_ge (i + 1) j with h | h
          · exact h
          · have e : j = i + 1 := by omega
            subst e
            exact absurd ⟨by omega, by omega⟩ hb
        exact hA j hj hn c hc

/-- The outputs of `ccrba` do not depend on the prior contents of Data. -/
theorem ccrbaOutputs_indep (model : Model K) (d1 d2 : Data K) (q v : List K)
    (hpar : model.TreeOrdered) (hcov : model.ColumnsCovered) :
    (ccrbaFinish model v (ccrbaLoops model d1 q)).ccrbaOutputs model.nv
      = (ccrbaFinish model v (ccrbaLoops model d2 q)).ccrbaOutputs model.nv := by
  obtain ⟨hY, hA⟩ := ccrbaLoops_indep model d1 d2 q hpar
  have hY0 := hY 0 (Nat.zero_le _)
  have hcol : ∀ k, k < model.nv →
      (ccrbaFinish model v (ccrbaLoops model d1 q)).Ag k
        = (ccrbaFinish model v (ccrbaLoops model d2 q)).Ag k := by
    intro k hk
    obtain ⟨j, h1, hj, hlo, hhi⟩ := hcov k hk
    have e := hA j h1 hj (k - (model.joints j).idx_v) (by omega)
    rw [Nat.add_sub_cancel' hlo] at e
    simp only [ccrbaFinish_Ag, if_pos hk, e, hY0]
  have hhg : (ccrbaFinish model v (ccrbaLoops model d1 q)).hg
      = (ccrbaFinish model v (ccrbaLoops model d2 q)).hg := by
    rw [ccrbaFinish_hg, ccrbaFinish_hg]
    exact mulCols_congr _ _ _ _ hcol
  have hlist : (List.range model.nv).map (ccrbaFinish model v (ccrbaLoops model d1 q)).Ag
      = (List.range model.nv).map (ccrbaFinish model v (ccrbaLoops model d2 q)).Ag :=
    List.map_congr_left fun k hk => hcol k (List.mem_range.mp hk)
  simp only [Data.ccrbaOutputs, hlist, hhg, ccrbaFinish_com, ccrbaFinish_Ig, hY0]

end stale2

section stale3

variable {K : Type} [Field K]

theorem dccrbaFinish_vcom (model : Model K) (v : List K) (d : Data K) :
    (dccrbaFinish model v d).vcom 0
      = (dccrbaFinish model v d).hg.linear / (d.oYcrb 0).mass := by
  simp [dccrbaFinish, shiftAg_eq, shiftdAg_eq]

theorem dccrbaFinish_Ig (model : Model K) (v : List K) (d : Data K) :
    (dccrbaFinish model v d).Ig = ⟨(d.oYcrb 0).mass, 0, (d.oYcrb 0).inertia⟩ := by
  simp [dccrbaFinish, shiftAg_eq, shiftdAg_eq]

/-- Two runs of the backward loop of `dccrba` on different prior contents of
Data agree afterwards on the composite inertias and on the column blocks of
`Ag` and `dAg` of all joints. -/
theorem dccrbaLoops_indep (model : Model K) (d1 d2 : Data K) (q v : List K)
    (hpar : model.TreeOrdered) :
    (∀ j, j ≤ model.njoints - 1 →
      (dccrbaLoops model d1 q v).oYcrb j = (dccrbaLoops model d2 q v).oYcrb j)
    ∧ ∀ j, 1 ≤ j → j < model.njoints → ∀ c, c < (model.joints j).nv →
        (dccrbaLoops model d1 q v).Ag ((model.joints j).idx_v + c)
          = (dccrbaLoops model d2 q v).Ag ((model.joints j).idx_v + c)
        ∧ (dccrbaLoops model d1 q v).dAg ((model.joints j).idx_v + c)
          = (dccrbaLoops model d2 q v).dAg ((model.joints j).idx_v + c) := by
  obtain ⟨a0, a1⟩ := dccrbaStart_spec model d1 q v hpar
  obtain ⟨b0, b1⟩ := dccrbaStart_spec model d2 q v hpar
  have hov : ∀ j, 1 ≤ j → j < model.njoints →
      (dccrbaStart model d1 q v).ov j = (dccrbaStart model d2 q v).ov j := by
    intro j h1 hn
    rw [(a1 j h1 hn).2.2.1, (b1 j h1 hn).2.2.1, fkV_v_eq model d1 d1 q v [] hpar j h1 hn,
      fkV_v_eq model d2 d1 q v [] hpar j h1 hn]
  have hoY : ∀ j, 1 ≤ j → j < model.njoints →
      (dccrbaStart model d1 q v).oYcrb j = (dccrbaStart model d2 q v).oYcrb j := by
    intro j h1 hn
    rw [(a1 j h1 hn).2.2.2.1, (b1 j h1 hn).2.2.2.1]
  have key := forDown_rel (DCcrbaBackwardStep.algo model) (DCcrbaBackwardStep.algo model)
    (fun k (s t : Data K) =>
      (∀ j, j ≤ model.njoints - 1 → s.oYcrb j = t.oYcrb j)
      ∧ (∀ j, 1 ≤ j → j < model.njoints →
          s.doYcrb j = t.doYcrb j ∧ s.oMi j = t.oMi j ∧ s.ov j = t.ov j
          ∧ (s.joints j).S = (t.joints j).S)
      ∧ ∀ j, k < j → j < model.njoints → ∀ c, c < (model.joints j).nv →
          s.Ag ((model.joints j).idx_v + c) = t.Ag ((model.joints j).idx_v + c)
          ∧ s.dAg ((model.joints j).idx_v + c) = t.dAg ((model.joints j).idx_v + c))
    (model.njoints - 1) (dccrbaStart model d1 q v) (dccrbaStart model d2 q v) ?_ ?_
  · exact ⟨key.1, fun j h1 hn => key.2.2 j (by omega) hn⟩
  · refine ⟨fun j hj => ?_, fun j h1 hn => ?_, fun j hk hn => by omega⟩
    · by_cases h0 : j = 0
      · subst h0; rw [a0, b0]
      · exact hoY j (by omega) (by omega)
    · obtain ⟨x1, x2, -, -, x5⟩ := a1 j h1 hn
      obtain ⟨y1, y2, -, -, y5⟩ := b1 j h1 hn
      refine ⟨?_, x1.trans y1.symm, hov j h1 hn, x2.trans y2.symm⟩
      rw [x5, y5, hoY j h1 hn, hov j h1 hn]
  · intro i s t hi ⟨hY, hF, hA⟩
    have hin : i + 1 < model.njoints := by omega
    have hp := hpar (i + 1) (by omega) hin
    have hne : model.parents (i + 1) ≠ i + 1 := by omega
    obtain ⟨f1, f2, f3, f4⟩ := hF (i + 1) (by omega) hin
    obtain ⟨s1, s2, s3, s4, s5⟩ := dStep_fields model (i + 1) s
    obtain ⟨t1, t2, t3, t4, t5⟩ := dStep_fields model (i + 1) t
    refine ⟨fun j hj => ?_, fun j h1 hn => ?_, fun j hk hn c hc => ?_⟩
    · rw [s4, t4]
      by_cases hjp : j = model.parents (i + 1)
      · subst hjp
        rw [Function.update_same, Function.update_same, hY _ hj, hY _ (by omega)]
      · rw [Function.update_noteq hjp, Function.update_noteq hjp, hY _ hj]
    · rw [s1, t1, s2, t2, s3, t3, s5, t5]
      refine ⟨?_, (hF j h1 hn).2⟩
      by_cases hp0 : model.parents (i + 1) > 0
      · rw [if_pos hp0, if_pos hp0]
        by_cases hjp : j = model.parents (i + 1)
        · subst hjp
          rw [Function.update_same, Function.update_same, (hF _ h1 hn).1, f1]
        · rw [Function.update_noteq hjp, Function.update_noteq hjp, (hF j h1 hn).1]
      · rw [if_neg hp0, if_neg hp0, (hF j h1 hn).1]
    · obtain ⟨sb, sr⟩ := dStep_cols model (i + 1) s hne
      obtain ⟨tb, tr⟩ := dStep_cols model (i + 1) t hne
      by_cases hb : (model.joints (i + 1)).idx_v ≤ (model.joints j).idx_v + c
          ∧ (model.joints j).idx_v + c < (model.joints (i + 1)).idx_v + (model.joints (i + 1)).nv
      · have hc' : (model.joints j).idx_v + c - (model.joints (i + 1)).idx_v
            < (model.joints (i + 1)).nv := by omega
        have e : (model.joints (i + 1)).idx_v
            + ((model.joints j).idx_v + c - (model.joints (i + 1)).idx_v)
              = (model.joints j).idx_v + c := by omega
        have s' := sb _ hc'
        have t' := tb _ hc'
        rw [e] at s' t'
        rw [s'.1, s'.2, t'.1, t'.2, f1, f2, f3, f4, hY _ (by omega)]
        exact ⟨rfl, rfl⟩
      · rw [(sr _ hb).1, (sr _ hb).2, (tr _ hb).1, (tr _ hb).2]
        have hj : i + 1 < j := by
          rcases Nat.lt_or_ge (i + 1) j with h | h
          · exact h
          · have e : j = i + 1 := by omega
            subst e
            exact absurd ⟨by omega, by omega⟩ hb
        exact hA j hj hn c hc

/-- The outputs of `dccrba` do not depend on the prior contents of Data. -/
theorem dccrbaOutputs_indep (model : Model K) (d1 d2 : Data K) (q v : List K)
    (hpar : model.TreeOrdered) (hcov : model.ColumnsCovered) :
    (dccrbaFinish model v (dccrbaLoops model d1 q v)).dccrbaOutputs model.nv
      = (dccrbaFinish model v (dccrbaLoops model d2 q v)).dccrbaOutputs model.nv := by
  obtain ⟨hY, hA⟩ := dccrbaLoops_indep model d1 d2 q v hpar
  have hY0 := hY 0 (Nat.zero_le _)
  have hcol : ∀ k, k < model.nv →
      (dccrbaFinish model v (dccrbaLoops model d1 q v)).Ag k
        = (dccrbaFinish model v (dccrbaLoops model d2 q v)).Ag k
      ∧ (dccrbaFinish model v (dccrbaLoops model d1 q v)).dAg k
        = (dccrbaFinish model v (dccrbaLoops model d2 q v)).dAg k := by
    intro k hk
    obtain ⟨j, h1, hj, hlo, hhi⟩ := hcov k hk
    have e := hA j h1 hj (k - (model.joints j).idx_v) (by omega)
    rw [Nat.add_sub_cancel' hlo] at e
    simp only [dccrbaFinish_Ag, dccrbaFinish_dAg, if_pos hk, e.1, e.2, hY0, and_self]
  have hhg : (dccrbaFinish model v (dccrbaLoops model d1 q v)).hg
      = (dccrbaFinish model v (dccrbaLoops model d2 q v)).hg := by
    rw [dccrbaFinish_hg, dccrbaFinish_hg]
    exact mulCols_congr _ _ _ _ fun k hk => (hcol k hk).1
  have hl1 : (List.range model.nv).map (dccrbaFinish model v (dccrbaLoops model d1 q v)).Ag
      = (List.range model.nv).map (dccrbaFinish model v (dccrbaLoops model d2 q v)).Ag :=
    List.map_congr_left fun k hk => (hcol k (List.mem_range.mp hk)).1
  have hl2 : (List.range model.nv).map (dccrbaFinish model v (dccrbaLoops model d1 q v)).dAg
      = (List.range model.nv).map (dccrbaFinish model v (dccrbaLoops model d2 q v)).dAg :=
    List.map_congr_left fun k hk => (hcol k (List.mem_range.mp hk)).2
  simp only [Data.dccrbaOutputs, hl1, hl2, hhg, dccrbaFinish_com, dccrbaFinish_vcom,
    dccrbaFinish_Ig, hY0]

end stale3

section stale4

variable {K : Type} [Field K]

/-- C6. No cross-call staleness: for a model with `parent(i) < i` whose joint
column blocks cover the columns `0..nv`, and two Data states `d1`, `d2` that
both pass `model.check` but are otherwise arbitrary, each entry point
(`computeCentroidalDynamics` without and with acceleration, `ccrba`, `dccrba`)
either rejects both calls or leaves the same outputs in both: `mass[0]`,
`com[0]`, `hg` (and `dhg`) for `computeCentroidalDynamics`; the `nv` columns of
`Ag`, `hg`, `com[0]`, `Ig` for `ccrba`; the `nv` columns of `Ag` and `dAg`,
`hg`, `com[0]`, `vcom[0]`, `Ig` for `dccrba`. -/
theorem no_cross_call_staleness (model : Model K) (d1 d2 : Data K) (q v a : List K)
    (hpar : model.TreeOrdered) (hcov : model.ColumnsCovered)
    (hd1 : model.check d1 = true) (hd2 : model.check d2 = true) :
    (computeCentroidalDynamics model d1 q v).map Data.centroidalOutputs
        = (computeCentroidalDynamics model d2 q v).map Data.centroidalOutputs
    ∧ (computeCentroidalDynamicsA model d1 q v a).map Data.centroidalOutputsA
        = (computeCentroidalDynamicsA model d2 q v a).map Data.centroidalOutputsA
    ∧ (ccrba model d1 q v).map (Data.ccrbaOutputs model.nv)
        = (ccrba model d2 q v).map (Data.ccrbaOutputs model.nv)
    ∧ (dccrba model d1 q v).map (Data.dccrbaOutputs model.nv)
        = (dccrba model d2 q v).map (Data.dccrbaOutputs model.nv) := by
  refine ⟨?_, ?_, ?_, ?_⟩
  · by_cases hs : q.length = model.nq ∧ v.length = model.nv
    · rw [computeCentroidalDynamics_eq model d1 q v hd1 hs.1 hs.2,
        computeCentroidalDynamics_eq model d2 q v hd2 hs.1 hs.2]
      exact congrArg some (centroidal_indep model d1 d2 q v hpar)
    · unfold computeCentroidalDynamics
      rw [if_neg fun h => hs h.2, if_neg fun h => hs h.2]
  · by_cases hs : q.length = model.nq ∧ v.length = model.nv ∧ a.length = model.nv
    · rw [computeCentroidalDynamicsA_eq model d1 q v a hd1 hs.1 hs.2.1 hs.2.2,
        computeCentroidalDynamicsA_eq model d2 q v a hd2 hs.1 hs.2.1 hs.2.2]
      exact congrArg some (centroidalA_indep model d1 d2 q v a hpar)
    · unfold computeCentroidalDynamicsA
      rw [if_neg fun h => hs h.2, if_neg fun h => hs h.2]
  · by_cases hs : q.length = model.nq ∧ v.length = model.nv
    · rw [ccrba_eq model d1 q v hd1 hs.1 hs.2, ccrba_eq model d2 q v hd2 hs.1 hs.2]
      exact congrArg some (ccrbaOutputs_indep model d1 d2 q v hpar hcov)
    · unfold ccrba
      rw [if_neg fun h => hs h.2, if_neg fun h => hs h.2]
  · by_cases hs : q.length = model.nq ∧ v.length = model.nv
    · rw [dccrba_eq model d1 q v hd1 hs.1 hs.2, dccrba_eq model d2 q v hd2 hs.1 hs.2]
      exact congrArg some (dccrbaOutputs_indep model d1 d2 q v hpar hcov)
    · unfold dccrba
      rw [if_neg fun h => hs h.2, if_neg fun h => hs h.2]

theorem chainModel_covered : chainModel.ColumnsCovered :=
  fun k hk => (chainModel_columns.2 k hk).exists

theorem no_cross_call_staleness_witness :
    (computeCentroidalDynamics chainModel (Data.initial 3 2) [1, 2] [3, 4]).isSome = true
    ∧ (ccrba chainModel (Data.used 3 2) [1, 2] [3, 4]).isSome = true
    ∧ (computeCentroidalDynamics chainModel (Data.initial 3 2) [1, 2] [3, 4]).map
          Data.centroidalOutputs
        = (computeCentroidalDynamics chainModel (Data.used 3 2) [1, 2] [3, 4]).map
          Data.centroidalOutputs
    ∧ (computeCentroidalDynamicsA chainModel (Data.initial 3 2) [1, 2] [3, 4] [5, 6]).map
          Data.centroidalOutputsA
        = (computeCentroidalDynamicsA chainModel (Data.used 3 2) [1, 2] [3, 4] [5, 6]).map
          Data.centroidalOutputsA
    ∧ (ccrba chainModel (Data.initial 3 2) [1, 2] [3, 4]).map (Data.ccrbaOutputs chainModel.nv)
        = (ccrba chainModel (Data.used 3 2) [1, 2] [3, 4]).map (Data.ccrbaOutputs chainModel.nv)
    ∧ (dccrba chainModel (Data.initial 3 2) [1, 2] [3, 4]).map (Data.dccrbaOutputs chainModel.nv)
        = (dccrba chainModel (Data.used 3 2) [1, 2] [3, 4]).map
          (Data.dccrbaOutputs chainModel.nv) :=
  ⟨rfl, rfl, no_cross_call_staleness chainModel (Data.initial 3 2) (Data.used 3 2) [1, 2] [3, 4]
    [5, 6] chainModel_parents chainModel_covered rfl rfl⟩

end stale4

section alike

variable {K : Type} [Field K]

/-- A symmetric matrix is determined by its products with vectors. -/
theorem sym3_ext_rhsMult (A B : Symmetric3 K) (h : ∀ a, A.rhsMult a = B.rhsMult a) : A = B := by
  have hx := h ⟨1, 0, 0⟩
  have hy := h ⟨0, 1, 0⟩
  have hz := h ⟨0, 0, 1⟩
  simp only [Symmetric3.rhsMult, Symmetric3.matrix, Matrix3.mulVec, Vector3.mk.injEq, mul_one,
    mul_zero, add_zero, zero_add] at hx hy hz
  ext
  · exact hx.1
  · exact hx.2.1
  · exact hy.2.1
  · exact hx.2.2
  · exact hy.2.2
  · exact hz.2.2

theorem skewSquare_rhsMult (u a : Vector3 K) :
    (Symmetric3.SkewSquare u).rhsMult a = u.cross (u.cross a) := by
  ext <;> simp [Symmetric3.SkewSquare, Symmetric3.rhsMult, Symmetric3.matrix, Matrix3.mulVec,
    Vector3.cross] <;> ring

theorem sym3_add_rhsMult (A B : Symmetric3 K) (a : Vector3 K) :
    (A + B).rhsMult a = A.rhsMult a + B.rhsMult a := by
  ext <;> simp [Symmetric3.rhsMult, Symmetric3.matrix, Matrix3.mulVec] <;> ring

theorem sym3_sub_rhsMult (A B : Symmetric3 K) (a : Vector3 K) :
    (A - B).rhsMult a = A.rhsMult a - B.rhsMult a := by
  ext <;> simp [Symmetric3.rhsMult, Symmetric3.matrix, Matrix3.mulVec] <;> ring

theorem sym3_smul_rhsMult (s : K) (A : Symmetric3 K) (a : Vector3 K) :
    (s • A).rhsMult a = s • A.rhsMult a := by
  ext <;> simp [Symmetric3.rhsMult, Symmetric3.matrix, Matrix3.mulVec] <;> ring

theorem transpose_mul_mulVec (A B : Matrix3 K) (a : Vector3 K) :
    (A.mul B).transpose.mulVec a = B.transpose.mulVec (A.transpose.mulVec a) := by
  ext <;> simp [Matrix3.mulVec, Matrix3.mul, Matrix3.transpose] <;> ring

theorem rotate_rotate (S : Symmetric3 K) (A B : Matrix3 K) :
    (S.rotate B).rotate A = S.rotate (A.mul B) :=
  sym3_ext_rhsMult _ _ fun a => by
    rw [rotate_rhsMult, rotate_rhsMult, rotate_rhsMult, transpose_mul_mulVec, mulVec_mul]

theorem rotate_identity (S : Symmetric3 K) : S.rotate Matrix3.identity = S :=
  sym3_ext_rhsMult _ _ fun a => by
    rw [rotate_rhsMult]
    have e : (Matrix3.identity : Matrix3 K).transpose = Matrix3.identity := by
      ext <;> simp [Matrix3.transpose, Matrix3.identity]
    rw [e, identity_mulVec, identity_mulVec]

theorem rotate_skewSquare (M : SE3 K) (u : Vector3 K) :
    (Symmetric3.SkewSquare u).rotate M.rotation
      = Symmetric3.SkewSquare (M.rotation.mulVec u) :=
  sym3_ext_rhsMult _ _ fun a => by
    rw [rotate_rhsMult, skewSquare_rhsMult, skewSquare_rhsMult, rotation_cross, rotation_cross,
      rotation_mulVec_transpose]

/-- The rotation of a sum of two rotational inertias less a parallel-axis
term. -/
theorem rotate_combination (M : SE3 K) (A B : Symmetric3 K) (s : K) (u : Vector3 K) :
    (A + B - s • Symmetric3.SkewSquare u).rotate M.rotation
      = A.rotate M.rotation + B.rotate M.rotation
        - s • Symmetric3.SkewSquare (M.rotation.mulVec u) :=
  sym3_ext_rhsMult _ _ fun a => by
    rw [rotate_rhsMult, sym3_sub_rhsMult, sym3_add_rhsMult, sym3_smul_rhsMult,
      sym3_sub_rhsMult, sym3_add_rhsMult, sym3_smul_rhsMult, rotate_rhsMult, rotate_rhsMult,
      ← rotate_skewSquare, rotate_rhsMult, mulVec_sub, mulVec_add, mulVec_smul]

theorem inertiaAlike_refl (Y : Inertia K) : Y.Alike Y := ⟨rfl, rfl, fun _ => rfl⟩

theorem inertiaAlike_symm {Ya Yb : Inertia K} (h : Ya.Alike Yb) : Yb.Alike Ya :=
  ⟨h.1.symm, h.2.1.symm, fun hm => (h.2.2 (h.1 ▸ hm)).symm⟩

theorem inertiaAlike_trans {Ya Yb Yc : Inertia K} (h : Ya.Alike Yb) (g : Yb.Alike Yc) :
    Ya.Alike Yc :=
  ⟨h.1.trans g.1, h.2.1.trans g.2.1, fun hm => (h.2.2 hm).trans (g.2.2 (h.1 ▸ hm))⟩

/-- The mass-weighted lever of two inertias that act alike is the same. -/
theorem inertiaAlike_moment {Ya Yb : Inertia K} (h : Ya.Alike Yb) :
    Ya.mass • Ya.lever = Yb.mass • Yb.lever := by
  by_cases hm : Ya.mass = 0
  · rw [← h.1, hm, zero_smul, zero_smul]
  · rw [← h.1, h.2.2 hm]

/-- Inertias that act alike have the same products. -/
theorem inertiaAlike_mult {Ya Yb : Inertia K} (h : Ya.Alike Yb) (m : Motion K) :
    Ya.mult m = Yb.mult m := by
  by_cases hm : Ya.mass = 0
  · have hb : Yb.mass = 0 := h.1 ▸ hm
    simp only [Inertia.mult, hm, hb, h.2.1, zero_smul, cross_zero_right]
  · have e : Ya = Yb := Inertia.ext h.1 (h.2.2 hm) h.2.1
    rw [e]

/-- Sums of inertias that act alike are equal. -/
theorem inertiaAlike_add {Ya Ya' Yb Yb' : Inertia K} (ha : Ya.Alike Ya') (hb : Yb.Alike Yb') :
    Ya + Yb = Ya' + Yb' := by
  have ma := inertiaAlike_moment ha
  have mb := inertiaAlike_moment hb
  simp only [inertia_add_def, Inertia.add]
  refine Inertia.ext ?_ ?_ ?_
  · show Ya.mass + Yb.mass = Ya'.mass + Yb'.mass
    rw [ha.1, hb.1]
  · show (1 / (Ya.mass + Yb.mass)) • (Ya.mass • Ya.lever + Yb.mass • Yb.lever)
      = (1 / (Ya'.mass + Yb'.mass)) • (Ya'.mass • Ya'.lever + Yb'.mass • Yb'.lever)
    rw [ma, mb, ha.1, hb.1]
  · show Ya.inertia + Yb.inertia
        - (Ya.mass * Yb.mass * (1 / (Ya.mass + Yb.mass))) • Symmetric3.SkewSquare
            (Ya.lever - Yb.lever)
      = Ya'.inertia + Yb'.inertia
        - (Ya'.mass * Yb'.mass * (1 / (Ya'.mass + Yb'.mass))) • Symmetric3.SkewSquare
            (Ya'.lever - Yb'.lever)
    by_cases h0 : Ya.mass = 0 ∨ Yb.mass = 0
    · have z : Ya.mass * Yb.mass = 0 := mul_eq_zero.mpr h0
      have z' : Ya'.mass * Yb'.mass = 0 := by rw [← ha.1, ← hb.1, z]
      have zs : ∀ X : Symmetric3 K, (0 : K) • X = 0 := fun X => by
        ext <;> simp
      simp only [z, z', zero_mul, zs, ha.2.1, hb.2.1]
    · push_neg at h0
      rw [← ha.2.2 h0.1, ← hb.2.2 h0.2, ← ha.1, ← hb.1, ← ha.2.1, ← hb.2.1]

theorem inertiaAlike_se3Action (M : SE3 K) {Ya Yb : Inertia K} (h : Ya.Alike Yb) :
    (Inertia.se3Action M Ya).Alike (Inertia.se3Action M Yb) :=
  ⟨h.1, by show Ya.inertia.rotate _ = Yb.inertia.rotate _; rw [h.2.1],
    fun hm => by
      show M.translation + M.rotation.mulVec Ya.lever = M.translation + M.rotation.mulVec Yb.lever
      rw [h.2.2 hm]⟩

theorem inertia_se3Action_one (Y : Inertia K) : Inertia.se3Action (1 : SE3 K) Y = Y :=
  Inertia.ext rfl (by simp [Inertia.se3Action]) (rotate_identity _)

theorem inertia_se3Action_mul (A B : SE3 K) (Y : Inertia K) :
    Inertia.se3Action (A * B) Y = Inertia.se3Action A (Inertia.se3Action B Y) :=
  Inertia.ext rfl
    (by simp only [Inertia.se3Action, se3_mul_translation, se3_mul_rotation, mulVec_mul,
          mulVec_add, add_assoc])
    (rotate_rotate _ _ _).symm

/-- The action of a rigid transform on a sum of inertias acts like the sum of
the transported inertias. -/
theorem inertia_se3Action_add (M : SE3 K) (Ya Yb : Inertia K) :
    (Inertia.se3Action M (Ya + Yb)).Alike (Inertia.se3Action M Ya + Inertia.se3Action M Yb) := by
  refine ⟨rfl, ?_, fun hm => ?_⟩
  · show (Ya.inertia + Yb.inertia
        - (Ya.mass * Yb.mass * (1 / (Ya.mass + Yb.mass))) • Symmetric3.SkewSquare
            (Ya.lever - Yb.lever)).rotate M.rotation
      = Ya.inertia.rotate M.rotation + Yb.inertia.rotate M.rotation
        - (Ya.mass * Yb.mass * (1 / (Ya.mass + Yb.mass))) • Symmetric3.SkewSquare
            ((M.translation + M.rotation.mulVec Ya.lever)
              - (M.translation + M.rotation.mulVec Yb.lever))
    rw [rotate_combination, mulVec_sub, add_sub_add_left_eq_sub]
  · have hm' : Ya.mass + Yb.mass ≠ 0 := hm
    show M.translation + M.rotation.mulVec
          ((1 / (Ya.mass + Yb.mass)) • (Ya.mass • Ya.lever + Yb.mass • Yb.lever))
      = (1 / (Ya.mass + Yb.mass)) • (Ya.mass • (M.translation + M.rotation.mulVec Ya.lever)
          + Yb.mass • (M.translation + M.rotation.mulVec Yb.lever))
    rw [mulVec_smul, mulVec_add, mulVec_smul, mulVec_smul]
    simp only [smul_add]
    have e : (1 / (Ya.mass + Yb.mass)) • Ya.mass • M.translation
        + (1 / (Ya.mass + Yb.mass)) • Yb.mass • M.translation = M.translation := by
      rw [smul_smul, smul_smul, ← add_smul, ← mul_add, one_div, inv_mul_cancel₀ hm', one_smul]
    conv_lhs => rw [← e]
    abel

end alike

section agree

variable {K : Type} [Field K]

/-- A quantity that no step of a loop changes is unchanged by the loop. -/
theorem forUp_field {σ α : Type} (body : Nat → σ → σ) (f : σ → α)
    (h : ∀ i s, f (body i s) = f s) :
    ∀ (count start : Nat) (s : σ), f (forUp body start count s) = f s := by
  intro count
  induction count with
  | zero => intro start s; rfl
  | succ n ih =>
    intro start s
    show f (forUp body (start + 1) n (body start s)) = f s
    rw [ih, h]

theorem fkZero_Ag (model : Model K) (q : List K) (i : Nat) (s : Data K) :
    (ForwardKinematicZeroStep.algo model q i s).Ag = s.Ag := by
  unfold ForwardKinematicZeroStep.algo
  by_cases hp : model.parents i > 0 <;> simp [hp]

theorem fkFirst_Ag (model : Model K) (q v : List K) (i : Nat) (s : Data K) :
    (ForwardKinematicFirstStep.algo model q v i s).Ag = s.Ag := by
  unfold ForwardKinematicFirstStep.algo
  by_cases hp : model.parents i > 0 <;> simp [hp]

theorem ccrbaStart_Ag (model : Model K) (data : Data K) (q : List K) :
    (ccrbaStart model data q).Ag = data.Ag := by
  have e1 := forUp_field
    (fun i (d : Data K) => { d with Ycrb := Function.update d.Ycrb i (model.inertias i) })
    (fun s : Data K => s.Ag) (fun _ _ => rfl) (model.njoints - 1) 1
    { forwardKinematics model data q with
      Ycrb := Function.update (forwardKinematics model data q).Ycrb 0 Inertia.Zero }
  have e2 := forUp_field (ForwardKinematicZeroStep.algo model q) (fun s : Data K => s.Ag)
    (fkZero_Ag model q) (model.njoints - 1) 1 data
  exact e1.trans e2

theorem dccrbaStart_Ag (model : Model K) (data : Data K) (q v : List K) :
    (dccrbaStart model data q v).Ag = data.Ag := by
  have e1 := forUp_field (dccrbaInitStep model) (fun s : Data K => s.Ag) (fun _ _ => rfl)
    (model.njoints - 1) 1
    { forwardKinematicsV model data q v with
      oYcrb := Function.update (forwardKinematicsV model data q v).oYcrb 0 Inertia.Zero }
  have e2 := forUp_field (ForwardKinematicFirstStep.algo model q v) (fun s : Data K => s.Ag)
    (fkFirst_Ag model q v) (model.njoints - 1) 1 data
  exact e1.trans e2

/-- The backward loops of `ccrba` and `dccrba`, run side by side from the same
Data: they write the same matrix `Ag`, and the world-frame composite inertia
`oYcrb[j]` of `dccrba` acts like the composite inertia `Ycrb[j]` of `ccrba`
transported to the world frame. -/
theorem loops_agree (model : Model K) (data : Data K) (q v : List K)
    (hpar : model.TreeOrdered) :
    (ccrbaLoops model data q).Ag = (dccrbaLoops model data q v).Ag
    ∧ ∀ j, j ≤ model.njoints - 1 →
        ((dccrbaLoops model data q v).oYcrb j).Alike
          (Inertia.se3Action (model.oMi q j) ((ccrbaLoops model data q).Ycrb j)) := by
  obtain ⟨a0, a1⟩ := ccrbaStart_spec model data q hpar
  obtain ⟨b0, b1⟩ := dccrbaStart_spec model data q v hpar
  have key := forDown_rel (CcrbaBackwardStep.algo model) (DCcrbaBackwardStep.algo model)
    (fun _ (s t : Data K) =>
      s.Ag = t.Ag
      ∧ (∀ j, 1 ≤ j → j < model.njoints →
          s.liMi j = model.liMi q j ∧ s.oMi j = model.oMi q j ∧ t.oMi j = model.oMi q j
          ∧ (s.joints j).S = (t.joints j).S)
      ∧ ∀ j, j ≤ model.njoints - 1 →
          (t.oYcrb j).Alike (Inertia.se3Action (model.oMi q j) (s.Ycrb j)))
    (model.njoints - 1) (ccrbaStart model data q) (dccrbaStart model data q v) ?_ ?_
  · exact ⟨key.1, key.2.2⟩
  · refine ⟨by rw [ccrbaStart_Ag, dccrbaStart_Ag], fun j h1 hn => ?_, fun j hj => ?_⟩
    · obtain ⟨x1, x2, x3, -⟩ := a1 j h1 hn
      obtain ⟨y1, y2, -⟩ := b1 j h1 hn
      exact ⟨x1, x2, y1, x3.trans y2.symm⟩
    · by_cases h0 : j = 0
      · subst h0
        rw [a0, b0, model_oMi_zero, inertia_se3Action_one]
        exact inertiaAlike_refl _
      · rw [(a1 j (by omega) (by omega)).2.2.2, (b1 j (by omega) (by omega)).2.2.2.1]
        exact inertiaAlike_refl _
  · intro i s t hi ⟨hA, hF, hY⟩
    have hin : i + 1 < model.njoints := by omega
    have hp := hpar (i + 1) (by omega) hin
    have hne : model.parents (i + 1) ≠ i + 1 := by omega
    obtain ⟨f1, f2, f3, f4⟩ := hF (i + 1) (by omega) hin
    obtain ⟨t1, t2, t3, t4, -⟩ := dStep_fields model (i + 1) t
    have hYi := hY (i + 1) (by omega)
    refine ⟨?_, fun j h1 hn => ?_, fun j hj => ?_⟩
    · rw [ccrbaStep_Ag model (i + 1) s (Ne.symm hne)]
      obtain ⟨tb, tr⟩ := dStep_cols model (i + 1) t hne
      funext k
      unfold JointModel.setJointCols
      by_cases hb : (model.joints (i + 1)).idx_v ≤ k
          ∧ k < (model.joints (i + 1)).idx_v + (model.joints (i + 1)).nv
      · have hc : k - (model.joints (i + 1)).idx_v < (model.joints (i + 1)).nv := by omega
        have e := (tb _ hc).1
        rw [Nat.add_sub_cancel' hb.1] at e
        rw [if_pos hb, e, f2, f3, f4, inertiaAlike_mult hYi, inertia_se3Action_mult]
      · rw [if_neg hb, (tr k hb).1, hA]
    · rw [ccrbaStep_liMi, ccrbaStep_oMi, ccrbaStep_S, t1, t3]
      exact hF j h1 hn
    · rw [ccrbaStep_Ycrb, t4]
      by_cases hjp : j = model.parents (i + 1)
      · subst hjp
        rw [Function.update_same, Function.update_same]
        have e : t.oYcrb (model.parents (i + 1)) + t.oYcrb (i + 1)
            = Inertia.se3Action (model.oMi q (model.parents (i + 1)))
                (s.Ycrb (model.parents (i + 1)))
              + Inertia.se3Action (model.oMi q (model.parents (i + 1)))
                (Inertia.se3Action (s.liMi (i + 1)) (s.Ycrb (i + 1))) := by
          rw [← inertia_se3Action_mul, f1, ← model_oMi_succ model q hpar (i + 1) (by omega) hin]
          exact inertiaAlike_add (hY _ hj) hYi
        rw [e]
        exact inertiaAlike_symm (inertia_se3Action_add _ _ _)
      · rw [Function.update_noteq hjp, Function.update_noteq hjp]
        exact hY j hj

end agree

section c11

variable {K : Type} [Field K]

end c11

section c12

variable {K : Type} [Field K]

theorem cdForwardA_extends (model : Model K) (q v a : List K) (i : Nat) (t : Data K)
    (x : Nat → Motion K) (y : Nat → Force K) (z : Force K) :
    ∃ x' y', CentroidalDynamicsForwardStepA.algo model q v a i (t.withAcceleration x y z)
      = (CentroidalDynamicsForwardStep.algo model q v i t).withAcceleration x' y' z := by
  by_cases hp : model.parents i > 0
  · simp only [CentroidalDynamicsForwardStepA.algo, CentroidalDynamicsForwardStep.algo, hp,
      if_true, Data.withAcceleration]
    exact ⟨_, _, rfl⟩
  · simp only [CentroidalDynamicsForwardStepA.algo, CentroidalDynamicsForwardStep.algo, hp,
      if_false, Data.withAcceleration]
    exact ⟨_, _, rfl⟩

theorem cdBackwardA_extends (model : Model K) (i : Nat) (t : Data K)
    (x : Nat → Motion K) (y : Nat → Force K) (z : Force K) :
    ∃ y', centroidalBackwardStepA model i (t.withAcceleration x y z)
      = (centroidalBackwardStep model i t).withAcceleration x y' z :=
  ⟨_, rfl⟩

/-- The state of the acceleration variant after its two loops is the state of
the velocity variant with other values of `a` and `f`. -/
theorem centroidalLoopsA_extends (model : Model K) (data : Data K) (q v a : List K) :
    ∃ x y, centroidalLoopsA model data q v a
      = (centroidalLoops model data q v).withAcceleration x y data.dhg := by
  have fwd := forUp_rel (CentroidalDynamicsForwardStepA.algo model q v a)
    (CentroidalDynamicsForwardStep.algo model q v)
    (fun _ s t => ∃ x y, s = t.withAcceleration x y data.dhg)
    (model.njoints - 1) 1 data data ⟨data.a, data.f, rfl⟩
    (fun i s t _ _ ⟨x, y, e⟩ => by
      subst e
      exact cdForwardA_extends model q v a i t x y data.dhg)
  obtain ⟨x, y, e⟩ := fwd
  have bwd := forDown_rel (centroidalBackwardStepA model) (centroidalBackwardStep model)
    (fun _ s t => ∃ x y, s = t.withAcceleration x y data.dhg)
    (model.njoints - 1) (centroidalStartA model data q v a) (centroidalStart model data q v)
    (by
      unfold centroidalStartA centroidalStart
      rw [e]
      exact ⟨_, _, rfl⟩)
    (fun i s t _ ⟨x, y, e⟩ => by
      subst e
      obtain ⟨y', e'⟩ := cdBackwardA_extends model (i + 1) t x y data.dhg
      exact ⟨x, y', e'⟩)
  exact bwd

end c12

section c12b

variable {K : Type} [Field K]

/-- C12. The acceleration variant extends the velocity-only variant: on the
same Data, `q` and `v`, and for every `a` of the right size,
`computeCentroidalDynamics(model, data, q, v, a)` leaves the same `mass[0]`,
`com[0]`, per-joint `v[i]`, `h[i]` and `hg` as
`computeCentroidalDynamics(model, data, q, v)` (the two results differ in `a`,
`f` and `dhg` only); the first returns `dhg`, the second `hg`. -/
theorem acceleration_extends_velocity (model : Model K) (data : Data K) (q v a : List K)
    (hcheck : model.check data = true) (hq : q.length = model.nq)
    (hv : v.length = model.nv) (ha : a.length = model.nv) :
    ∃ r ra, computeCentroidalDynamics model data q v = some r
      ∧ computeCentroidalDynamicsA model data q v a = some ra
      ∧ ra.mass 0 = r.mass 0 ∧ ra.com 0 = r.com 0 ∧ ra.v = r.v ∧ ra.h = r.h ∧ ra.hg = r.hg
      ∧ (∃ x y z, ra = r.withAcceleration x y z)
      ∧ centroidalMomentum model data q v = some r.hg
      ∧ centroidalMomentumRate model data q v a = some ra.dhg := by
  have e1 := computeCentroidalDynamics_eq model data q v hcheck hq hv
  have e2 := computeCentroidalDynamicsA_eq model data q v a hcheck hq hv ha
  obtain ⟨x, y, e⟩ := centroidalLoopsA_extends model data q v a
  have key : ∃ z, centroidalFinishA (centroidalLoopsA model data q v a)
      = (centroidalFinish (centroidalLoops model data q v)).withAcceleration x y z := by
    rw [e]
    exact ⟨_, rfl⟩
  obtain ⟨z, hz⟩ := key
  refine ⟨_, _, e1, e2, ?_, ?_, ?_, ?_, ?_, ⟨x, y, z, hz⟩, ?_, ?_⟩
  · rw [hz]; rfl
  · rw [hz]; rfl
  · rw [hz]; rfl
  · rw [hz]; rfl
  · rw [hz]; rfl
  · unfold centroidalMomentum
    rw [e1]
    rfl
  · unfold centroidalMomentumRate
    rw [e2]
    rfl

theorem acceleration_extends_velocity_witness :
    ∃ r ra, computeCentroidalDynamics chainModel (Data.used 3 2) [1, 2] [3, 4] = some r
      ∧ computeCentroidalDynamicsA chainModel (Data.used 3 2) [1, 2] [3, 4] [5, 6] = some ra
      ∧ ra.mass 0 = r.mass 0 ∧ ra.com 0 = r.com 0 ∧ ra.v = r.v ∧ ra.h = r.h ∧ ra.hg = r.hg
      ∧ (∃ x y z, ra = r.withAcceleration x y z)
      ∧ centroidalMomentum chainModel (Data.used 3 2) [1, 2] [3, 4] = some r.hg
      ∧ centroidalMomentumRate chainModel (Data.used 3 2) [1, 2] [3, 4] [5, 6] = some ra.dhg :=
  acceleration_extends_velocity chainModel (Data.used 3 2) [1, 2] [3, 4] [5, 6] rfl rfl rfl rfl

end c12b

section c13

variable {K : Type} [Field K]

theorem forDown_field {σ α : Type} (body : Nat → σ → σ) (f : σ → α)
    (h : ∀ i s, f (body i s) = f s) :
    ∀ (n : Nat) (s : σ), f (forDown body n s) = f s := by
  intro n
  induction n with
  | zero => intro s; rfl
  | succ n ih =>
    intro s
    show f (forDown body n (body (n + 1) s)) = f s
    rw [ih, h]

/-- The composition of the placements along the path to joint `i` only
depends on the placements of the joints `1..n`. -/
theorem pathPlacement_congr (parents : Nat → Nat) (L L' : Nat → SE3 K) (n : Nat)
    (hpar : ∀ i, 1 ≤ i → i ≤ n → parents i < i)
    (h : ∀ j, 1 ≤ j → j ≤ n → L j = L' j) :
    ∀ i, i ≤ n → pathPlacement parents L i = pathPlacement parents L' i := by
  intro i
  induction i using Nat.strong_induction_on with
  | _ i ih =>
    intro hi
    by_cases h0 : i = 0
    · subst h0; rfl
    · have hp := hpar i (by omega) hi
      rw [pathPlacement_succ parents L n hpar i (by omega) hi,
        pathPlacement_succ parents L' n hpar i (by omega) hi,
        ih (parents i) hp (by omega), h i (by omega) hi]

/-- The backward loop and the end of `computeCentroidalDynamics` keep the
placements and velocities of the forward loop. -/
theorem centroidalFinish_frame (model : Model K) (data : Data K) (q v : List K) :
    (centroidalFinish (centroidalLoops model data q v)).liMi
        = (forUp (CentroidalDynamicsForwardStep.algo model q v) 1 (model.njoints - 1) data).liMi
    ∧ (centroidalFinish (centroidalLoops model data q v)).v
        = (forUp (CentroidalDynamicsForwardStep.algo model q v) 1 (model.njoints - 1) data).v
    ∧ (centroidalFinish (centroidalLoops model data q v)).h
        = (centroidalLoops model data q v).h := by
  have e := forDown_field (centroidalBackwardStep model) (fun s : Data K => (s.liMi, s.v))
    (fun _ _ => rfl) (model.njoints - 1) (centroidalStart model data q v)
  exact ⟨congrArg Prod.fst e, congrArg Prod.snd e, rfl⟩

theorem centroidalFinishA_frame (model : Model K) (data : Data K) (q v a : List K) :
    (centroidalFinishA (centroidalLoopsA model data q v a)).liMi
        = (forUp (CentroidalDynamicsForwardStepA.algo model q v a) 1
            (model.njoints - 1) data).liMi
    ∧ (centroidalFinishA (centroidalLoopsA model data q v a)).v
        = (forUp (CentroidalDynamicsForwardStepA.algo model q v a) 1
            (model.njoints - 1) data).v
    ∧ (centroidalFinishA (centroidalLoopsA model data q v a)).a
        = (forUp (CentroidalDynamicsForwardStepA.algo model q v a) 1
            (model.njoints - 1) data).a
    ∧ (centroidalFinishA (centroidalLoopsA model data q v a)).h
        = (centroidalLoopsA model data q v a).h
    ∧ (centroidalFinishA (centroidalLoopsA model data q v a)).f
        = (centroidalLoopsA model data q v a).f := by
  have e := forDown_field (centroidalBackwardStepA model)
    (fun s : Data K => (s.liMi, s.v, s.a))
    (fun _ _ => rfl) (model.njoints - 1) (centroidalStartA model data q v a)
  exact ⟨congrArg Prod.fst e, congrArg (fun p => p.2.1) e, congrArg (fun p => p.2.2) e, rfl, rfl⟩

end c13

section c13b

variable {K : Type} [Field K]

/-- C13. Backward accumulation yields the world-frame total: for every model
with `parent(i) < i`, after `computeCentroidalDynamics` the root momentum
`h[0]` is the sum over the joints `i >= 1` of `oMi_i.act(inertias[i] * v[i])`,
with `oMi_i` the composition of the relative placements `liMi` along the path
from the root to `i`; in the acceleration variant the same holds for `h[0]`
and for `f[0]` with the force residuals
`inertias[i] * a[i] + v[i] x (inertias[i] * v[i])` of the bodies. -/
theorem backward_accumulation (model : Model K) (data : Data K) (q v a : List K)
    (hpar : model.TreeOrdered)
    (hcheck : model.check data = true) (hq : q.length = model.nq)
    (hv : v.length = model.nv) (ha : a.length = model.nv) :
    ∃ r ra, computeCentroidalDynamics model data q v = some r
      ∧ computeCentroidalDynamicsA model data q v a = some ra
      ∧ r.h 0 = ∑ i in Finset.Ico 1 model.njoints,
          Force.se3Action (pathPlacement model.parents r.liMi i)
            ((model.inertias i).mult (r.v i))
      ∧ ra.h 0 = ∑ i in Finset.Ico 1 model.njoints,
          Force.se3Action (pathPlacement model.parents ra.liMi i)
            ((model.inertias i).mult (ra.v i))
      ∧ ra.f 0 = ∑ i in Finset.Ico 1 model.njoints,
          Force.se3Action (pathPlacement model.parents ra.liMi i)
            ((model.inertias i).mult (ra.a i)
              + (ra.v i).crossForce ((model.inertias i).mult (ra.v i))) := by
  have hpar' : ∀ i, 1 ≤ i → i ≤ model.njoints - 1 → model.parents i < i :=
    fun i h1 h2 => hpar i h1 (by omega)
  refine ⟨_, _, computeCentroidalDynamics_eq model data q v hcheck hq hv,
    computeCentroidalDynamicsA_eq model data q v a hcheck hq hv ha, ?_, ?_, ?_⟩
  · obtain ⟨f1, f2, f3⟩ := centroidalFinish_frame model data q v
    obtain ⟨-, -, c3⟩ := centroidalLoops_closed model data q v hpar
    have hfs := cdForward_spec model q v _ (cdForward_fields model q v) (model.njoints - 1)
      hpar' data
    rw [f1, f2, f3, c3]
    refine Finset.sum_congr rfl fun j hj => ?_
    have hj' := Finset.mem_Ico.mp hj
    have e : model.oMi q j = pathPlacement model.parents
        (forUp (CentroidalDynamicsForwardStep.algo model q v) 1 (model.njoints - 1) data).liMi
        j :=
      pathPlacement_congr model.parents _ _ (model.njoints - 1) hpar'
        (fun k h1 hk => ((hfs k h1 hk).1).symm) j (by omega)
    rw [e]
  · obtain ⟨f1, f2, -, f4, -⟩ := centroidalFinishA_frame model data q v a
    obtain ⟨-, -, c3⟩ := centroidalLoopsA_closed model data q v a hpar
    have hfs := cdForward_spec model q v _ (cdForwardA_fields model q v a) (model.njoints - 1)
      hpar' data
    rw [f1, f2, f4, c3]
    refine Finset.sum_congr rfl fun j hj => ?_
    have hj' := Finset.mem_Ico.mp hj
    have e : model.oMi q j = pathPlacement model.parents
        (forUp (CentroidalDynamicsForwardStepA.algo model q v a) 1
          (model.njoints - 1) data).liMi j :=
      pathPlacement_congr model.parents _ _ (model.njoints - 1) hpar'
        (fun k h1 hk => ((hfs k h1 hk).1).symm) j (by omega)
    rw [e]
  · obtain ⟨f1, f2, f3, -, f5⟩ := centroidalFinishA_frame model data q v a
    have hfs := cdForward_spec model q v _ (cdForwardA_fields model q v a) (model.njoints - 1)
      hpar' data
    have hfa := cdForwardA_spec model q v a (model.njoints - 1) hpar' data
    rw [f1, f2, f3, f5, centroidalLoopsA_f model data q v a hpar]
    refine Finset.sum_congr rfl fun j hj => ?_
    have hj' := Finset.mem_Ico.mp hj
    have e : model.oMi q j = pathPlacement model.parents
        (forUp (CentroidalDynamicsForwardStepA.algo model q v a) 1
          (model.njoints - 1) data).liMi j :=
      pathPlacement_congr model.parents _ _ (model.njoints - 1) hpar'
        (fun k h1 hk => ((hfs k h1 hk).1).symm) j (by omega)
    rw [e, (hfa j hj'.1 (by omega)).2, (hfs j hj'.1 (by omega)).2.2.2.2]

theorem backward_accumulation_witness :
    ∃ r ra, computeCentroidalDynamics chainModel (Data.used 3 2) [1, 2] [3, 4] = some r
      ∧ computeCentroidalDynamicsA chainModel (Data.used 3 2) [1, 2] [3, 4] [5, 6] = some ra
      ∧ r.h 0 = ∑ i in Finset.Ico 1 chainModel.njoints,
          Force.se3Action (pathPlacement chainModel.parents r.liMi i)
            ((chainModel.inertias i).mult (r.v i))
      ∧ ra.h 0 = ∑ i in Finset.Ico 1 chainModel.njoints,
          Force.se3Action (pathPlacement chainModel.parents ra.liMi i)
            ((chainModel.inertias i).mult (ra.v i))
      ∧ ra.f 0 = ∑ i in Finset.Ico 1 chainModel.njoints,
          Force.se3Action (pathPlacement chainModel.parents ra.liMi i)
            ((chainModel.inertias i).mult (ra.a i)
              + (ra.v i).crossForce ((chainModel.inertias i).mult (ra.v i))) :=
  backward_accumulation chainModel (Data.used 3 2) [1, 2] [3, 4] [5, 6] chainModel_parents
    rfl rfl rfl rfl

end c13b

section c14

variable {K : Type} [Field K]

/-- C14. Frame shift to the center of mass: a call of `computeCentroidalDynamics`
that passes its checks leaves `hg.linear = h[0].linear` and
`hg.angular = h[0].angular + h[0].linear x com[0]`, where `h[0]` is the
momentum aggregated at the root and `com[0]` the center of mass after its
division by `mass[0]`; the acceleration variant does the same for `hg` and
obtains `dhg` from the aggregated force residual `f[0]` by the same shift. -/
theorem frame_shift (model : Model K) (data : Data K) (q v a : List K)
    (hcheck : model.check data = true) (hq : q.length = model.nq)
    (hv : v.length = model.nv) (ha : a.length = model.nv) :
    ∃ r ra, computeCentroidalDynamics model data q v = some r
      ∧ computeCentroidalDynamicsA model data q v a = some ra
      ∧ r.com 0 = (centroidalLoops model data q v).com 0 / r.mass 0
      ∧ r.hg.linear = (r.h 0).linear
      ∧ r.hg.angular = (r.h 0).angular + (r.h 0).linear.cross (r.com 0)
      ∧ ra.com 0 = (centroidalLoopsA model data q v a).com 0 / ra.mass 0
      ∧ ra.hg.linear = (ra.h 0).linear
      ∧ ra.hg.angular = (ra.h 0).angular + (ra.h 0).linear.cross (ra.com 0)
      ∧ ra.dhg.linear = (ra.f 0).linear
      ∧ ra.dhg.angular = (ra.f 0).angular + (ra.f 0).linear.cross (ra.com 0) := by
  refine ⟨_, _, computeCentroidalDynamics_eq model data q v hcheck hq hv,
    computeCentroidalDynamicsA_eq model data q v a hcheck hq hv ha, ?_, ?_, ?_, ?_, ?_, ?_, ?_, ?_⟩
  · rw [centroidalFinish_com, centroidalFinish_mass]
  · rw [centroidalFinish_hg]; rfl
  · rw [centroidalFinish_hg, centroidalFinish_com]; rfl
  · rw [centroidalFinishA_com, centroidalFinishA_mass]
  · rw [centroidalFinishA_hg]; rfl
  · rw [centroidalFinishA_hg, centroidalFinishA_com]; rfl
  · rw [centroidalFinishA_dhg]; rfl
  · rw [centroidalFinishA_dhg, centroidalFinishA_com]; rfl

theorem frame_shift_witness :
    ∃ r ra, computeCentroidalDynamics chainModel (Data.used 3 2) [1, 2] [3, 4] = some r
      ∧ computeCentroidalDynamicsA chainModel (Data.used 3 2) [1, 2] [3, 4] [5, 6] = some ra
      ∧ r.com 0 = (centroidalLoops chainModel (Data.used 3 2) [1, 2] [3, 4]).com 0 / r.mass 0
      ∧ r.hg.linear = (r.h 0).linear
      ∧ r.hg.angular = (r.h 0).angular + (r.h 0).linear.cross (r.com 0)
      ∧ ra.com 0
          = (centroidalLoopsA chainModel (Data.used 3 2) [1, 2] [3, 4] [5, 6]).com 0 / ra.mass 0
      ∧ ra.hg.linear = (ra.h 0).linear
      ∧ ra.hg.angular = (ra.h 0).angular + (ra.h 0).linear.cross (ra.com 0)
      ∧ ra.dhg.linear = (ra.f 0).linear
      ∧ ra.dhg.angular = (ra.f 0).angular + (ra.f 0).linear.cross (ra.com 0) :=
  frame_shift chainModel (Data.used 3 2) [1, 2] [3, 4] [5, 6] rfl rfl rfl rfl

end c14

section c15

variable {K : Type} [Field K]

/-- C15. Velocity propagation in the forward step. The step of joint `i`, on
any Data `d`, computes the joint's transform `M_i` and own velocity `vJ_i`
and leaves `liMi[i] = jointPlacements[i] * M_i`,
`v[i] = liMi[i].actInv(v[parent(i)]) + vJ_i` when `parent(i) > 0` and
`v[i] = vJ_i` when `parent(i) = 0`, and `h[i] = inertias[i] * v[i]`. With
`parent(i) < i`, the same equations hold between the values that the whole
forward pass leaves, for every joint `i >= 1`. -/
theorem velocity_propagation (model : Model K) (data : Data K) (q v : List K)
    (hpar : model.TreeOrdered) :
    (∀ i d,
      ((CentroidalDynamicsForwardStep.algo model q v i d).joints i).M
          = (model.joints i).jointTransform q
      ∧ ((CentroidalDynamicsForwardStep.algo model q v i d).joints i).v
          = (model.joints i).jointVelocity q v
      ∧ (CentroidalDynamicsForwardStep.algo model q v i d).liMi i
          = model.jointPlacements i * (model.joints i).jointTransform q
      ∧ (CentroidalDynamicsForwardStep.algo model q v i d).v i
          = (if model.parents i > 0 then
              Motion.se3ActionInverse ((CentroidalDynamicsForwardStep.algo model q v i d).liMi i)
                  (d.v (model.parents i))
                + (model.joints i).jointVelocity q v
            else (model.joints i).jointVelocity q v)
      ∧ (CentroidalDynamicsForwardStep.algo model q v i d).h i
          = (model.inertias i).mult ((CentroidalDynamicsForwardStep.algo model q v i d).v i))
    ∧ ∀ i, 1 ≤ i → i < model.njoints →
      (forUp (CentroidalDynamicsForwardStep.algo model q v) 1 (model.njoints - 1) data).liMi i
          = model.jointPlacements i * (model.joints i).jointTransform q
      ∧ (forUp (CentroidalDynamicsForwardStep.algo model q v) 1 (model.njoints - 1) data).v i
          = (if model.parents i > 0 then
              Motion.se3ActionInverse
                  ((forUp (CentroidalDynamicsForwardStep.algo model q v) 1
                    (model.njoints - 1) data).liMi i)
                  ((forUp (CentroidalDynamicsForwardStep.algo model q v) 1
                    (model.njoints - 1) data).v (model.parents i))
                + (model.joints i).jointVelocity q v
            else (model.joints i).jointVelocity q v)
      ∧ (forUp (CentroidalDynamicsForwardStep.algo model q v) 1 (model.njoints - 1) data).h i
          = (model.inertias i).mult
              ((forUp (CentroidalDynamicsForwardStep.algo model q v) 1
                (model.njoints - 1) data).v i) := by
  constructor
  · intro i d
    refine ⟨?_, ?_, ?_, ?_, ?_⟩
    · rw [cdForward_joints, Function.update_same]; rfl
    · rw [cdForward_joints, Function.update_same]; rfl
    · rw [cdForward_liMi, Function.update_same]
    · rw [cdForward_v, cdForward_liMi, Function.update_same, Function.update_same]
    · rw [cdForward_h, Function.update_same]
  · intro i h1 hn
    obtain ⟨e1, -, -, e4, e5⟩ := cdForward_spec model q v _ (cdForward_fields model q v)
      (model.njoints - 1) (fun i h1 h2 => hpar i h1 (by omega)) data i h1 (by omega)
    refine ⟨e1, ?_, e5⟩
    rw [e1]
    exact e4

theorem velocity_propagation_witness :
    (forUp (CentroidalDynamicsForwardStep.algo chainModel [1, 2] [3, 4]) 1
        (chainModel.njoints - 1) (Data.used 3 2)).v 2
      = Motion.se3ActionInverse
          ((forUp (CentroidalDynamicsForwardStep.algo chainModel [1, 2] [3, 4]) 1
            (chainModel.njoints - 1) (Data.used 3 2)).liMi 2)
          ((forUp (CentroidalDynamicsForwardStep.algo chainModel [1, 2] [3, 4]) 1
            (chainModel.njoints - 1) (Data.used 3 2)).v 1)
        + (chainModel.joints 2).jointVelocity [1, 2] [3, 4] :=
  ((velocity_propagation chainModel (Data.used 3 2) [1, 2] [3, 4] chainModel_parents).2 2
    (by decide) (by decide)).2.1

end c15

section c16

variable {K : Type} [Field K]

/-- C16. Acceleration and force residual in the forward step of the
acceleration variant: with `parent(i) < i`, for every joint `i >= 1` the step
of joint `i` on any Data `d`, and likewise the whole forward pass, leave
`a[i] = S_i * a_i + c_i + (v[i] ^ vJ_i)`, plus `liMi[i].actInv(a[parent(i)])`
only when `parent(i) > 0`, where `a_i` is the slice of `a` of the joint, `c_i`
its bias and `vJ_i` its own velocity; and
`f[i] = inertias[i] * a[i] + v[i] x h[i]`. -/
theorem acceleration_propagation (model : Model K) (data : Data K) (q v a : List K)
    (hpar : model.TreeOrdered) :
    ∀ i, 1 ≤ i → i < model.njoints →
      (∀ d,
        (CentroidalDynamicsForwardStepA.algo model q v a i d).a i
          = mulCols ((model.joints i).jointSubspace q) (model.joints i).nv
                ((model.joints i).jointVelocitySelector a)
              + (model.joints i).jointBias q v
              + ((CentroidalDynamicsForwardStepA.algo model q v a i d).v i).cross
                  ((model.joints i).jointVelocity q v)
              + (if model.parents i > 0 then
                  Motion.se3ActionInverse
                    ((CentroidalDynamicsForwardStepA.algo model q v a i d).liMi i)
                    (d.a (model.parents i))
                else 0)
        ∧ (CentroidalDynamicsForwardStepA.algo model q v a i d).f i
          = (model.inertias i).mult ((CentroidalDynamicsForwardStepA.algo model q v a i d).a i)
            + ((CentroidalDynamicsForwardStepA.algo model q v a i d).v i).crossForce
                ((CentroidalDynamicsForwardStepA.algo model q v a i d).h i))
      ∧ (forUp (CentroidalDynamicsForwardStepA.algo model q v a) 1 (model.njoints - 1) data).a i
          = mulCols ((model.joints i).jointSubspace q) (model.joints i).nv
                ((model.joints i).jointVelocitySelector a)
              + (model.joints i).jointBias q v
              + ((forUp (CentroidalDynamicsForwardStepA.algo model q v a) 1
                    (model.njoints - 1) data).v i).cross
                  ((model.joints i).jointVelocity q v)
              + (if model.parents i > 0 then
                  Motion.se3ActionInverse
                    ((forUp (CentroidalDynamicsForwardStepA.algo model q v a) 1
                      (model.njoints - 1) data).liMi i)
                    ((forUp (CentroidalDynamicsForwardStepA.algo model q v a) 1
                      (model.njoints - 1) data).a (model.parents i))
                else 0)
      ∧ (forUp (CentroidalDynamicsForwardStepA.algo model q v a) 1 (model.njoints - 1) data).f i
          = (model.inertias i).mult
              ((forUp (CentroidalDynamicsForwardStepA.algo model q v a) 1
                (model.njoints - 1) data).a i)
            + ((forUp (CentroidalDynamicsForwardStepA.algo model q v a) 1
                (model.njoints - 1) data).v i).crossForce
                ((forUp (CentroidalDynamicsForwardStepA.algo model q v a) 1
                  (model.njoints - 1) data).h i) := by
  intro i h1 hn
  have hp := hpar i h1 hn
  have hpar' : ∀ i, 1 ≤ i → i ≤ model.njoints - 1 → model.parents i < i :=
    fun i h1 h2 => hpar i h1 (by omega)
  refine ⟨fun d => ⟨?_, ?_⟩, ?_, ?_⟩
  · obtain ⟨g1, -, -, g4, -⟩ := cdForwardA_fields model q v a i d
    rw [cdForwardA_a model q v a i d (by omega), Function.update_same, g1, g4, cdForward_liMi,
      Function.update_same]
    by_cases h0 : model.parents i > 0
    · rw [if_pos h0, if_pos h0]; rfl
    · rw [if_neg h0, if_neg h0, add_zero]
  · obtain ⟨-, -, -, g4, g5⟩ := cdForwardA_fields model q v a i d
    rw [cdForwardA_f, Function.update_same, g4, g5]
  · obtain ⟨e1, -⟩ := cdForward_spec model q v _ (cdForwardA_fields model q v a)
      (model.njoints - 1) hpar' data i h1 (by omega)
    rw [(cdForwardA_spec model q v a (model.njoints - 1) hpar' data i h1 (by omega)).1, e1]
    by_cases h0 : model.parents i > 0
    · rw [if_pos h0, if_pos h0]
    · rw [if_neg h0, if_neg h0, add_zero]
  · exact (cdForwardA_spec model q v a (model.njoints - 1) hpar' data i h1 (by omega)).2

theorem acceleration_propagation_witness :
    (forUp (CentroidalDynamicsForwardStepA.algo chainModel [1, 2] [3, 4] [5, 6]) 1
        (chainModel.njoints - 1) (Data.used 3 2)).f 2
      = (chainModel.inertias 2).mult
          ((forUp (CentroidalDynamicsForwardStepA.algo chainModel [1, 2] [3, 4] [5, 6]) 1
            (chainModel.njoints - 1) (Data.used 3 2)).a 2)
        + ((forUp (CentroidalDynamicsForwardStepA.algo chainModel [1, 2] [3, 4] [5, 6]) 1
            (chainModel.njoints - 1) (Data.used 3 2)).v 2).crossForce
            ((forUp (CentroidalDynamicsForwardStepA.algo chainModel [1, 2] [3, 4] [5, 6]) 1
              (chainModel.njoints - 1) (Data.used 3 2)).h 2) :=
  (acceleration_propagation chainModel (Data.used 3 2) [1, 2] [3, 4] [5, 6] chainModel_parents 2
    (by decide) (by decide)).2.2

end c16

section children

variable {K : Type} [Field K]

theorem childrenDown_mem (parents : Nat → Nat) (i top : Nat) :
    ∀ m c, m ≤ top → c ∈ childrenDown parents i top m →
      top - m < c ∧ c ≤ top ∧ parents c = i := by
  intro m
  induction m with
  | zero => intro c _ hc; simp [childrenDown] at hc
  | succ m ih =>
    intro c hm hc
    simp only [childrenDown, List.mem_append] at hc
    rcases hc with hc | hc
    · have := ih c (by omega) hc
      exact ⟨by omega, this.2.1, this.2.2⟩
    · by_cases hp : parents (top - m) = i
      · rw [if_pos hp, List.mem_singleton] at hc
        subst hc
        exact ⟨by omega, by omega, hp⟩
      · rw [if_neg hp] at hc
        simp at hc

/-- Every child is listed. -/
theorem mem_childrenDown (parents : Nat → Nat) (i top : Nat) :
    ∀ m c, m ≤ top → top - m < c → c ≤ top → parents c = i →
      c ∈ childrenDown parents i top m := by
  intro m
  induction m with
  | zero => intro c _ h1 h2 _; omega
  | succ m ih =>
    intro c hm h1 h2 hp
    simp only [childrenDown, List.mem_append]
    by_cases hc : c = top - m
    · right
      rw [← hc, if_pos hp]
      exact List.mem_singleton.mpr rfl
    · left
      exact ih c (by omega) (by omega) h2 hp

/-- A backward loop that adds a contribution of each joint to an accumulator
at its parent leaves in each accumulator its initial value combined with the
contributions of the children, in the order of the loop. -/
theorem accumulate_children {σ β : Type} (body : Nat → σ → σ) (X T : σ → Nat → β)
    (op : β → β → β) (parents : Nat → Nat) (top : Nat) (good : Nat → Prop)
    (hX1 : ∀ i s j, 1 ≤ i → i ≤ top → j ≠ parents i → X (body i s) j = X s j)
    (hX2 : ∀ i s, 1 ≤ i → i ≤ top → good (parents i) →
      X (body i s) (parents i) = op (X s (parents i)) (T s i))
    (hT : ∀ i s c, 1 ≤ i → i ≤ top → i ≤ c → T (body i s) c = T s c) (s0 : σ) :
    ∀ j, good j → X (forDown body top s0) j
      = (childrenDown parents j top top).foldl
          (fun acc c => op acc (T (forDown body top s0) c)) (X s0 j) := by
  have key := forDown_invariant body
    (fun k s => ∀ j, good j → X s j
      = (childrenDown parents j top (top - k)).foldl (fun acc c => op acc (T s c)) (X s0 j))
    top s0 (fun j _ => by simp [childrenDown]) ?_
  · intro j hj
    have := key j hj
    simpa using this
  · intro i s hi ih j hj
    have e : top - i = (top - (i + 1)) + 1 := by omega
    have e' : top - (top - (i + 1)) = i + 1 := by omega
    have hfold : ∀ l : List Nat, (∀ c ∈ l, i + 1 ≤ c) → ∀ b,
        l.foldl (fun acc c => op acc (T (body (i + 1) s) c)) b
          = l.foldl (fun acc c => op acc (T s c)) b := by
      intro l hl b
      exact List.foldl_ext _ _ _ fun acc c hc => by
        rw [hT (i + 1) s c (by omega) (by omega) (hl c hc)]
    rw [e, childrenDown, e']
    rw [hfold _ (fun c hc => by
      rcases List.mem_append.mp hc with hc | hc
      · have := childrenDown_mem parents j top (top - (i + 1)) c (by omega) hc
        omega
      · by_cases hp : parents (i + 1) = j
        · rw [if_pos hp, List.mem_singleton] at hc
          omega
        · rw [if_neg hp] at hc
          simp at hc)]
    rw [List.foldl_append, ← ih j hj]
    by_cases hp : parents (i + 1) = j
    · rw [if_pos hp]
      subst hp
      exact hX2 (i + 1) s (by omega) (by omega) hj
    · rw [if_neg hp]
      exact (hX1 (i + 1) s j (by omega) (by omega) (Ne.symm hp))

end children

section c17

variable {K : Type} [Field K]

theorem blocksDisjoint_of_partition (model : Model K) (hcols : model.ColumnsPartition) :
    model.BlocksDisjoint :=
  fun i j hi1 hi hj1 hj hne c hc => block_disjoint model hcols i j hi1 hi hj1 hj hne c hc

/-- The step of joint `i` of `ccrba` writes no column of `Ag` outside the
block of the joint. -/
theorem ccrbaStep_outside (model : Model K) (i : Nat) (d : Data K) (k : Nat)
    (hk : ¬ ((model.joints i).idx_v ≤ k ∧ k < (model.joints i).idx_v + (model.joints i).nv)) :
    (CcrbaBackwardStep.algo model i d).Ag k = d.Ag k := by
  unfold CcrbaBackwardStep.algo
  simp [JointModel.setJointCols, hk]

/-- The composite inertias after the backward loop of `ccrba`: the value
before the loop plus the transported composite inertias of the children. -/
theorem ccrbaLoops_composite (model : Model K) (data : Data K) (q : List K)
    (hpar : model.TreeOrdered) :
    ∀ j, (ccrbaLoops model data q).Ycrb j
      = (model.children j).foldl
          (fun Y c => Y + Inertia.se3Action ((ccrbaLoops model data q).liMi c)
            ((ccrbaLoops model data q).Ycrb c))
          ((ccrbaStart model data q).Ycrb j) := by
  intro j
  exact accumulate_children (CcrbaBackwardStep.algo model) (fun s j => s.Ycrb j)
    (fun s c => Inertia.se3Action (s.liMi c) (s.Ycrb c)) (fun Y Z => Y + Z) model.parents
    (model.njoints - 1) (fun _ => True)
    (fun i s j _ _ hj => by
      show (CcrbaBackwardStep.algo model i s).Ycrb j = s.Ycrb j
      rw [ccrbaStep_Ycrb, Function.update_noteq hj])
    (fun i s _ _ _ => by
      show (CcrbaBackwardStep.algo model i s).Ycrb (model.parents i) = _
      rw [ccrbaStep_Ycrb, Function.update_same])
    (fun i s c h1 hi hc => by
      have hp := hpar i h1 (by omega)
      show Inertia.se3Action ((CcrbaBackwardStep.algo model i s).liMi c)
          ((CcrbaBackwardStep.algo model i s).Ycrb c) = _
      rw [ccrbaStep_liMi, ccrbaStep_Ycrb, Function.update_noteq (by omega)])
    (ccrbaStart model data q) j trivial

/-- The column blocks of `Ag` after the backward loop of `ccrba`, when the
blocks of different joints do not overlap. -/
theorem ccrbaLoops_blocks (model : Model K) (data : Data K) (q : List K)
    (hpar : model.TreeOrdered) (hdis : model.BlocksDisjoint) :
    ∀ j, 1 ≤ j → j < model.njoints →
      (ccrbaLoops model data q).liMi j = model.liMi q j
      ∧ (ccrbaLoops model data q).oMi j = model.oMi q j
      ∧ ((ccrbaLoops model data q).joints j).S = (model.joints j).jointSubspace q
      ∧ ∀ c, c < (model.joints j).nv →
        (ccrbaLoops model data q).Ag ((model.joints j).idx_v + c)
          = Force.se3Action ((ccrbaLoops model data q).oMi j)
              (((ccrbaLoops model data q).Ycrb j).mult
                (((ccrbaLoops model data q).joints j).S c)) := by
  obtain ⟨-, a1⟩ := ccrbaStart_spec model data q hpar
  have key := forDown_invariant (CcrbaBackwardStep.algo model)
    (fun k s =>
      (∀ j, 1 ≤ j → j < model.njoints →
        s.liMi j = model.liMi q j ∧ s.oMi j = model.oMi q j
        ∧ (s.joints j).S = (model.joints j).jointSubspace q)
      ∧ ∀ j, k < j → j < model.njoints → ∀ c, c < (model.joints j).nv →
        s.Ag ((model.joints j).idx_v + c)
          = Force.se3Action (s.oMi j) ((s.Ycrb j).mult ((s.joints j).S c)))
    (model.njoints - 1) (ccrbaStart model data q)
    ⟨fun j h1 hn => ⟨(a1 j h1 hn).1, (a1 j h1 hn).2.1, (a1 j h1 hn).2.2.1⟩,
      fun j hk hn => by omega⟩ ?_
  · intro j h1 hn
    obtain ⟨k1, k2, k3⟩ := key.1 j h1 hn
    exact ⟨k1, k2, k3, key.2 j (by omega) hn⟩
  · intro i s hi ⟨hF, hA⟩
    have hin : i + 1 < model.njoints := by omega
    have hp := hpar (i + 1) (by omega) hin
    refine ⟨fun j h1 hn => ?_, fun j hk hn c hc => ?_⟩
    · rw [ccrbaStep_liMi, ccrbaStep_oMi, ccrbaStep_S]
      exact hF j h1 hn
    · rw [ccrbaStep_Ag model (i + 1) s (by omega), ccrbaStep_oMi, ccrbaStep_S, ccrbaStep_Ycrb,
        Function.update_noteq (by omega)]
      by_cases hj : j = i + 1
      · subst hj
        rw [setJointCols_block _ _ _ _ hc]
      · rw [setJointCols_other _ _ _ _
          (hdis (i + 1) j (by omega) hin (by omega) hn (Ne.symm hj) c hc)]
        exact hA j (by omega) hn c hc

end c17

section c17b

variable {K : Type} [Field K]

/-- C17. CCRBA column blocks: for every model with `parent(i) < i` whose column
blocks do not overlap, a call of `ccrba` that passes its checks returns, and
in the state before the center-of-mass shift, for every joint `i >= 1`, the
block of `Ag` at the columns of joint `i` (offset `idx_v(i)`, width `nv(i)`)
is `oMi[i].act(Ycrb[i] * S_i)`, with `oMi[i]` the world placement, `S_i` the
motion subspace and `Ycrb[i]` the composite inertia of the subtree rooted at
`i`: `inertias[i]` plus `liMi[j].act(Ycrb[j])` for every child `j` of `i`. The
step of a joint writes no column of `Ag` outside its block. After the shift
every column `k < nv` has unchanged linear rows and angular rows increased by
`Ag_lin.col(k) x com[0]`. -/
theorem ccrba_column_blocks (model : Model K) (data : Data K) (q v : List K)
    (hpar : model.TreeOrdered) (hdis : model.BlocksDisjoint)
    (hcheck : model.check data = true) (hq : q.length = model.nq)
    (hv : v.length = model.nv) :
    ∃ r, ccrba model data q v = some r
      ∧ (∀ i, 1 ≤ i → i < model.njoints →
          (ccrbaLoops model data q).oMi i = model.oMi q i
          ∧ ((ccrbaLoops model data q).joints i).S = (model.joints i).jointSubspace q
          ∧ (∀ c, c < (model.joints i).nv →
              (ccrbaLoops model data q).Ag ((model.joints i).idx_v + c)
                = Force.se3Action ((ccrbaLoops model data q).oMi i)
                    (((ccrbaLoops model data q).Ycrb i).mult
                      (((ccrbaLoops model data q).joints i).S c)))
          ∧ (ccrbaLoops model data q).Ycrb i
              = (model.children i).foldl
                  (fun Y j => Y + Inertia.se3Action ((ccrbaLoops model data q).liMi j)
                    ((ccrbaLoops model data q).Ycrb j))
                  (model.inertias i))
      ∧ (∀ i d k,
          ¬ ((model.joints i).idx_v ≤ k ∧ k < (model.joints i).idx_v + (model.joints i).nv) →
          (CcrbaBackwardStep.algo model i d).Ag k = d.Ag k)
      ∧ ∀ k, k < model.nv →
          (r.Ag k).linear = ((ccrbaLoops model data q).Ag k).linear
          ∧ (r.Ag k).angular = ((ccrbaLoops model data q).Ag k).angular
              + ((ccrbaLoops model data q).Ag k).linear.cross (r.com 0) := by
  refine ⟨_, ccrba_eq model data q v hcheck hq hv, fun i h1 hn => ?_,
    fun i d k hk => ccrbaStep_outside model i d k hk, fun k hk => ?_⟩
  · obtain ⟨-, b2, b3, b4⟩ := ccrbaLoops_blocks model data q hpar hdis i h1 hn
    refine ⟨b2, b3, b4, ?_⟩
    rw [ccrbaLoops_composite model data q hpar i,
      ← (ccrbaStart_spec model data q hpar).2 i h1 hn |>.2.2.2]
  · rw [ccrbaFinish_Ag, ccrbaFinish_com]
    simp only [if_pos hk]
    exact ⟨rfl, rfl⟩

theorem chainModel_disjoint : chainModel.BlocksDisjoint :=
  blocksDisjoint_of_partition chainModel chainModel_columns

theorem ccrba_column_blocks_witness :
    ∃ r, ccrba chainModel (Data.used 3 2) [1, 2] [3, 4] = some r
      ∧ (ccrbaLoops chainModel (Data.used 3 2) [1, 2]).Ag 1
          = Force.se3Action ((ccrbaLoops chainModel (Data.used 3 2) [1, 2]).oMi 2)
              (((ccrbaLoops chainModel (Data.used 3 2) [1, 2]).Ycrb 2).mult
                (((ccrbaLoops chainModel (Data.used 3 2) [1, 2]).joints 2).S 0))
      ∧ (r.Ag 1).angular = ((ccrbaLoops chainModel (Data.used 3 2) [1, 2]).Ag 1).angular
          + ((ccrbaLoops chainModel (Data.used 3 2) [1, 2]).Ag 1).linear.cross (r.com 0) := by
  obtain ⟨r, h1, h2, -, h4⟩ := ccrba_column_blocks chainModel (Data.used 3 2) [1, 2] [3, 4]
    chainModel_parents chainModel_disjoint rfl rfl rfl
  exact ⟨r, h1, (h2 2 (by decide) (by decide)).2.2.1 0 (by decide), (h4 1 (by decide)).2⟩

end c17b

section c18

variable {K : Type} [Field K]

theorem dStep_v (model : Model K) (i : Nat) (d : Data K) :
    (DCcrbaBackwardStep.algo model i d).v = d.v := by
  unfold DCcrbaBackwardStep.algo
  by_cases hp : model.parents i > 0 <;> simp [hp]

/-- The velocities in Data after the backward loop of `dccrba` are those of
the forward kinematics. -/
theorem dccrbaLoops_v (model : Model K) (data : Data K) (q v : List K) :
    (dccrbaLoops model data q v).v = (forwardKinematicsV model data q v).v := by
  have e1 := forDown_field (DCcrbaBackwardStep.algo model) (fun s : Data K => s.v)
    (dStep_v model) (model.njoints - 1) (dccrbaStart model data q v)
  have e2 := forUp_field (dccrbaInitStep model) (fun s : Data K => s.v) (fun _ _ => rfl)
    (model.njoints - 1) 1
    { forwardKinematicsV model data q v with
      oYcrb := Function.update (forwardKinematicsV model data q v).oYcrb 0 Inertia.Zero }
  exact e1.trans e2

/-- The backward loop of `dccrba` keeps the placements, world velocities and
joint data of its start. -/
theorem dccrbaLoops_frame (model : Model K) (data : Data K) (q v : List K) :
    (dccrbaLoops model data q v).oMi = (dccrbaStart model data q v).oMi
    ∧ (dccrbaLoops model data q v).ov = (dccrbaStart model data q v).ov
    ∧ (dccrbaLoops model data q v).joints = (dccrbaStart model data q v).joints := by
  have e := forDown_field (DCcrbaBackwardStep.algo model)
    (fun s : Data K => (s.oMi, s.ov, s.joints))
    (fun i s => by
      obtain ⟨t1, t2, t3, -⟩ := dStep_fields model i s
      show ((DCcrbaBackwardStep.algo model i s).oMi, (DCcrbaBackwardStep.algo model i s).ov,
        (DCcrbaBackwardStep.algo model i s).joints) = _
      rw [t1, t2, t3])
    (model.njoints - 1) (dccrbaStart model data q v)
  exact ⟨congrArg Prod.fst e, congrArg (fun p => p.2.1) e, congrArg (fun p => p.2.2) e⟩

/-- The world-frame composite inertias after the backward loop of `dccrba`:
the value before the loop plus the composite inertias of the children. -/
theorem dccrbaLoops_composite (model : Model K) (data : Data K) (q v : List K)
    (hpar : model.TreeOrdered) :
    ∀ j, (dccrbaLoops model data q v).oYcrb j
      = (model.children j).foldl (fun Y c => Y + (dccrbaLoops model data q v).oYcrb c)
          ((dccrbaStart model data q v).oYcrb j) := by
  intro j
  exact accumulate_children (DCcrbaBackwardStep.algo model) (fun s j => s.oYcrb j)
    (fun s c => s.oYcrb c) (fun Y Z => Y + Z) model.parents
    (model.njoints - 1) (fun _ => True)
    (fun i s j _ _ hj => by
      show (DCcrbaBackwardStep.algo model i s).oYcrb j = s.oYcrb j
      rw [(dStep_fields model i s).2.2.2.1, Function.update_noteq hj])
    (fun i s _ _ _ => by
      show (DCcrbaBackwardStep.algo model i s).oYcrb (model.parents i) = _
      rw [(dStep_fields model i s).2.2.2.1, Function.update_same])
    (fun i s c h1 hi hc => by
      have hp := hpar i h1 (by omega)
      show (DCcrbaBackwardStep.algo model i s).oYcrb c = _
      rw [(dStep_fields model i s).2.2.2.1, Function.update_noteq (by omega)])
    (dccrbaStart model data q v) j trivial

/-- The variations of the composite inertias after the backward loop of
`dccrba`, for the joints other than the root. -/
theorem dccrbaLoops_variation (model : Model K) (data : Data K) (q v : List K)
    (hpar : model.TreeOrdered) :
    ∀ j, 0 < j → (dccrbaLoops model data q v).doYcrb j
      = (model.children j).foldl (fun A c => A + (dccrbaLoops model data q v).doYcrb c)
          ((dccrbaStart model data q v).doYcrb j) := by
  intro j hj
  exact accumulate_children (DCcrbaBackwardStep.algo model) (fun s j => s.doYcrb j)
    (fun s c => s.doYcrb c) (fun Y Z => Y + Z) model.parents
    (model.njoints - 1) (fun j => 0 < j)
    (fun i s j _ _ hj => by
      show (DCcrbaBackwardStep.algo model i s).doYcrb j = s.doYcrb j
      rw [(dStep_fields model i s).2.2.2.2]
      by_cases hp : model.parents i > 0
      · rw [if_pos hp, Function.update_noteq hj]
      · rw [if_neg hp])
    (fun i s _ _ hg => by
      show (DCcrbaBackwardStep.algo model i s).doYcrb (model.parents i) = _
      rw [(dStep_fields model i s).2.2.2.2, if_pos hg, Function.update_same])
    (fun i s c h1 hi hc => by
      have hp := hpar i h1 (by omega)
      show (DCcrbaBackwardStep.algo model i s).doYcrb c = _
      rw [(dStep_fields model i s).2.2.2.2]
      by_cases hp0 : model.parents i > 0
      · rw [if_pos hp0, Function.update_noteq (by omega)]
      · rw [if_neg hp0])
    (dccrbaStart model data q v) j hj

/-- The column blocks of `Ag` and `dAg` after the backward loop of `dccrba`,
when the blocks of different joints do not overlap. -/
theorem dccrbaLoops_blocks (model : Model K) (data : Data K) (q v : List K)
    (hpar : model.TreeOrdered) (hdis : model.BlocksDisjoint) :
    ∀ j, 1 ≤ j → j < model.njoints → ∀ c, c < (model.joints j).nv →
      (dccrbaLoops model data q v).Ag ((model.joints j).idx_v + c)
        = ((dccrbaLoops model data q v).oYcrb j).mult
            (Motion.se3Action ((dccrbaLoops model data q v).oMi j)
              (((dccrbaLoops model data q v).joints j).S c))
      ∧ (dccrbaLoops model data q v).dAg ((model.joints j).idx_v + c)
        = ((dccrbaLoops model data q v).doYcrb j).mulMotion
            (Motion.se3Action ((dccrbaLoops model data q v).oMi j)
              (((dccrbaLoops model data q v).joints j).S c))
          + ((dccrbaLoops model data q v).oYcrb j).mult
              (((dccrbaLoops model data q v).ov j).cross
                (Motion.se3Action ((dccrbaLoops model data q v).oMi j)
                  (((dccrbaLoops model data q v).joints j).S c))) := by
  have key := forDown_invariant (DCcrbaBackwardStep.algo model)
    (fun k s =>
      ∀ j, k < j → j < model.njoints → ∀ c, c < (model.joints j).nv →
        s.Ag ((model.joints j).idx_v + c)
          = (s.oYcrb j).mult (Motion.se3Action (s.oMi j) ((s.joints j).S c))
        ∧ s.dAg ((model.joints j).idx_v + c)
          = (s.doYcrb j).mulMotion (Motion.se3Action (s.oMi j) ((s.joints j).S c))
            + (s.oYcrb j).mult ((s.ov j).cross
                (Motion.se3Action (s.oMi j) ((s.joints j).S c))))
    (model.njoints - 1) (dccrbaStart model data q v) (fun j hk hn => by omega) ?_
  · intro j h1 hn
    exact key j (by omega) hn
  · intro i s hi hA j hk hn c hc
    have hin : i + 1 < model.njoints := by omega
    have hp := hpar (i + 1) (by omega) hin
    obtain ⟨t1, t2, t3, t4, t5⟩ := dStep_fields model (i + 1) s
    obtain ⟨sb, sr⟩ := dStep_cols model (i + 1) s (by omega)
    have hY : (DCcrbaBackwardStep.algo model (i + 1) s).oYcrb j = s.oYcrb j := by
      rw [t4, Function.update_noteq (by omega)]
    have hdY : (DCcrbaBackwardStep.algo model (i + 1) s).doYcrb j = s.doYcrb j := by
      rw [t5]
      by_cases hp0 : model.parents (i + 1) > 0
      · rw [if_pos hp0, Function.update_noteq (by omega)]
      · rw [if_neg hp0]
    rw [t1, t2, t3, hY, hdY]
    by_cases hj : j = i + 1
    · subst hj
      exact sb c hc
    · have hb := hdis (i + 1) j (by omega) hin (by omega) hn (Ne.symm hj) c hc
      rw [(sr _ hb).1, (sr _ hb).2]
      exact hA j (by omega) hn c hc

end c18

section c18b

variable {K : Type} [Field K]

/-- C18. DCCRBA column blocks: for every model with `parent(i) < i` whose
column blocks do not overlap, a call of `dccrba` that passes its checks
returns, and in the state before the center-of-mass shift, for every joint
`i >= 1` with `J_i = oMi[i].act(S_i)` and `dJ_i = ov[i] x J_i`
(`ov[i] = oMi[i].act(v[i])`), the block of `Ag` at the columns of joint `i` is
`oYcrb[i] * J_i` and the block of `dAg` is `doYcrb[i] * J_i + oYcrb[i] * dJ_i`;
`oYcrb[i]` is the sum over the subtree rooted at `i` of `oMi[j].act(inertias[j])`
(the value of `i` plus the sums of its children) and `doYcrb[i]` is the sum
over the same subtree of `(oMi[j].act(inertias[j])).variation(ov[j])`.
Afterwards every column `k < nv` of `Ag` and of `dAg` has unchanged linear
rows and angular rows increased by the linear rows `x com[0]`. -/
theorem dccrba_column_blocks (model : Model K) (data : Data K) (q v : List K)
    (hpar : model.TreeOrdered) (hdis : model.BlocksDisjoint)
    (hcheck : model.check data = true) (hq : q.length = model.nq)
    (hv : v.length = model.nv) :
    ∃ r, dccrba model data q v = some r
      ∧ (∀ i, 1 ≤ i → i < model.njoints →
          (dccrbaLoops model data q v).oMi i = model.oMi q i
          ∧ ((dccrbaLoops model data q v).joints i).S = (model.joints i).jointSubspace q
          ∧ (dccrbaLoops model data q v).ov i
              = Motion.se3Action ((dccrbaLoops model data q v).oMi i)
                  ((dccrbaLoops model data q v).v i)
          ∧ (∀ c, c < (model.joints i).nv →
              (dccrbaLoops model data q v).Ag ((model.joints i).idx_v + c)
                = ((dccrbaLoops model data q v).oYcrb i).mult
                    (Motion.se3Action ((dccrbaLoops model data q v).oMi i)
                      (((dccrbaLoops model data q v).joints i).S c))
              ∧ (dccrbaLoops model data q v).dAg ((model.joints i).idx_v + c)
                = ((dccrbaLoops model data q v).doYcrb i).mulMotion
                    (Motion.se3Action ((dccrbaLoops model data q v).oMi i)
                      (((dccrbaLoops model data q v).joints i).S c))
                  + ((dccrbaLoops model data q v).oYcrb i).mult
                      (((dccrbaLoops model data q v).ov i).cross
                        (Motion.se3Action ((dccrbaLoops model data q v).oMi i)
                          (((dccrbaLoops model data q v).joints i).S c))))
          ∧ (dccrbaLoops model data q v).oYcrb i
              = (model.children i).foldl
                  (fun Y j => Y + (dccrbaLoops model data q v).oYcrb j)
                  (Inertia.se3Action ((dccrbaLoops model data q v).oMi i) (model.inertias i))
          ∧ (dccrbaLoops model data q v).doYcrb i
              = (model.children i).foldl
                  (fun A j => A + (dccrbaLoops model data q v).doYcrb j)
                  ((Inertia.se3Action ((dccrbaLoops model data q v).oMi i)
                    (model.inertias i)).variation ((dccrbaLoops model data q v).ov i)))
      ∧ ∀ k, k < model.nv →
          (r.Ag k).linear = ((dccrbaLoops model data q v).Ag k).linear
          ∧ (r.Ag k).angular = ((dccrbaLoops model data q v).Ag k).angular
              + ((dccrbaLoops model data q v).Ag k).linear.cross (r.com 0)
          ∧ (r.dAg k).linear = ((dccrbaLoops model data q v).dAg k).linear
          ∧ (r.dAg k).angular = ((dccrbaLoops model data q v).dAg k).angular
              + ((dccrbaLoops model data q v).dAg k).linear.cross (r.com 0) := by
  refine ⟨_, dccrba_eq model data q v hcheck hq hv, fun i h1 hn => ?_, fun k hk => ?_⟩
  · obtain ⟨f1, f2, f3⟩ := dccrbaLoops_frame model data q v
    obtain ⟨s1, s2, s3, s4, s5⟩ := (dccrbaStart_spec model data q v hpar).2 i h1 hn
    have hoMi : (dccrbaLoops model data q v).oMi i = model.oMi q i := by rw [f1, s1]
    have hov : (dccrbaLoops model data q v).ov i
        = Motion.se3Action ((dccrbaLoops model data q v).oMi i)
            ((dccrbaLoops model data q v).v i) := by
      rw [hoMi, f2, s3, dccrbaLoops_v]
    refine ⟨hoMi, by rw [f3, s2], hov, dccrbaLoops_blocks model data q v hpar hdis i h1 hn,
      ?_, ?_⟩
    · rw [dccrbaLoops_composite model data q v hpar i, s4, hoMi]
    · rw [dccrbaLoops_variation model data q v hpar i (by omega), s5, s4, f2, hoMi]
  · rw [dccrbaFinish_Ag, dccrbaFinish_dAg, dccrbaFinish_com]
    simp only [if_pos hk]
    exact ⟨rfl, rfl, rfl, rfl⟩

theorem dccrba_column_blocks_witness :
    ∃ r, dccrba chainModel (Data.used 3 2) [1, 2] [3, 4] = some r
      ∧ (dccrbaLoops chainModel (Data.used 3 2) [1, 2] [3, 4]).oYcrb 1
          = (chainModel.children 1).foldl
              (fun Y j => Y + (dccrbaLoops chainModel (Data.used 3 2) [1, 2] [3, 4]).oYcrb j)
              (Inertia.se3Action ((dccrbaLoops chainModel (Data.used 3 2) [1, 2] [3, 4]).oMi 1)
                (chainModel.inertias 1))
      ∧ (r.dAg 1).angular
          = ((dccrbaLoops chainModel (Data.used 3 2) [1, 2] [3, 4]).dAg 1).angular
            + ((dccrbaLoops chainModel (Data.used 3 2) [1, 2] [3, 4]).dAg 1).linear.cross
                (r.com 0) := by
  obtain ⟨r, h1, h2, h3⟩ := dccrba_column_blocks chainModel (Data.used 3 2) [1, 2] [3, 4]
    chainModel_parents chainModel_disjoint rfl rfl rfl
  exact ⟨r, h1, (h2 1 (by decide) (by decide)).2.2.2.2.1, (h3 1 (by decide)).2.2.2⟩

end c18b

section c19

variable {K : Type} [Field K]

theorem dccrbaFinish_oYcrb (model : Model K) (v : List K) (d : Data K) :
    (dccrbaFinish model v d).oYcrb = d.oYcrb := by
  simp [dccrbaFinish, shiftAg_eq, shiftdAg_eq]

/-- The mass of the world-frame composite inertia of the root after the
backward loop of `dccrba` is the total mass. -/
theorem dccrbaLoops_mass (model : Model K) (data : Data K) (q v : List K)
    (hpar : model.TreeOrdered) :
    ((dccrbaLoops model data q v).oYcrb 0).mass = model.totalMass := by
  have h0 := (loops_agree model data q v hpar).2 0 (Nat.zero_le _)
  rw [h0.1]
  exact ccrbaLoops_mass model data q hpar

/-- C19. Center-of-mass velocity in `dccrba`: for every model with
`parent(i) < i` and every `q`, `v`, a call of `dccrba` that passes its checks
sets `com[0] = oYcrb[0].lever()`, shifts every column `k < nv` of the matrix
`Ag` left by the backward loop (linear rows unchanged, angular rows increased
by `Ag_lin.col(k) x com[0]`), and then leaves `hg = Ag * v` with this shifted
`Ag` and `vcom[0] = hg.linear / oYcrb[0].mass()`, where `oYcrb[0].mass()` is
the total mass, the sum of the per-joint inertia masses. -/
theorem com_velocity (model : Model K) (data : Data K) (q v : List K)
    (hpar : model.TreeOrdered)
    (hcheck : model.check data = true) (hq : q.length = model.nq)
    (hv : v.length = model.nv) :
    ∃ r, dccrba model data q v = some r
      ∧ r.com 0 = (r.oYcrb 0).lever
      ∧ (∀ k, k < model.nv →
          (r.Ag k).linear = ((dccrbaLoops model data q v).Ag k).linear
          ∧ (r.Ag k).angular = ((dccrbaLoops model data q v).Ag k).angular
              + ((dccrbaLoops model data q v).Ag k).linear.cross (r.com 0))
      ∧ r.hg = mulCols (fun k => ((dccrbaLoops model data q v).Ag k).shift (r.com 0)) model.nv
          (fun k => v.getD k 0)
      ∧ r.hg = mulCols r.Ag model.nv (fun k => v.getD k 0)
      ∧ r.vcom 0 = r.hg.linear / (r.oYcrb 0).mass
      ∧ (r.oYcrb 0).mass = model.totalMass
      ∧ r.vcom 0 = r.hg.linear / model.totalMass := by
  refine ⟨_, dccrba_eq model data q v hcheck hq hv, ?_, fun k hk => ?_, ?_,
    dccrbaFinish_hg model v _, ?_, ?_, ?_⟩
  · rw [dccrbaFinish_com, dccrbaFinish_oYcrb]
  · rw [dccrbaFinish_Ag, dccrbaFinish_com]
    simp only [if_pos hk]
    exact ⟨rfl, rfl⟩
  · rw [dccrbaFinish_hg, dccrbaFinish_Ag, dccrbaFinish_com]
    exact mulCols_congr _ _ _ _ fun k hk => by simp only [if_pos hk]
  · rw [dccrbaFinish_vcom, dccrbaFinish_oYcrb]
  · rw [dccrbaFinish_oYcrb]
    exact dccrbaLoops_mass model data q v hpar
  · rw [dccrbaFinish_vcom, dccrbaLoops_mass model data q v hpar]

theorem com_velocity_witness :
    ∃ r, dccrba chainModel (Data.used 3 2) [1, 2] [3, 4] = some r
      ∧ r.com 0 = (r.oYcrb 0).lever
      ∧ (∀ k, k < chainModel.nv →
          (r.Ag k).linear = ((dccrbaLoops chainModel (Data.used 3 2) [1, 2] [3, 4]).Ag k).linear
          ∧ (r.Ag k).angular
              = ((dccrbaLoops chainModel (Data.used 3 2) [1, 2] [3, 4]).Ag k).angular
                + ((dccrbaLoops chainModel (Data.used 3 2) [1, 2] [3, 4]).Ag k).linear.cross
                    (r.com 0))
      ∧ r.hg = mulCols
          (fun k => ((dccrbaLoops chainModel (Data.used 3 2) [1, 2] [3, 4]).Ag k).shift (r.com 0))
          chainModel.nv (fun k => ([3, 4] : List ℚ).getD k 0)
      ∧ r.hg = mulCols r.Ag chainModel.nv (fun k => ([3, 4] : List ℚ).getD k 0)
      ∧ r.vcom 0 = r.hg.linear / (r.oYcrb 0).mass
      ∧ (r.oYcrb 0).mass = chainModel.totalMass
      ∧ r.vcom 0 = r.hg.linear / chainModel.totalMass :=
  com_velocity chainModel (Data.used 3 2) [1, 2] [3, 4] chainModel_parents rfl rfl rfl

end c19

end se3
